import Mathlib

/-!
# ThreadingLibrary/mythread.cc

A shallow embedding of the cooperative threading library.

Pointers are natural numbers and `0` is the null pointer.  The objects the
library allocates with `new` live in two typed heaps, one for `_MyThread`
and one for `_MySem`; a heap maps an address to the object stored there, or
to `none` when nothing is allocated at that address.  The address returned
by `new` is an argument of the allocating operation.

A library call is a function from the runtime state before the call to the
state in which control next leaves the library.  The saved machine contexts
(`ucontext_t`, the stacks) are not part of the state: a context switch is
the change of `current_thread`.  A library call made by a thread executes no
code after it is resumed by `swapcontext` other than returning, so the state
transition of a call is complete at the switch.

A call that dereferences a pointer to an object that is not allocated has
no defined behaviour; such a call yields `none`.

`MyThreadExit` does not switch context.  A thread calls it as its last act and
then returns from its start function into `dummy_func`, which frees it and
dispatches; the call `Call.exit` of a history is this pair.  The states the
library reaches are those of `runFrom`: `MyThreadInit` called by the host,
followed by calls of whichever thread is running.
-/

namespace MyThreadLib

/-- Largest value of the C type `int` (32 bits). -/
def INT_MAX : Int := 2147483647

/-- Smallest value of the C type `int` (32 bits). -/
def INT_MIN : Int := -2147483648

/-- Reduction of an integer to the 32-bit two's-complement range.  Overflow of
a signed `int` is left undefined by the language; the increment instruction
the compiler emits for `++ms->value` stores the wrapped result. -/
def wrapInt (x : Int) : Int := (x + 2147483648) % 4294967296 - 2147483648

/-- The struct `_MyThread` without its saved context: `parent` is a pointer
(`0` when the thread has no parent), `children` and `blocked_by` are the two
`std::set<void*>` members. -/
structure _MyThread where
  parent : Nat
  children : Finset Nat
  blocked_by : Finset Nat
deriving DecidableEq

/-- The struct `_MySem`: an `int` and a `std::queue` of thread pointers, whose
front is the head of the list. -/
structure _MySem where
  value : Int
  block_queue : List Nat
deriving DecidableEq

/-- The global variables of the library together with the two heaps. -/
structure Runtime where
  current_thread : Nat
  ready_queue : List Nat
  init : Bool
  threads : Nat → Option _MyThread
  sems : Nat → Option _MySem

/-- The function `_popNextThread`: with an empty ready queue it clears
`current_thread` and control goes back to `main_context`; otherwise the front
of the ready queue is popped and becomes the current thread. -/
def _popNextThread (s : Runtime) : Runtime :=
  match s.ready_queue with
  | [] => { s with current_thread := 0 }
  | next :: rest => { s with ready_queue := rest, current_thread := next }

/-- The function `MyThreadCreate`; `new_thread` is the address returned by
`new _MyThread()`.  The result is the returned handle and the new state. -/
def MyThreadCreate (s : Runtime) (new_thread : Nat) : Option (Nat × Runtime) :=
  let allocated := Function.update s.threads new_thread
    (some { parent := s.current_thread, children := ∅, blocked_by := ∅ })
  if s.current_thread ≠ 0 then
    match allocated s.current_thread with
    | none => none
    | some cur =>
      some (new_thread,
        { s with
          threads := Function.update allocated s.current_thread
            (some { cur with children := insert new_thread cur.children })
          ready_queue := s.ready_queue ++ [new_thread] })
  else
    some (new_thread,
      { s with threads := allocated, ready_queue := s.ready_queue ++ [new_thread] })

/-- The function `MyThreadYield`. -/
def MyThreadYield (s : Runtime) : Runtime :=
  if !s.ready_queue.isEmpty then
    _popNextThread { s with ready_queue := s.ready_queue ++ [s.current_thread] }
  else s

/-- The function `MySemaphoreInit`; `sem` is the address returned by
`new _MySem()`.  The result is the returned handle and the new state. -/
def MySemaphoreInit (s : Runtime) (sem : Nat) (initialValue : Int) : Nat × Runtime :=
  if initialValue < 0 then (0, s)
  else
    (sem, { s with
      sems := Function.update s.sems sem (some { value := initialValue, block_queue := [] }) })

/-- The function `MySemaphoreSignal`. -/
def MySemaphoreSignal (s : Runtime) (sem : Nat) : Option Runtime :=
  if sem ≠ 0 then
    match s.sems sem with
    | none => none
    | some ms =>
      match ms.block_queue with
      | [] =>
        some { s with
          sems := Function.update s.sems sem (some { ms with value := wrapInt (ms.value + 1) }) }
      | front :: rest =>
        some { s with
          ready_queue := s.ready_queue ++ [front]
          sems := Function.update s.sems sem (some { ms with block_queue := rest }) }
  else some s

/-- The function `MySemaphoreWait`.  The decrement is taken only when
`value > 0`, where it cannot leave the range of `int`. -/
def MySemaphoreWait (s : Runtime) (sem : Nat) : Option Runtime :=
  if sem ≠ 0 then
    match s.sems sem with
    | none => none
    | some ms =>
      if ms.value > 0 then
        some { s with
          sems := Function.update s.sems sem (some { ms with value := ms.value - 1 }) }
      else
        some (_popNextThread { s with
          sems := Function.update s.sems sem
            (some { ms with block_queue := ms.block_queue ++ [s.current_thread] }) })
  else some s

/-- The function `MySemaphoreDestroy`: the returned `int` and the new state. -/
def MySemaphoreDestroy (s : Runtime) (sem : Nat) : Option (Int × Runtime) :=
  if sem ≠ 0 then
    match s.sems sem with
    | none => none
    | some ms =>
      if ms.block_queue.isEmpty then
        some (0, { s with sems := Function.update s.sems sem none })
      else some (-1, s)
  else some (-1, s)

/-- A call made by the running thread in a history of one semaphore. -/
inductive SemCall where
  | wait
  | signal
  | yield
deriving DecidableEq

/-- One call of a history on the semaphore `sem`. -/
def semCall (s : Runtime) (sem : Nat) : SemCall → Option Runtime
  | .wait => MySemaphoreWait s sem
  | .signal => MySemaphoreSignal s sem
  | .yield => some (MyThreadYield s)

/-- A history of calls on the semaphore `sem`, each made in the state the
previous one left. -/
def semCalls (s : Runtime) (sem : Nat) : List SemCall → Option Runtime
  | [] => some s
  | c :: cs => (semCall s sem c).bind fun s1 => semCalls s1 sem cs

/-- No `MySemaphoreSignal` of the history finds the block queue of `sem` empty
and its value equal to `INT_MAX`: no increment made in the history overflows. -/
def noOverflow (s : Runtime) (sem : Nat) : List SemCall → Bool
  | [] => true
  | c :: cs =>
    (match c, s.sems sem with
      | SemCall.signal, some ms => !(ms.block_queue.isEmpty && decide (ms.value = INT_MAX))
      | _, _ => true) &&
    (match semCall s sem c with
      | some s1 => noOverflow s1 sem cs
      | none => true)

/-- A state before any library call: nothing allocated, nothing queued. -/
def emptyRuntime : Runtime :=
  { current_thread := 0, ready_queue := [], init := false,
    threads := fun _ => none, sems := fun _ => none }

/-- The function `MyThreadJoin`: the returned `int` and the new state.  The
value `0` is the one the caller receives when it is resumed. -/
def MyThreadJoin (s : Runtime) (thread : Nat) : Option (Int × Runtime) :=
  match s.threads s.current_thread with
  | none => none
  | some cur =>
    if thread ∈ cur.children then
      some (0, _popNextThread { s with
        threads := Function.update s.threads s.current_thread
          (some { cur with blocked_by := insert thread cur.blocked_by }) })
    else some (-1, s)

/-- The function `MyThreadJoinAll`.  The loop inserts every child into
`blocked_by`, which leaves the union of the two sets. -/
def MyThreadJoinAll (s : Runtime) : Option Runtime :=
  match s.threads s.current_thread with
  | none => none
  | some cur =>
    if cur.children ≠ ∅ then
      some (_popNextThread { s with
        threads := Function.update s.threads s.current_thread
          (some { cur with blocked_by := cur.blocked_by ∪ cur.children }) })
    else some s

/-- The first block of `MyThreadExit`, for the running thread `cur`: the
bookkeeping in the parent. -/
def exitParent (s : Runtime) (cur : _MyThread) : Option Runtime :=
  if cur.parent ≠ 0 then
    match s.threads cur.parent with
    | none => none
    | some parent =>
      if parent.blocked_by ≠ ∅ then
        if parent.blocked_by.erase s.current_thread = ∅ then
          some { s with
            threads := Function.update s.threads cur.parent
              (some { parent with
                children := parent.children.erase s.current_thread
                blocked_by := parent.blocked_by.erase s.current_thread })
            ready_queue := s.ready_queue ++ [cur.parent] }
        else
          some { s with
            threads := Function.update s.threads cur.parent
              (some { parent with
                children := parent.children.erase s.current_thread
                blocked_by := parent.blocked_by.erase s.current_thread }) }
      else
        some { s with
          threads := Function.update s.threads cur.parent
            (some { parent with children := parent.children.erase s.current_thread }) }
  else some s

/-- The loop of `MyThreadExit` over `children`: `parent = 0` is written into
every child.  The writes go to distinct objects, so the result does not depend
on the order of the iteration. -/
def detachChildren (threads : Nat → Option _MyThread) (children : Finset Nat) :
    Option (Nat → Option _MyThread) :=
  if ∀ c ∈ children, (threads c).isSome = true then
    some fun a =>
      if a ∈ children then (threads a).map fun th => { th with parent := 0 } else threads a
  else none

/-- The function `MyThreadExit`.  It does not switch context: the caller goes
on to return from its start function. -/
def MyThreadExit (s : Runtime) : Option Runtime :=
  match s.threads s.current_thread with
  | none => none
  | some cur =>
    (exitParent s cur).bind fun s1 =>
      match s1.threads s1.current_thread with
      | none => none
      | some cur1 =>
        (detachChildren s1.threads cur1.children).map fun detached =>
          { s1 with threads := detached }

/-- One round of the loop of `dummy_func`, entered when the start function of
the current thread returns: the thread is freed and the next ready thread is
dispatched, or control goes back to `main_context`. -/
def dummy_func (s : Runtime) : Option Runtime :=
  match s.threads s.current_thread with
  | none => none
  | some _ =>
    let freed := Function.update s.threads s.current_thread none
    match s.ready_queue with
    | [] => some { s with threads := freed, current_thread := 0 }
    | next :: rest => some { s with threads := freed, ready_queue := rest, current_thread := next }

/-- The function `MyThreadInit`; `new_thread` is the address returned by
`new _MyThread()` inside `MyThreadCreate`.  The set-up of `dummy_context`
touches saved contexts only. -/
def MyThreadInit (s : Runtime) (new_thread : Nat) : Option Runtime :=
  if !s.init then
    (MyThreadCreate { s with init := true } new_thread).map fun r => _popNextThread r.2
  else some s

/-- The context a dispatcher transfers control to. -/
inductive Control where
  | host
  | thread (t : Nat)
deriving DecidableEq

/-- The transfer of control at the end of `_popNextThread`:
`setcontext(&main_context)` with an empty ready queue, `swapcontext` into the
context of the front of the ready queue otherwise. -/
def _popNextThread_control (s : Runtime) : Control :=
  match s.ready_queue with
  | [] => Control.host
  | next :: _ => Control.thread next

/-- The transfer of control at the end of one round of `dummy_func`. -/
def dummy_func_control (s : Runtime) : Control :=
  match s.ready_queue with
  | [] => Control.host
  | next :: _ => Control.thread next

/-- A library call made by the running thread.  `exit` is `MyThreadExit`
followed by the return of the start function into `dummy_func`; `create` and
`semInit` carry the address the allocator returns. -/
inductive Call where
  | create (new_thread : Nat)
  | yield
  | join (thread : Nat)
  | joinAll
  | exit
  | semInit (sem : Nat) (initialValue : Int)
  | semWait (sem : Nat)
  | semSignal (sem : Nat)
  | semDestroy (sem : Nat)
deriving DecidableEq

/-- The state a library call leaves.  The allocator returns a non-null address
at which no object of the kind is allocated. -/
def libCall (s : Runtime) : Call → Option Runtime
  | .create new_thread =>
    if new_thread ≠ 0 ∧ (s.threads new_thread).isNone = true then
      (MyThreadCreate s new_thread).map Prod.snd
    else none
  | .yield => some (MyThreadYield s)
  | .join thread => (MyThreadJoin s thread).map Prod.snd
  | .joinAll => MyThreadJoinAll s
  | .exit => (MyThreadExit s).bind dummy_func
  | .semInit sem initialValue =>
    if sem ≠ 0 ∧ (s.sems sem).isNone = true then some (MySemaphoreInit s sem initialValue).2
    else none
  | .semWait sem => MySemaphoreWait s sem
  | .semSignal sem => MySemaphoreSignal s sem
  | .semDestroy sem => (MySemaphoreDestroy s sem).map Prod.snd

/-- A call made by the running thread: there is none when no thread runs. -/
def threadCall (s : Runtime) (c : Call) : Option Runtime :=
  if s.current_thread ≠ 0 then libCall s c else none

/-- A sequence of calls, each made by the thread that runs in the state the
previous call left. -/
def threadCalls (s : Runtime) : List Call → Option Runtime
  | [] => some s
  | c :: cs => (threadCall s c).bind fun s1 => threadCalls s1 cs

/-- The state after `MyThreadInit` in state `s0`, with the first thread
allocated at `main`, followed by the calls `cs` of the running threads. -/
def runFrom (s0 : Runtime) (main : Nat) (cs : List Call) : Option Runtime :=
  (MyThreadInit s0 main).bind fun s1 => threadCalls s1 cs

/-- Whether thread `t` executes `MyThreadExit` in the course of the calls `cs`
made from state `s`. -/
def exitsBy (t : Nat) (s : Runtime) : List Call → Bool
  | [] => false
  | c :: cs =>
    (decide (c = Call.exit) && decide (s.current_thread = t)) ||
      (match threadCall s c with
       | some s1 => exitsBy t s1 cs
       | none => false)

/-- The state of the library when the host calls `MyThreadInit`: no thread
exists and nothing waits on a semaphore. -/
structure Unstarted (s : Runtime) : Prop where
  init : s.init = false
  current : s.current_thread = 0
  ready : s.ready_queue = []
  threads : ∀ a, s.threads a = none
  waiters : ∀ a ms, s.sems a = some ms → ms.block_queue = []

/-- Thread `t` is allocated and does not wait in a join. -/
def Runnable (s : Runtime) (t : Nat) : Prop :=
  ∃ th, s.threads t = some th ∧ th.blocked_by = ∅

/-- The shape of the thread heap: nothing is allocated at the null address,
the children of a thread are allocated and point back to it, a non-null parent
is allocated and lists the thread among its children, no thread has its parent
among its children, and a thread is blocked on children only. -/
structure TreeInv (threads : Nat → Option _MyThread) : Prop where
  null_free : threads 0 = none
  child_parent : ∀ p P c, threads p = some P → c ∈ P.children →
    ∃ C, threads c = some C ∧ C.parent = p
  parent_child : ∀ c C, threads c = some C → C.parent ≠ 0 →
    ∃ P, threads C.parent = some P ∧ c ∈ P.children
  parent_not_child : ∀ t T, threads t = some T → T.parent ∉ T.children
  blocked_sub : ∀ t T, threads t = some T → T.blocked_by ⊆ T.children

/-- The queues, without regard to the running thread: the ready queue and the
block queues have no repetition, hold runnable threads only, and no thread is
in two of them. -/
structure Parked (s : Runtime) : Prop where
  ready_nodup : s.ready_queue.Nodup
  ready_run : ∀ t ∈ s.ready_queue, Runnable s t
  sem_nodup : ∀ a ms, s.sems a = some ms → ms.block_queue.Nodup
  sem_run : ∀ a ms, s.sems a = some ms → ∀ t ∈ ms.block_queue,
    t ∉ s.ready_queue ∧ Runnable s t
  sem_disjoint : ∀ a b ma mb, a ≠ b → s.sems a = some ma → s.sems b = some mb →
    ∀ t ∈ ma.block_queue, t ∉ mb.block_queue

/-- The invariant of the runtime between library calls. -/
structure Inv (s : Runtime) : Prop where
  tree : TreeInv s.threads
  parked : Parked s
  cur_not_ready : s.current_thread ∉ s.ready_queue
  cur_run : s.current_thread ≠ 0 → Runnable s s.current_thread
  cur_not_waiting : ∀ a ms, s.sems a = some ms → s.current_thread ∉ ms.block_queue
  drained : s.current_thread = 0 → s.ready_queue = []
  started : s.init = true

end MyThreadLib

/-!
# InMemFS/ramdisk.c

A shallow embedding of the in-memory file system.

The directory structure is a tree of `FileInfo` objects linked by `children`
(first child) and `next` (next sibling).  A tree is a value of the inductive
type `FileInfo`, whose constructor `null` is the null pointer.  A file name is
the list of the characters of the C string.

A pointer to a node of the tree is the position of the node: the list of the
`children` and `next` links followed from the root.  The member `parent` is
not stored.  `File_add_child` and `File_remove_child` keep it equal to the
node in whose child list the node stands, which is the last node of the
position left through `children`.

`unsigned int`, `int` and `size_t` values are integers reduced to the range of
the type at each conversion the C code performs.  A byte of a buffer is `none`
while its value is indeterminate, as are the bytes `realloc` adds.  A store
outside its buffer has no defined behaviour; such a call yields `none`.
Allocation succeeds.
-/

namespace Ramdisk

/-- Values of `<errno.h>` on Linux. -/
def ENOENT : Int := 2

/-- Values of `<errno.h>` on Linux. -/
def EBUSY : Int := 16

/-- Values of `<errno.h>` on Linux. -/
def EEXIST : Int := 17

/-- Values of `<errno.h>` on Linux. -/
def ENOTDIR : Int := 20

/-- Values of `<errno.h>` on Linux. -/
def EISDIR : Int := 21

/-- Values of `<errno.h>` on Linux. -/
def EINVAL : Int := 22

/-- Values of `<errno.h>` on Linux. -/
def ENOSPC : Int := 28

/-- Values of `<errno.h>` on Linux. -/
def ENOTEMPTY : Int := 39

/-- Conversion to `unsigned int` (32 bits). -/
def toUInt (x : Int) : Nat := (x % 4294967296).toNat

/-- Conversion to `int` (32 bits, two's complement). -/
def toInt (x : Int) : Int := (x + 2147483648) % 4294967296 - 2147483648

/-- The struct `FileInfo` and the null pointer.  `data` is `none` for a null
`data` pointer and otherwise the bytes of the buffer. -/
inductive FileInfo where
  | null : FileInfo
  | node (name : List Char) (data : Option (List (Option Nat))) (size : Nat) (isFile : Bool)
      (children : FileInfo) (next : FileInfo) : FileInfo
deriving DecidableEq

/-- One link of a position. -/
inductive Step where
  | children : Step
  | next : Step
deriving DecidableEq

/-- The member `name`. -/
def FileInfo.name : FileInfo → List Char
  | .null => []
  | .node n _ _ _ _ _ => n

/-- The member `data`. -/
def FileInfo.data : FileInfo → Option (List (Option Nat))
  | .null => none
  | .node _ d _ _ _ _ => d

/-- The member `size`. -/
def FileInfo.size : FileInfo → Nat
  | .null => 0
  | .node _ _ s _ _ _ => s

/-- The member `isFile`. -/
def FileInfo.isFile : FileInfo → Bool
  | .null => false
  | .node _ _ _ f _ _ => f

/-- The member `children`. -/
def FileInfo.children : FileInfo → FileInfo
  | .null => .null
  | .node _ _ _ _ ch _ => ch

/-- The member `next`. -/
def FileInfo.next : FileInfo → FileInfo
  | .null => .null
  | .node _ _ _ _ _ nx => nx

/-- The object a pointer points to: the tree that stands at a position. -/
def deref : List Step → FileInfo → FileInfo
  | [], t => t
  | _ :: _, .null => .null
  | .children :: p, .node _ _ _ _ ch _ => deref p ch
  | .next :: p, .node _ _ _ _ _ nx => deref p nx

/-- A store through a pointer: the tree at a position is replaced by its image
under `g`. -/
def modifyAt (g : FileInfo → FileInfo) : List Step → FileInfo → FileInfo
  | [], t => g t
  | _ :: _, .null => .null
  | .children :: p, .node n d s f ch nx => .node n d s f (modifyAt g p ch) nx
  | .next :: p, .node n d s f ch nx => .node n d s f ch (modifyAt g p nx)

/-- The function `File_create`: a zeroed object with the given name and kind. -/
def File_create (name : List Char) (isFile : Bool) : FileInfo :=
  .node name none 0 isFile .null .null

/-- The function `File_find`: the position, counted from `fi`, of the node found, `none` for
`NULL`.  The test `strstr(path, fi->name) == path` holds when `fi->name` is an
initial segment of `path`. -/
def File_find (path : List Char) : FileInfo → Option (List Step)
  | .null => none
  | .node name _ _ _ ch nx =>
    if path = name then some []
    else if name.isPrefixOf path then
      match File_find path ch with
      | some res => some (Step.children :: res)
      | none => (File_find path nx).map (fun res => Step.next :: res)
    else (File_find path nx).map (fun res => Step.next :: res)

/-- The libc function `strrchr`: the index of the last occurrence of `c`. -/
def strrchr (c : Char) : List Char → Option Nat
  | [] => none
  | x :: xs =>
    match strrchr c xs with
    | some i => some (i + 1)
    | none => if x = c then some 0 else none

/-- The scan `for (runp = last_slash; runp != path; --runp) if (runp[-1] != '/')
break;` of `dirname`: the index at which the run of slashes that ends before
index `i` begins. -/
def slashRun (path : List Char) : Nat → Nat
  | 0 => 0
  | i + 1 => if path[i]? = some '/' then slashRun path i else i + 1

/-- The libc function `dirname` as glibc implements it: the path cut before the
slashes that precede its last component, `/` for a component of the root, `//`
when the path begins with exactly two slashes, `.` when there is no directory
part. -/
def dirname (path : List Char) : List Char :=
  match strrchr '/' path with
  | none => ['.']
  | some last =>
    let last_slash : Option Nat :=
      if last ≠ 0 ∧ last + 1 = path.length then
        if slashRun path last ≠ 0 then strrchr '/' (path.take (slashRun path last))
        else some last
      else some last
    match last_slash with
    | none => ['.']
    | some ls =>
      if slashRun path ls = 0 then (if ls = 1 then path.take 2 else path.take 1)
      else path.take (slashRun path ls)

/-- The function `File_find_parent`. -/
def File_find_parent (root : FileInfo) (path : List Char) : Option (List Step) :=
  File_find (dirname path) root

/-- The store `child->next = x`. -/
def setNext (x : FileInfo) : FileInfo → FileInfo
  | .null => .null
  | .node n d s f ch _ => .node n d s f ch x

/-- The function `File_add_child`: `child` becomes the first child of the node at `parent`. -/
def File_add_child (parent : List Step) (child : FileInfo) (root : FileInfo) : FileInfo :=
  modifyAt (fun t =>
    match t with
    | .null => .null
    | .node n d s f ch nx => .node n d s f (setNext ch child) nx) parent root

/-- The call `File_update_size(fi->parent, delta)` for the node `fi` at the
given position: the loop adds `delta` to the `unsigned int` member `size` of
the parent of `fi` and of every node above it, which are the nodes of the
position left through `children`. -/
def File_update_size (delta : Int) : List Step → FileInfo → FileInfo
  | [], t => t
  | _ :: _, .null => .null
  | .children :: p, .node n d s f ch nx =>
    .node n d (toUInt (s + delta)) f (File_update_size delta p ch) nx
  | .next :: p, .node n d s f ch nx => .node n d s f ch (File_update_size delta p nx)

/-- The function `File_destroy`: the objects are freed; what remains of the call are the
arguments `-fi->size` of its calls of `File_update_size`, in the order they are
made.  Each of them reaches the nodes above the destroyed one. -/
def File_destroy : FileInfo → Bool → List Int
  | .null, _ => []
  | .node _ d s _ ch nx, destroySiblings =>
    (if destroySiblings then File_destroy nx destroySiblings else []) ++
      File_destroy ch true ++ (if d.isSome then [toInt (-(s : Int))] else [])

/-- The function `File_remove_child(fi->parent, fi, destroy)` for the node `fi` at position
`child`: the node is taken out of the sibling chain it stands in.  The result
is the tree and the node taken out, which is returned with `next` null. -/
def File_remove_child (child : List Step) (destroy : Bool) (root : FileInfo) :
    FileInfo × FileInfo :=
  let fi := deref child root
  let unlinked := modifyAt FileInfo.next child root
  if destroy then
    ((File_destroy fi false).foldl (fun t delta => File_update_size delta child t) unlinked,
      .null)
  else (unlinked, setNext .null fi)

/-- The loop of `File_rename` over the chain of children, with the recursive
call unfolded: `oldlen` and `newname` are those of the parent.  The read
`child->name + oldlen` is out of bounds when the name of the child is shorter
than `oldlen`; the result is then `none`. -/
def renameChildren (oldlen : Nat) (newname : List Char) : FileInfo → Option FileInfo
  | .null => some .null
  | .node cname d s f ch nx =>
    if cname.length < oldlen then none
    else
      match renameChildren cname.length (newname ++ cname.drop oldlen) ch,
        renameChildren oldlen newname nx with
      | some ch1, some nx1 => some (.node (newname ++ cname.drop oldlen) d s f ch1 nx1)
      | _, _ => none

/-- The function `File_rename`. -/
def File_rename (newname : List Char) : FileInfo → Option FileInfo
  | .null => none
  | .node name d s f ch nx =>
    (renameChildren name.length newname ch).map (fun ch1 => .node newname d s f ch1 nx)

/-- The buffer `realloc(data, size)` returns: the old bytes up to `size`,
followed by indeterminate bytes. -/
def realloc (data : Option (List (Option Nat))) (size : Nat) : List (Option Nat) :=
  (data.getD []).take size ++ List.replicate (size - (data.getD []).length) none

/-- The stores of `File_resize` into the file: `size` and `data`. -/
def setSize (size : Nat) : FileInfo → FileInfo
  | .null => .null
  | .node n d _ f ch nx =>
    .node n (if size = 0 then none else some (realloc d (size % 4294967296)))
      (size % 4294967296) f ch nx

/-- The function `File_resize`: `file` is the position of the file, `none` for `NULL`; `size`
is a `size_t`. -/
def File_resize (disk_size : Int) (root : FileInfo) (file : Option (List Step))
    (size : Nat) : Int × FileInfo :=
  match file with
  | none => (-EINVAL, root)
  | some p =>
    if !(deref p root).isFile then (-EINVAL, root)
    else if (deref p root).size = size then (0, root)
    else
      let delta : Int := toInt ((size : Int) - ((deref p root).size : Int))
      if toUInt ((root.size : Int) + delta) > toUInt disk_size then (-ENOSPC, root)
      else (0, modifyAt (setSize size) p (File_update_size delta p root))

/-- The function `ramdisk_mkentry`. -/
def ramdisk_mkentry (root : FileInfo) (path : List Char) (isFile : Bool) : Int × FileInfo :=
  if File_find path root ≠ none then (-EEXIST, root)
  else
    match File_find_parent root path with
    | none => (-ENOENT, root)
    | some fi =>
      if (deref fi root).isFile then (-ENOTDIR, root)
      else (0, File_add_child fi (File_create path isFile) root)

/-- The function `ramdisk_mknod`. -/
def ramdisk_mknod (root : FileInfo) (path : List Char) : Int × FileInfo :=
  ramdisk_mkentry root path true

/-- The function `ramdisk_mkdir`. -/
def ramdisk_mkdir (root : FileInfo) (path : List Char) : Int × FileInfo :=
  ramdisk_mkentry root path false

/-- The function `ramdisk_unlink`. -/
def ramdisk_unlink (root : FileInfo) (path : List Char) : Int × FileInfo :=
  match File_find path root with
  | none => (-ENOENT, root)
  | some fi =>
    if !(deref fi root).isFile then (-EISDIR, root)
    else (0, (File_remove_child fi true root).1)

/-- The function `ramdisk_rmdir`. -/
def ramdisk_rmdir (root : FileInfo) (path : List Char) : Int × FileInfo :=
  match File_find path root with
  | none => (-ENOENT, root)
  | some fi =>
    if fi = [] then (-EBUSY, root)
    else if (deref fi root).isFile then (-ENOTDIR, root)
    else if (deref fi root).children ≠ .null then (-ENOTEMPTY, root)
    else (0, (File_remove_child fi true root).1)

/-- The member `parent` of the node at a position: the position without its
last `children` link and the `next` links after it; `none` for a null `parent`. -/
def parentOf (p : List Step) : Option (List Step) :=
  match p.reverse.dropWhile (fun c => c = Step.next) with
  | [] => none
  | _ :: r => some r.reverse

/-- The position, once the node at `removed` has been taken out of its sibling
chain, of the node that stood at `p`: the later siblings of the removed node
move up by one link.  `none` when the node stood in the removed subtree. -/
def rebase : List Step → List Step → Option (List Step)
  | [], [] => none
  | [], .children :: _ => none
  | [], .next :: q => some q
  | _ :: _, [] => some []
  | r :: rs, q :: qs => if r = q then (rebase rs qs).map (fun p => q :: p) else some (q :: qs)

/-- The function `ramdisk_rename`.  The pointers `fromfile` and `parentfile` are
held across the removals and rebased.  A pointer into the destroyed `tofile` has
no defined use and the result is then `none`, as it is when `parentfile` is not
the parent of `tofile`, whose list `File_remove_child` would search in vain.
When `parentfile` stands in the subtree of `fromfile`, that subtree is taken out
of the tree and linked to itself, so it is no longer part of the tree. -/
def ramdisk_rename (root : FileInfo) (src dst : List Char) : Option (Int × FileInfo) :=
  if src = dst then some (0, root)
  else if src.isPrefixOf dst then some (-EINVAL, root)
  else
    let tofile := File_find dst root
    if File_find src root = some [] ∨ tofile = some [] then some (-EBUSY, root)
    else
      match File_find src root, File_find_parent root dst with
      | none, _ => some (-ENOENT, root)
      | some _, none => some (-ENOENT, root)
      | some fromfile, some parentfile =>
        if (deref parentfile root).isFile then some (-ENOTDIR, root)
        else if tofile ≠ none ∧ !(deref (tofile.getD []) root).isFile ∧
            (deref (tofile.getD []) root).children ≠ .null then some (-ENOTEMPTY, root)
        else if tofile ≠ none ∧ !(deref (tofile.getD []) root).isFile ∧
            (deref fromfile root).isFile then some (-EISDIR, root)
        else if tofile ≠ none ∧ (deref (tofile.getD []) root).isFile ∧
            !(deref fromfile root).isFile then some (-ENOTDIR, root)
        else
          let removed : Option (FileInfo × List Step × List Step) :=
            match tofile with
            | none => some (root, fromfile, parentfile)
            | some t =>
              match rebase t fromfile, rebase t parentfile with
              | some f1, some p1 =>
                if parentOf t = some parentfile then
                  some ((File_remove_child t true root).1, f1, p1)
                else none
              | _, _ => none
          match removed with
          | none => none
          | some (root1, f1, p1) =>
            match rebase f1 p1, File_rename dst (File_remove_child f1 false root1).2 with
            | some p2, some renamed =>
              some (0, File_add_child p2 renamed (File_remove_child f1 false root1).1)
            | none, some _ => some (0, (File_remove_child f1 false root1).1)
            | _, none => none

/-- The store of a buffer into the member `data`. -/
def setData (data : Option (List (Option Nat))) : FileInfo → FileInfo
  | .null => .null
  | .node n _ s f ch nx => .node n data s f ch nx

/-- The libc function `memset` with the byte 0: the `n` bytes from index `start`
of the buffer `b` are set to zero; `none` when they are not all inside `b`. -/
def memset (start n : Int) (b : List (Option Nat)) : Option (List (Option Nat)) :=
  if 0 ≤ start ∧ 0 ≤ n ∧ start + n ≤ b.length then
    some (b.take start.toNat ++ List.replicate n.toNat (some 0) ++
      b.drop (start.toNat + n.toNat))
  else none

/-- The function `ramdisk_truncate`: `size` is an `off_t`. -/
def ramdisk_truncate (disk_size : Int) (root : FileInfo) (path : List Char) (size : Int) :
    Option (Int × FileInfo) :=
  if size < 0 then some (-EINVAL, root)
  else
    match File_find path root with
    | none => some (-ENOENT, root)
    | some file =>
      if !(deref file root).isFile then some (-EISDIR, root)
      else
        let oldsize : Int := toInt (deref file root).size
        let res := File_resize disk_size root (some file) size.toNat
        if res.1 = 0 ∧ size > oldsize then
          match (deref file res.2).data with
          | none => none
          | some b =>
            (memset oldsize (size - oldsize) b).map
              (fun b1 => (res.1, modifyAt (setData (some b1)) file res.2))
        else some res

/-- The libc function `memcpy`: `size` bytes of `buf` are stored from index
`offset` of the buffer `b`; `none` when they are not all inside `b`.  The bytes
read behind the end of `buf` are indeterminate. -/
def memcpy (offset : Int) (buf : List Nat) (size : Nat) (b : List (Option Nat)) :
    Option (List (Option Nat)) :=
  if 0 ≤ offset ∧ offset + size ≤ b.length then
    some (b.take offset.toNat ++
      ((buf.map some).take size ++ List.replicate (size - buf.length) none) ++
      b.drop (offset.toNat + size))
  else none

/-- The function `ramdisk_write`: `size` is a `size_t`, `offset` an `off_t`.  A
copy of no bytes stores nothing. -/
def ramdisk_write (disk_size : Int) (root : FileInfo) (path : List Char) (buf : List Nat)
    (size : Nat) (offset : Int) : Option (Int × FileInfo) :=
  match File_find path root with
  | none => some (-ENOENT, root)
  | some file =>
    if !(deref file root).isFile then some (-EINVAL, root)
    else
      let additionalBytes : Int := toInt (offset + size - (deref file root).size)
      let res : Int × FileInfo :=
        if additionalBytes > 0 then
          File_resize disk_size root (some file)
            (toUInt ((deref file root).size + additionalBytes))
        else (0, root)
      if res.1 ≠ 0 then some res
      else if size = 0 then some (toInt size, res.2)
      else
        match (deref file res.2).data with
        | none => none
        | some b =>
          (memcpy offset buf size b).map
            (fun b1 => (toInt size, modifyAt (setData (some b1)) file res.2))

/-- An exhaustive traversal of the tree in the order of `File_find`: the first
node whose name is `path`, no subtree being skipped. -/
def File_find_exhaustive (path : List Char) : FileInfo → Option (List Step)
  | .null => none
  | .node name _ _ _ ch nx =>
    if path = name then some []
    else
      match File_find_exhaustive path ch with
      | some res => some (Step.children :: res)
      | none => (File_find_exhaustive path nx).map (fun res => Step.next :: res)

/-- Every node of the chain `t` and below it has a name that begins with the
name of its parent, `pre` being the name of the parent of the chain. -/
def namesExtend (pre : List Char) : FileInfo → Bool
  | .null => true
  | .node name _ _ _ ch nx => pre.isPrefixOf name && namesExtend name ch && namesExtend pre nx

/-- Every node of the chain `t` and below it has a name that satisfies `P`. -/
def allNames (P : List Char → Bool) : FileInfo → Bool
  | .null => true
  | .node name _ _ _ ch nx => P name && allNames P ch && allNames P nx

/-- The tree `t` with the name of every node of the chain and below it replaced
by its image under `g`; nothing else is changed. -/
def mapNames (g : List Char → List Char) : FileInfo → FileInfo
  | .null => .null
  | .node name d s f ch nx => .node (g name) d s f (mapNames g ch) (mapNames g nx)

/-- The sum of the sizes of the regular files of the chain `t` and below it. -/
def totalSize : FileInfo → Nat
  | .null => 0
  | .node _ _ s f ch nx => (if f then s else 0) + totalSize ch + totalSize nx

/-- A regular file has no children, and no bytes when its `data` is null; a
directory has no `data`; a buffer holds `size` bytes. -/
def Regular : FileInfo → Prop
  | .null => True
  | .node _ d s f ch nx =>
    (f = true → ch = .null ∧ (d = none → s = 0)) ∧ (f = false → d = none) ∧
      (∀ b, d = some b → b.length = s) ∧ Regular ch ∧ Regular nx

/-- What the quota rests on: the root is a directory without siblings whose
`size` is the total of the file sizes and does not exceed `disk_size`. -/
structure Quota (disk_size : Int) (root : FileInfo) : Prop where
  node : root ≠ .null
  dir : root.isFile = false
  single : root.next = .null
  regular : Regular root
  total : root.size = totalSize root
  bound : (root.size : Int) ≤ disk_size

/-- A call of the file system: the arguments of `ramdisk_mknod`, `ramdisk_mkdir`,
`ramdisk_write`, `ramdisk_truncate` and `ramdisk_unlink`. -/
inductive FsCall where
  | mknod (path : List Char) : FsCall
  | mkdir (path : List Char) : FsCall
  | write (path : List Char) (buf : List Nat) (size : Nat) (offset : Int) : FsCall
  | truncate (path : List Char) (size : Int) : FsCall
  | unlink (path : List Char) : FsCall

/-- The result and the tree after one call. -/
def fsCall (disk_size : Int) (root : FileInfo) : FsCall → Option (Int × FileInfo)
  | .mknod path => some (ramdisk_mknod root path)
  | .mkdir path => some (ramdisk_mkdir root path)
  | .write path buf size offset => ramdisk_write disk_size root path buf size offset
  | .truncate path size => ramdisk_truncate disk_size root path size
  | .unlink path => some (ramdisk_unlink root path)

/-- The tree after a sequence of calls, each made on the tree the previous one
left. -/
def fsCalls (disk_size : Int) (root : FileInfo) : List FsCall → Option FileInfo
  | [] => some root
  | c :: cs => (fsCall disk_size root c).bind fun r => fsCalls disk_size r.2 cs

/-- The sizes a call asks for are below `2^31`: the end `offset + size` of a
write with `offset` not negative, the `size` of a truncation. -/
def bounded : FsCall → Bool
  | .write _ _ size offset => decide (0 ≤ offset ∧ offset + size < 2147483648)
  | .truncate _ size => decide (size < 2147483648)
  | _ => true

/-- A call that can change the tree: one of `FsCall`, `ramdisk_rmdir` or
`ramdisk_rename`. -/
inductive TreeCall where
  | fs (c : FsCall) : TreeCall
  | rmdir (path : List Char) : TreeCall
  | rename (src dst : List Char) : TreeCall

/-- The result and the tree after one call. -/
def treeCall (disk_size : Int) (root : FileInfo) : TreeCall → Option (Int × FileInfo)
  | .fs c => fsCall disk_size root c
  | .rmdir path => some (ramdisk_rmdir root path)
  | .rename src dst => ramdisk_rename root src dst

/-- The tree after a sequence of calls, each made on the tree the previous one
left. -/
def treeCalls (disk_size : Int) (root : FileInfo) : List TreeCall → Option FileInfo
  | [] => some root
  | c :: cs => (treeCall disk_size root c).bind fun r => treeCalls disk_size r.2 cs

end Ramdisk

namespace MyThreadLib

/-! ## Auxiliary facts -/

theorem wrapInt_of_range (x : Int) (hlo : INT_MIN ≤ x) (hhi : x ≤ INT_MAX) :
    wrapInt x = x := by
  unfold INT_MIN at hlo
  unfold INT_MAX at hhi
  unfold wrapInt
  omega

theorem popNextThread_sems (s : Runtime) : (_popNextThread s).sems = s.sems := by
  unfold _popNextThread
  cases s.ready_queue <;> rfl

theorem MyThreadYield_sems (s : Runtime) : (MyThreadYield s).sems = s.sems := by
  unfold MyThreadYield
  split
  · rw [popNextThread_sems]
  · rfl

theorem count_signal_wait (cs : List SemCall) :
    (SemCall.wait :: cs).count SemCall.signal = cs.count SemCall.signal := by
  simp [List.count_cons]

theorem count_wait_wait (cs : List SemCall) :
    (SemCall.wait :: cs).count SemCall.wait = cs.count SemCall.wait + 1 := by
  simp [List.count_cons]

theorem count_signal_signal (cs : List SemCall) :
    (SemCall.signal :: cs).count SemCall.signal = cs.count SemCall.signal + 1 := by
  simp [List.count_cons]

theorem count_wait_signal (cs : List SemCall) :
    (SemCall.signal :: cs).count SemCall.wait = cs.count SemCall.wait := by
  simp [List.count_cons]

theorem count_signal_yield (cs : List SemCall) :
    (SemCall.yield :: cs).count SemCall.signal = cs.count SemCall.signal := by
  simp [List.count_cons]

theorem count_wait_yield (cs : List SemCall) :
    (SemCall.yield :: cs).count SemCall.wait = cs.count SemCall.wait := by
  simp [List.count_cons]

theorem signal_nil (s : Runtime) (sem : Nat) (ms : _MySem) (hsem : sem ≠ 0)
    (hms : s.sems sem = some ms) (hq : ms.block_queue = []) :
    MySemaphoreSignal s sem = some { s with
      sems := Function.update s.sems sem (some { ms with value := wrapInt (ms.value + 1) }) } := by
  simp [MySemaphoreSignal, hsem, hms, hq]

theorem signal_cons (s : Runtime) (sem : Nat) (ms : _MySem) (front : Nat) (rest : List Nat)
    (hsem : sem ≠ 0) (hms : s.sems sem = some ms) (hq : ms.block_queue = front :: rest) :
    MySemaphoreSignal s sem = some { s with
      ready_queue := s.ready_queue ++ [front]
      sems := Function.update s.sems sem (some { ms with block_queue := rest }) } := by
  simp [MySemaphoreSignal, hsem, hms, hq]

theorem wait_pos (s : Runtime) (sem : Nat) (ms : _MySem) (hsem : sem ≠ 0)
    (hms : s.sems sem = some ms) (hv : 0 < ms.value) :
    MySemaphoreWait s sem = some { s with
      sems := Function.update s.sems sem (some { ms with value := ms.value - 1 }) } := by
  simp [MySemaphoreWait, hsem, hms, hv]

theorem wait_block (s : Runtime) (sem : Nat) (ms : _MySem) (hsem : sem ≠ 0)
    (hms : s.sems sem = some ms) (hv : ¬ 0 < ms.value) :
    MySemaphoreWait s sem = some (_popNextThread { s with
      sems := Function.update s.sems sem
        (some { ms with block_queue := ms.block_queue ++ [s.current_thread] }) }) := by
  simp [MySemaphoreWait, hsem, hms, hv]

/-- What a wait leaves in the semaphore it is applied to. -/
theorem wait_sem (s : Runtime) (sem : Nat) (ms : _MySem) (hsem : sem ≠ 0)
    (hms : s.sems sem = some ms) :
    ∃ s1, MySemaphoreWait s sem = some s1 ∧
      s1.sems sem = some (if ms.value > 0 then { ms with value := ms.value - 1 }
        else { ms with block_queue := ms.block_queue ++ [s.current_thread] }) := by
  unfold MySemaphoreWait
  by_cases hv : ms.value > 0
  · simp [hsem, hms, hv]
  · simp [hsem, hms, hv, popNextThread_sems]

/-- What a signal leaves in the semaphore it is applied to. -/
theorem signal_sem (s : Runtime) (sem : Nat) (ms : _MySem) (hsem : sem ≠ 0)
    (hms : s.sems sem = some ms) :
    ∃ s1, MySemaphoreSignal s sem = some s1 ∧
      s1.sems sem = some (match ms.block_queue with
        | [] => { ms with value := wrapInt (ms.value + 1) }
        | _ :: rest => { ms with block_queue := rest }) := by
  unfold MySemaphoreSignal
  cases hq : ms.block_queue with
  | nil => simp [hsem, hms, hq]
  | cons front rest => simp [hsem, hms, hq]

/-! ## Semaphores -/

/-- C1 (counterexample): the semaphore made by `MySemaphoreInit(2147483647)`
has a negative value after one `MySemaphoreSignal`, so the invariant
`value >= 0` does not hold after every finite history. -/
theorem C1_invariant_counterexample :
    (0 : Int) ≤ 2147483647 ∧ (2147483647 : Int) ≤ INT_MAX ∧
    ((semCalls (MySemaphoreInit emptyRuntime 1 2147483647).2 1 [SemCall.signal]).bind
      fun s1 => (s1.sems 1).map _MySem.value) = some (-2147483648) := by
  decide

/-- What `noOverflow` says of the first call of a history. -/
theorem noOverflow_cons (s s1 : Runtime) (sem : Nat) (c : SemCall) (cs : List SemCall)
    (h1 : semCall s sem c = some s1) (h : noOverflow s sem (c :: cs) = true) :
    (c = SemCall.signal → ∀ ms, s.sems sem = some ms → ms.block_queue = [] →
        ms.value ≠ INT_MAX) ∧
      noOverflow s1 sem cs = true := by
  simp only [noOverflow, h1, Bool.and_eq_true] at h
  refine ⟨?_, h.2⟩
  intro hc ms hms hq hv
  have h3 := h.1
  rw [hc, hms] at h3
  simp [hq, hv] at h3

/-- The history lemma with the overflow excluded call by call: while no signal
finds the queue empty and the value at `INT_MAX`, a history of calls keeps the
value between 0 and `INT_MAX`, keeps the queue empty when the value is positive,
and moves `value - length block_queue` up by one per signal and down by one per
wait. -/
theorem sem_history_fit (sem : Nat) (hsem : sem ≠ 0) (cs : List SemCall) :
    ∀ (s : Runtime) (ms : _MySem), s.sems sem = some ms → 0 ≤ ms.value →
      ms.value ≤ INT_MAX → (0 < ms.value → ms.block_queue = []) →
      noOverflow s sem cs = true →
      ∃ s1 ms1, semCalls s sem cs = some s1 ∧ s1.sems sem = some ms1 ∧
        0 ≤ ms1.value ∧ (0 < ms1.value → ms1.block_queue = []) ∧
        ms1.value - (ms1.block_queue.length : Int) =
          ms.value - (ms.block_queue.length : Int)
            + (cs.count SemCall.signal : Int) - (cs.count SemCall.wait : Int) := by
  induction cs with
  | nil =>
    intro s ms hms h0 _ hq _
    exact ⟨s, ms, rfl, hms, h0, hq, by simp⟩
  | cons c cs ih =>
    intro s ms hms h0 hmax hq hfit
    cases c with
    | wait =>
      obtain ⟨s1, hw, hs1⟩ := wait_sem s sem ms hsem hms
      obtain ⟨_, hfit1⟩ := noOverflow_cons s s1 sem SemCall.wait cs hw hfit
      rw [count_signal_wait, count_wait_wait]
      by_cases hv : ms.value > 0
      · rw [if_pos hv] at hs1
        obtain ⟨s2, ms2, hrun, hs2, h02, hq2, hbal⟩ :=
          ih s1 _ hs1 (by simp only; omega) (by simp only; omega)
            (by intro _; exact hq hv) hfit1
        refine ⟨s2, ms2, ?_, hs2, h02, hq2, ?_⟩
        · simp [semCalls, semCall, hw, hrun]
        · simp only at hbal
          push_cast
          omega
      · rw [if_neg hv] at hs1
        obtain ⟨s2, ms2, hrun, hs2, h02, hq2, hbal⟩ :=
          ih s1 _ hs1 h0 hmax (by intro h; exact absurd h hv) hfit1
        refine ⟨s2, ms2, ?_, hs2, h02, hq2, ?_⟩
        · simp [semCalls, semCall, hw, hrun]
        · simp only [List.length_append, List.length_singleton] at hbal
          push_cast at hbal ⊢
          omega
    | signal =>
      obtain ⟨s1, hw, hs1⟩ := signal_sem s sem ms hsem hms
      obtain ⟨hnot, hfit1⟩ := noOverflow_cons s s1 sem SemCall.signal cs hw hfit
      rw [count_signal_signal, count_wait_signal]
      cases hbq : ms.block_queue with
      | nil =>
        rw [hbq] at hs1
        have hne := hnot rfl ms hms hbq
        have hlt : ms.value < INT_MAX := lt_of_le_of_ne hmax hne
        have hwr : wrapInt (ms.value + 1) = ms.value + 1 := by
          apply wrapInt_of_range
          · unfold INT_MIN; omega
          · omega
        simp only [hwr] at hs1
        obtain ⟨s2, ms2, hrun, hs2, h02, hq2, hbal⟩ :=
          ih s1 _ hs1 (by simp only; omega) (by simp only; omega) (by intro _; rfl) hfit1
        refine ⟨s2, ms2, ?_, hs2, h02, hq2, ?_⟩
        · simp [semCalls, semCall, hw, hrun]
        · simp only [hbq, List.length_nil] at hbal ⊢
          push_cast at hbal ⊢
          omega
      | cons front rest =>
        rw [hbq] at hs1
        have hv : ¬ 0 < ms.value := by
          intro h
          have := hq h
          rw [hbq] at this
          exact List.cons_ne_nil _ _ this
        obtain ⟨s2, ms2, hrun, hs2, h02, hq2, hbal⟩ :=
          ih s1 _ hs1 h0 hmax (by intro h; exact absurd h hv) hfit1
        refine ⟨s2, ms2, ?_, hs2, h02, hq2, ?_⟩
        · simp [semCalls, semCall, hw, hrun]
        · simp only [hbq, List.length_cons] at hbal ⊢
          push_cast at hbal ⊢
          omega
    | yield =>
      have hs1 : (MyThreadYield s).sems sem = some ms := by rw [MyThreadYield_sems]; exact hms
      obtain ⟨_, hfit1⟩ := noOverflow_cons s (MyThreadYield s) sem SemCall.yield cs rfl hfit
      rw [count_signal_yield, count_wait_yield]
      obtain ⟨s2, ms2, hrun, hs2, h02, hq2, hbal⟩ := ih _ ms hs1 h0 hmax hq hfit1
      exact ⟨s2, ms2, by simp [semCalls, semCall, hrun], hs2, h02, hq2, hbal⟩

/-- C1 (amended): for the semaphore made by `MySemaphoreInit(n)` with `n >= 0`
and every finite history of wait, signal and yield calls in which no
`MySemaphoreSignal` is made while the block queue is empty and the value is
`INT_MAX`, every call returns, and afterwards the value is `>= 0` and the block
queue is empty whenever the value is `> 0`. -/
theorem C1_semaphore_invariant (s : Runtime) (sem : Nat) (n : Int) (cs : List SemCall)
    (hsem : sem ≠ 0) (hn : 0 ≤ n) (hmax : n ≤ INT_MAX)
    (hfit : noOverflow (MySemaphoreInit s sem n).2 sem cs = true) :
    ∃ s1 ms1, semCalls (MySemaphoreInit s sem n).2 sem cs = some s1 ∧
      s1.sems sem = some ms1 ∧ 0 ≤ ms1.value ∧ (0 < ms1.value → ms1.block_queue = []) := by
  have hinit : (MySemaphoreInit s sem n).2.sems sem = some { value := n, block_queue := [] } := by
    simp [MySemaphoreInit, not_lt.mpr hn]
  obtain ⟨s1, ms1, hrun, hs1, h0, hq, _⟩ :=
    sem_history_fit sem hsem cs _ _ hinit hn hmax (fun _ => rfl) hfit
  exact ⟨s1, ms1, hrun, hs1, h0, hq⟩

/-- Witness of C1: `MySemaphoreInit(2147483647)` followed by wait, signal, wait,
wait, signal: the value starts at `INT_MAX` and no increment overflows. -/
theorem C1_semaphore_invariant_witness :
    (1 : Nat) ≠ 0 ∧ (0 : Int) ≤ 2147483647 ∧ (2147483647 : Int) ≤ INT_MAX ∧
    noOverflow (MySemaphoreInit emptyRuntime 1 2147483647).2 1
      [SemCall.wait, SemCall.signal, SemCall.wait, SemCall.wait, SemCall.signal] = true ∧
    ∃ s1 ms1, semCalls (MySemaphoreInit emptyRuntime 1 2147483647).2 1
        [SemCall.wait, SemCall.signal, SemCall.wait, SemCall.wait, SemCall.signal] = some s1 ∧
      s1.sems 1 = some ms1 ∧ 0 ≤ ms1.value ∧ (0 < ms1.value → ms1.block_queue = []) :=
  ⟨by decide, by decide, by decide, by decide,
    C1_semaphore_invariant emptyRuntime 1 2147483647
      [SemCall.wait, SemCall.signal, SemCall.wait, SemCall.wait, SemCall.signal]
      (by decide) (by decide) (by decide) (by decide)⟩

/-- C2 (counterexample): a signal on a semaphore with an empty block queue and
value `INT_MAX` does not leave `value + 1`; it leaves `-2147483648`. -/
theorem C2_signal_counterexample :
    ((MySemaphoreSignal
        { emptyRuntime with
          sems := Function.update emptyRuntime.sems 7 (some { value := INT_MAX, block_queue := [] }) }
        7).bind fun s1 => s1.sems 7) = some { value := -2147483648, block_queue := [] } ∧
    (-2147483648 : Int) ≠ INT_MAX + 1 := by
  decide

/-- C2 (amended): for every non-null live semaphore, `MySemaphoreSignal`
returns; with an empty block queue and a value of type `int` below `INT_MAX`
the value becomes `value + 1` and the ready queue is unchanged; with a
non-empty block queue its head is removed and appended to the tail of the
ready queue, the value is unchanged and the rest of the block queue keeps its
order.  In both cases `current_thread`, the threads and the other semaphores
are unchanged. -/
theorem C2_signal_postcondition (s : Runtime) (sem : Nat) (ms : _MySem)
    (hsem : sem ≠ 0) (hms : s.sems sem = some ms) :
    ∃ s1, MySemaphoreSignal s sem = some s1 ∧
      s1.current_thread = s.current_thread ∧ s1.threads = s.threads ∧ s1.init = s.init ∧
      (∀ other, other ≠ sem → s1.sems other = s.sems other) ∧
      (ms.block_queue = [] → INT_MIN ≤ ms.value → ms.value < INT_MAX →
        s1.sems sem = some { value := ms.value + 1, block_queue := [] } ∧
        s1.ready_queue = s.ready_queue) ∧
      (∀ front rest, ms.block_queue = front :: rest →
        s1.sems sem = some { value := ms.value, block_queue := rest } ∧
        s1.ready_queue = s.ready_queue ++ [front]) := by
  cases hq : ms.block_queue with
  | nil =>
    rw [signal_nil s sem ms hsem hms hq]
    refine ⟨_, rfl, rfl, rfl, rfl, ?_, ?_, ?_⟩
    · intro other ho
      simp [Function.update_noteq ho]
    · intro _ hlo hhi
      have hwr : wrapInt (ms.value + 1) = ms.value + 1 :=
        wrapInt_of_range _ (by omega) (by omega)
      simp [hwr, hq]
    · intro front rest h
      exact absurd h (by simp)
  | cons front rest =>
    rw [signal_cons s sem ms front rest hsem hms hq]
    refine ⟨_, rfl, rfl, rfl, rfl, ?_, ?_, ?_⟩
    · intro other ho
      simp [Function.update_noteq ho]
    · intro h
      exact absurd h (by simp)
    · intro front1 rest1 h
      obtain ⟨h1, h2⟩ := List.cons.inj h
      subst h1 h2
      simp

/-- Witness of C2: a signal on a semaphore whose block queue is `[4, 5]`. -/
theorem C2_signal_postcondition_witness :
    (7 : Nat) ≠ 0 ∧
    ∃ s1, MySemaphoreSignal
        { emptyRuntime with
          current_thread := 3
          sems := Function.update emptyRuntime.sems 7 (some { value := 0, block_queue := [4, 5] }) }
        7 = some s1 ∧
      s1.current_thread = 3 ∧ s1.ready_queue = [4] ∧
      s1.sems 7 = some { value := 0, block_queue := [5] } := by
  refine ⟨by decide, ?_⟩
  obtain ⟨s1, h1, h2, _, _, _, _, h3⟩ := C2_signal_postcondition
    { emptyRuntime with
      current_thread := 3
      sems := Function.update emptyRuntime.sems 7 (some { value := 0, block_queue := [4, 5] }) }
    7 { value := 0, block_queue := [4, 5] } (by decide) (by decide)
  obtain ⟨h4, h5⟩ := h3 4 [5] rfl
  exact ⟨s1, h1, h2, h5, h4⟩

/-- C3: for every non-null live semaphore `MySemaphoreWait` returns; if
`value > 0` the value becomes `value - 1` and the current thread, the ready
queue and the block queue are unchanged; otherwise the running thread is
appended to the tail of the block queue, the value is not decremented, nothing
is added to the ready queue, and the former head of the ready queue becomes
the current thread (the current thread is cleared when the ready queue is
empty). -/
theorem C3_wait_postcondition (s : Runtime) (sem : Nat) (ms : _MySem)
    (hsem : sem ≠ 0) (hms : s.sems sem = some ms) :
    ∃ s1, MySemaphoreWait s sem = some s1 ∧ s1.threads = s.threads ∧
      (∀ other, other ≠ sem → s1.sems other = s.sems other) ∧
      (0 < ms.value →
        s1.sems sem = some { value := ms.value - 1, block_queue := ms.block_queue } ∧
        s1.current_thread = s.current_thread ∧ s1.ready_queue = s.ready_queue) ∧
      (¬ 0 < ms.value →
        s1.sems sem = some { value := ms.value,
                             block_queue := ms.block_queue ++ [s.current_thread] } ∧
        (∀ head rest, s.ready_queue = head :: rest →
          s1.current_thread = head ∧ s1.ready_queue = rest) ∧
        (s.ready_queue = [] → s1.current_thread = 0 ∧ s1.ready_queue = [])) := by
  by_cases hv : 0 < ms.value
  · rw [wait_pos s sem ms hsem hms hv]
    refine ⟨_, rfl, rfl, ?_, ?_, ?_⟩
    · intro other ho
      simp [Function.update_noteq ho]
    · intro _
      simp
    · intro h
      exact absurd hv h
  · rw [wait_block s sem ms hsem hms hv]
    refine ⟨_, rfl, ?_, ?_, ?_, ?_⟩
    · unfold _popNextThread
      cases s.ready_queue <;> rfl
    · intro other ho
      rw [popNextThread_sems]
      simp [Function.update_noteq ho]
    · intro h
      exact absurd h hv
    · intro _
      refine ⟨?_, ?_, ?_⟩
      · rw [popNextThread_sems]
        simp
      · intro head rest hr
        simp [_popNextThread, hr]
      · intro hr
        simp [_popNextThread, hr]

/-- Witness of C3: thread 3 waits on a semaphore of value 0 while threads 4
and 5 are ready. -/
theorem C3_wait_postcondition_witness :
    (7 : Nat) ≠ 0 ∧
    ∃ s1, MySemaphoreWait
        { emptyRuntime with
          current_thread := 3
          ready_queue := [4, 5]
          sems := Function.update emptyRuntime.sems 7 (some { value := 0, block_queue := [] }) }
        7 = some s1 ∧
      s1.sems 7 = some { value := 0, block_queue := [3] } ∧
      s1.current_thread = 4 ∧ s1.ready_queue = [5] := by
  refine ⟨by decide, ?_⟩
  obtain ⟨s1, h1, _, _, _, h2⟩ := C3_wait_postcondition
    { emptyRuntime with
      current_thread := 3
      ready_queue := [4, 5]
      sems := Function.update emptyRuntime.sems 7 (some { value := 0, block_queue := [] }) }
    7 { value := 0, block_queue := [] } (by decide) (by decide)
  obtain ⟨h3, h4, _⟩ := h2 (by decide)
  obtain ⟨h5, h6⟩ := h4 4 [5] rfl
  exact ⟨s1, h1, h3, h5, h6⟩

/-- C4 (counterexample): after `MySemaphoreInit(2147483646)` and two signals
the block queue is empty, yet the value is `-2147483648` and not
`n + k_s - k_w = 2147483648`. -/
theorem C4_balance_counterexample :
    (0 : Int) ≤ 2147483646 ∧ (2147483646 : Int) ≤ INT_MAX ∧
    ((semCalls (MySemaphoreInit emptyRuntime 1 2147483646).2 1
        [SemCall.signal, SemCall.signal]).bind fun s1 => s1.sems 1)
      = some { value := -2147483648, block_queue := [] } ∧
    (-2147483648 : Int) ≠ 2147483646 + 2 - 0 := by
  decide

/-- C4 (amended): for every `n >= 0` and every history of `k_w` waits and `k_s`
signals (and any yields) on the semaphore made by `MySemaphoreInit(n)` in which
no `MySemaphoreSignal` is made while the block queue is empty and the value is
`INT_MAX`, every call returns, and if the history ends with an empty block queue
the final value is `n + k_s - k_w`, which is then `>= 0`. -/
theorem C4_signal_wait_balance (s : Runtime) (sem : Nat) (n : Int) (cs : List SemCall)
    (hsem : sem ≠ 0) (hn : 0 ≤ n) (hmax : n ≤ INT_MAX)
    (hfit : noOverflow (MySemaphoreInit s sem n).2 sem cs = true) :
    ∃ s1 ms1, semCalls (MySemaphoreInit s sem n).2 sem cs = some s1 ∧
      s1.sems sem = some ms1 ∧
      (ms1.block_queue = [] →
        ms1.value = n + (cs.count SemCall.signal : Int) - (cs.count SemCall.wait : Int) ∧
        0 ≤ n + (cs.count SemCall.signal : Int) - (cs.count SemCall.wait : Int)) := by
  have hinit : (MySemaphoreInit s sem n).2.sems sem = some { value := n, block_queue := [] } := by
    simp [MySemaphoreInit, not_lt.mpr hn]
  obtain ⟨s1, ms1, hrun, hs1, h0, _, hbal⟩ :=
    sem_history_fit sem hsem cs _ _ hinit hn hmax (fun _ => rfl) hfit
  refine ⟨s1, ms1, hrun, hs1, ?_⟩
  intro hq
  simp only [hq, List.length_nil] at hbal
  push_cast at hbal
  constructor <;> omega

/-- Witness of C4: `MySemaphoreInit(2147483647)` followed by wait, signal, wait:
the value starts at `INT_MAX`, no increment overflows, and the final value is
`2147483647 + 1 - 2`. -/
theorem C4_signal_wait_balance_witness :
    (1 : Nat) ≠ 0 ∧ (0 : Int) ≤ 2147483647 ∧ (2147483647 : Int) ≤ INT_MAX ∧
    noOverflow (MySemaphoreInit emptyRuntime 1 2147483647).2 1
      [SemCall.wait, SemCall.signal, SemCall.wait] = true ∧
    ∃ s1 ms1, semCalls (MySemaphoreInit emptyRuntime 1 2147483647).2 1
        [SemCall.wait, SemCall.signal, SemCall.wait] = some s1 ∧
      s1.sems 1 = some ms1 ∧
      (ms1.block_queue = [] →
        ms1.value = 2147483647 + (([SemCall.wait, SemCall.signal, SemCall.wait].count
            SemCall.signal : Nat) : Int)
          - (([SemCall.wait, SemCall.signal, SemCall.wait].count SemCall.wait : Nat) : Int) ∧
        0 ≤ 2147483647 + (([SemCall.wait, SemCall.signal, SemCall.wait].count
            SemCall.signal : Nat) : Int)
          - (([SemCall.wait, SemCall.signal, SemCall.wait].count SemCall.wait : Nat) : Int)) :=
  ⟨by decide, by decide, by decide, by decide,
    C4_signal_wait_balance emptyRuntime 1 2147483647
      [SemCall.wait, SemCall.signal, SemCall.wait]
      (by decide) (by decide) (by decide) (by decide)⟩

theorem semCalls_append (sem : Nat) (as bs : List SemCall) :
    ∀ s : Runtime, semCalls s sem (as ++ bs)
      = (semCalls s sem as).bind fun s1 => semCalls s1 sem bs := by
  induction as with
  | nil => intro s; rfl
  | cons a as ih =>
    intro s
    simp only [List.cons_append, semCalls]
    cases semCall s sem a with
    | none => rfl
    | some s1 => exact ih s1

/-- Successive waits on a semaphore whose value is not positive: the running
thread and then the threads at the front of the ready queue block in turn and
are appended to the block queue in that order. -/
theorem waits_block (sem : Nat) (hsem : sem ≠ 0) (ts : List Nat) :
    ∀ (t : Nat) (s : Runtime) (ms : _MySem) (rest : List Nat),
      s.sems sem = some ms → ¬ 0 < ms.value → s.current_thread = t →
      s.ready_queue = ts ++ rest →
      ∃ s1, semCalls s sem (List.replicate (ts.length + 1) SemCall.wait) = some s1 ∧
        s1.sems sem = some { ms with block_queue := ms.block_queue ++ t :: ts } ∧
        s1.ready_queue = rest.tail ∧ s1.current_thread = rest.headD 0 := by
  induction ts with
  | nil =>
    intro t s ms rest hms hv ht hr
    simp only [List.length_nil, List.replicate, semCalls, semCall,
      wait_block s sem ms hsem hms hv, Option.some_bind]
    refine ⟨_, rfl, ?_, ?_, ?_⟩
    · rw [popNextThread_sems]
      simp [ht]
    · cases rest <;> simp_all [_popNextThread]
    · cases rest <;> simp_all [_popNextThread]
  | cons t2 ts ih =>
    intro t s ms rest hms hv ht hr
    have hstep : semCall s sem SemCall.wait = some
        { s with
          current_thread := t2
          ready_queue := ts ++ rest
          sems := Function.update s.sems sem
            (some { ms with block_queue := ms.block_queue ++ [t] }) } := by
      simp [semCall, wait_block s sem ms hsem hms hv, _popNextThread, hr, ht]
    obtain ⟨s1, hrun, hs1, hq1, hc1⟩ := ih t2
      { s with
        current_thread := t2
        ready_queue := ts ++ rest
        sems := Function.update s.sems sem
          (some { ms with block_queue := ms.block_queue ++ [t] }) }
      { ms with block_queue := ms.block_queue ++ [t] }
      rest (by simp) hv rfl rfl
    refine ⟨s1, ?_, ?_, hq1, hc1⟩
    · rw [List.length_cons, List.replicate_succ, semCalls, hstep]
      exact hrun
    · rw [hs1]
      simp

/-- Successive signals on a semaphore whose block queue starts with `pre`:
the threads of `pre` are appended to the ready queue in order. -/
theorem signals_wake (sem : Nat) (hsem : sem ≠ 0) (pre : List Nat) :
    ∀ (post : List Nat) (s : Runtime) (ms : _MySem),
      s.sems sem = some ms → ms.block_queue = pre ++ post →
      ∃ s1, semCalls s sem (List.replicate pre.length SemCall.signal) = some s1 ∧
        s1.sems sem = some { ms with block_queue := post } ∧
        s1.ready_queue = s.ready_queue ++ pre ∧
        s1.current_thread = s.current_thread := by
  induction pre with
  | nil =>
    intro post s ms hms hq
    refine ⟨s, rfl, ?_, by simp, rfl⟩
    rw [hms]
    cases ms
    simp_all
  | cons t pre ih =>
    intro post s ms hms hq
    have hstep := signal_cons s sem ms t (pre ++ post) hsem hms hq
    obtain ⟨s1, hrun, hs1, hq1, hc1⟩ := ih post
      { s with
        ready_queue := s.ready_queue ++ [t]
        sems := Function.update s.sems sem (some { ms with block_queue := pre ++ post }) }
      { ms with block_queue := pre ++ post }
      (by simp) rfl
    refine ⟨s1, ?_, hs1, ?_, hc1⟩
    · rw [List.length_cons, List.replicate_succ, semCalls, semCall, hstep]
      exact hrun
    · rw [hq1]
      simp

/-- C5: let the running thread and the threads at the front of the ready
queue be `ts = t1, ..., tk`, and let them call `MySemaphoreWait` in that order
on a semaphore of value 0 with an empty block queue.  Then the block queue is
`t1, ..., tk`; after `i <= k` subsequent signals the ready queue has gained
exactly `t1, ..., ti` at its tail, in that order, the rest is still blocked
and the value is still 0; and the signal following `i < k` signals appends
`ts[i]`. -/
theorem C5_fifo_wake_order (s : Runtime) (sem : Nat) (ms : _MySem) (ts rest : List Nat)
    (hsem : sem ≠ 0) (hms : s.sems sem = some ms) (hv : ms.value = 0)
    (hq : ms.block_queue = [])
    (hts : s.current_thread :: s.ready_queue = ts ++ rest) :
    ∃ s0, semCalls s sem (List.replicate ts.length SemCall.wait) = some s0 ∧
      s0.sems sem = some { value := 0, block_queue := ts } ∧
      (∀ i, i ≤ ts.length →
        ∃ s1, semCalls s0 sem (List.replicate i SemCall.signal) = some s1 ∧
          s1.ready_queue = s0.ready_queue ++ ts.take i ∧
          s1.sems sem = some { value := 0, block_queue := ts.drop i }) ∧
      (∀ i (hi : i < ts.length),
        ∃ s1 s2, semCalls s0 sem (List.replicate i SemCall.signal) = some s1 ∧
          MySemaphoreSignal s1 sem = some s2 ∧
          s2.ready_queue = s1.ready_queue ++ [ts.get ⟨i, hi⟩]) := by
  have hblocked : ∃ s0, semCalls s sem (List.replicate ts.length SemCall.wait) = some s0 ∧
      s0.sems sem = some { value := 0, block_queue := ts } := by
    cases ts with
    | nil =>
      refine ⟨s, rfl, ?_⟩
      rw [hms]
      cases ms
      simp_all
    | cons t ts =>
      obtain ⟨h1, h2⟩ := List.cons.inj hts
      obtain ⟨s0, hrun, hs0, _, _⟩ := waits_block sem hsem ts t s ms rest hms
        (by omega) h1 h2
      refine ⟨s0, hrun, ?_⟩
      rw [hs0, hq, hv]
      simp
  obtain ⟨s0, hrun, hs0⟩ := hblocked
  have hsig : ∀ i, i ≤ ts.length →
      ∃ s1, semCalls s0 sem (List.replicate i SemCall.signal) = some s1 ∧
        s1.ready_queue = s0.ready_queue ++ ts.take i ∧
        s1.sems sem = some { value := 0, block_queue := ts.drop i } := by
    intro i hi
    obtain ⟨s1, h1, h2, h3, _⟩ := signals_wake sem hsem (ts.take i) (ts.drop i) s0
      { value := 0, block_queue := ts } hs0 (by simp)
    rw [List.length_take, Nat.min_eq_left hi] at h1
    exact ⟨s1, h1, h3, h2⟩
  refine ⟨s0, hrun, hs0, hsig, ?_⟩
  intro i hi
  obtain ⟨s1, h1, _, h3⟩ := hsig i (Nat.le_of_lt hi)
  have hdrop : ts.drop i = ts.get ⟨i, hi⟩ :: ts.drop (i + 1) := by
    rw [List.get_eq_getElem]
    exact List.drop_eq_getElem_cons hi
  exact ⟨s1, _, h1, signal_cons s1 sem _ _ _ hsem h3 hdrop, rfl⟩

/-- Witness of C5: thread 3 runs, threads 4 and 5 are ready, all three wait on
semaphore 7. -/
theorem C5_fifo_wake_order_witness :
    ∃ s0, semCalls
        { emptyRuntime with
          current_thread := 3
          ready_queue := [4, 5, 6]
          sems := Function.update emptyRuntime.sems 7 (some { value := 0, block_queue := [] }) }
        7 (List.replicate 3 SemCall.wait) = some s0 ∧
      s0.sems 7 = some { value := 0, block_queue := [3, 4, 5] } ∧
      ∃ s1, semCalls s0 7 (List.replicate 2 SemCall.signal) = some s1 ∧
        s1.ready_queue = s0.ready_queue ++ [3, 4] ∧
        s1.sems 7 = some { value := 0, block_queue := [5] } := by
  obtain ⟨s0, h1, h2, h3, _⟩ := C5_fifo_wake_order
    { emptyRuntime with
      current_thread := 3
      ready_queue := [4, 5, 6]
      sems := Function.update emptyRuntime.sems 7 (some { value := 0, block_queue := [] }) }
    7 { value := 0, block_queue := [] } [3, 4, 5] [6] (by decide) (by decide) rfl rfl rfl
  exact ⟨s0, h1, h2, h3 2 (by decide)⟩

/-- C6: on a handle that is null or live, `MySemaphoreDestroy` returns `-1` if
and only if the handle is null or the block queue is non-empty, and then the
whole runtime state is unchanged; otherwise it returns `0`, the semaphore is
freed and nothing else changes. -/
theorem C6_destroy (s : Runtime) (sem : Nat)
    (hlive : sem = 0 ∨ ∃ ms, s.sems sem = some ms) :
    ∃ r s1, MySemaphoreDestroy s sem = some (r, s1) ∧
      (r = -1 ↔ (sem = 0 ∨ ∃ ms, s.sems sem = some ms ∧ ms.block_queue ≠ [])) ∧
      (r = -1 → s1 = s) ∧
      (r ≠ -1 → r = 0 ∧ s1.sems sem = none ∧
        (∀ other, other ≠ sem → s1.sems other = s.sems other) ∧
        s1.current_thread = s.current_thread ∧ s1.ready_queue = s.ready_queue ∧
        s1.threads = s.threads ∧ s1.init = s.init) := by
  by_cases hsem : sem = 0
  · refine ⟨-1, s, by simp [MySemaphoreDestroy, hsem], ?_, fun _ => rfl, fun h => absurd rfl h⟩
    simp [hsem]
  · rcases hlive with h0 | ⟨ms, hms⟩
    · exact absurd h0 hsem
    · cases hq : ms.block_queue with
      | nil =>
        refine ⟨0, { s with sems := Function.update s.sems sem none },
          by simp [MySemaphoreDestroy, hsem, hms, hq], ?_, ?_, ?_⟩
        · simp [hsem, hms, hq]
        · intro h
          exact absurd h (by decide)
        · intro _
          refine ⟨rfl, by simp, ?_, rfl, rfl, rfl, rfl⟩
          intro other ho
          simp [Function.update_noteq ho]
      | cons t rest =>
        refine ⟨-1, s, by simp [MySemaphoreDestroy, hsem, hms, hq], ?_, fun _ => rfl,
          fun h => absurd rfl h⟩
        simp [hsem, hms, hq]

/-- Witness of C6: destroying a semaphore on which thread 4 is blocked. -/
theorem C6_destroy_witness :
    ∃ r s1, MySemaphoreDestroy
        { emptyRuntime with
          sems := Function.update emptyRuntime.sems 7 (some { value := 0, block_queue := [4] }) }
        7 = some (r, s1) ∧ r = -1 ∧
      s1.sems 7 = some { value := 0, block_queue := [4] } := by
  obtain ⟨r, s1, h1, h2, h3, _⟩ := C6_destroy
    { emptyRuntime with
      sems := Function.update emptyRuntime.sems 7 (some { value := 0, block_queue := [4] }) }
    7 (Or.inr ⟨{ value := 0, block_queue := [4] }, by decide⟩)
  have hr : r = -1 := h2.mpr (Or.inr ⟨{ value := 0, block_queue := [4] }, by decide, by decide⟩)
  refine ⟨r, s1, h1, hr, ?_⟩
  rw [h3 hr]
  decide

/-- C7: `MySemaphoreInit` returns null exactly when `initialValue < 0` (the
address `new` returns is never null); for `initialValue >= 0` the returned
handle is a semaphore with that value and an empty block queue; the ready
queue, the current thread and the threads are never changed, and on failure
nothing is. -/
theorem C7_init (s : Runtime) (sem : Nat) (initialValue : Int) (hsem : sem ≠ 0) :
    ((MySemaphoreInit s sem initialValue).1 = 0 ↔ initialValue < 0) ∧
    (0 ≤ initialValue →
      (MySemaphoreInit s sem initialValue).2.sems (MySemaphoreInit s sem initialValue).1
        = some { value := initialValue, block_queue := [] }) ∧
    (MySemaphoreInit s sem initialValue).2.ready_queue = s.ready_queue ∧
    (MySemaphoreInit s sem initialValue).2.current_thread = s.current_thread ∧
    (MySemaphoreInit s sem initialValue).2.threads = s.threads ∧
    (initialValue < 0 → (MySemaphoreInit s sem initialValue).2 = s) := by
  by_cases hv : initialValue < 0
  · simp [MySemaphoreInit, hv]
  · simp [MySemaphoreInit, hv, hsem]

/-- Witness of C7: `MySemaphoreInit(3)` with the semaphore allocated at 7. -/
theorem C7_init_witness :
    (7 : Nat) ≠ 0 ∧
    (MySemaphoreInit emptyRuntime 7 3).1 ≠ 0 ∧
    (MySemaphoreInit emptyRuntime 7 3).2.sems (MySemaphoreInit emptyRuntime 7 3).1
      = some { value := 3, block_queue := [] } :=
  ⟨by decide,
    fun h => absurd ((C7_init emptyRuntime 7 3 (by decide)).1.mp h) (by decide),
    (C7_init emptyRuntime 7 3 (by decide)).2.1 (by decide)⟩

/-- Signals on a semaphore with an empty block queue while the value stays in
the range of `int`: the value goes up by the number of signals and nothing
else changes. -/
theorem signals_count (sem : Nat) (hsem : sem ≠ 0) (n : Nat) :
    ∀ (s : Runtime) (k : Int), s.sems sem = some { value := k, block_queue := [] } →
      0 ≤ k → k + (n : Int) ≤ INT_MAX →
      semCalls s sem (List.replicate n SemCall.signal) = some { s with
        sems := Function.update s.sems sem (some { value := k + (n : Int), block_queue := [] }) } := by
  induction n with
  | zero =>
    intro s k hs _ _
    simp only [List.replicate, semCalls, Nat.cast_zero, add_zero, ← hs,
      Function.update_eq_self]
  | succ n ih =>
    intro s k hs hk hb
    push_cast at hb
    have hwr : wrapInt (k + 1) = k + 1 :=
      wrapInt_of_range _ (by unfold INT_MIN; omega)
        (by have := Int.ofNat_nonneg n; omega)
    have hstep := signal_nil s sem _ hsem hs rfl
    simp only [hwr] at hstep
    rw [List.replicate_succ, semCalls, semCall, hstep, Option.some_bind,
      ih _ (k + 1) (by simp) (by omega) (by omega)]
    simp only [Function.update_idem]
    push_cast
    rw [show k + 1 + (n : Int) = k + ((n : Int) + 1) by ring]

/-- C8: for every `n >= 0` of type `int`, `MySemaphoreInit(0)` followed by `n`
calls of `MySemaphoreSignal` returns and leaves exactly the runtime state of
`MySemaphoreInit(n)`, with the same handle. -/
theorem C8_init_eq_signals (s : Runtime) (sem : Nat) (n : Nat) (hsem : sem ≠ 0)
    (hn : (n : Int) ≤ INT_MAX) :
    (MySemaphoreInit s sem 0).1 = (MySemaphoreInit s sem (n : Int)).1 ∧
    semCalls (MySemaphoreInit s sem 0).2 sem (List.replicate n SemCall.signal)
      = some (MySemaphoreInit s sem (n : Int)).2 := by
  have hneg : ¬ ((n : Int) < 0) := not_lt.mpr (Int.ofNat_nonneg n)
  refine ⟨by simp [MySemaphoreInit, hneg], ?_⟩
  rw [signals_count sem hsem n (MySemaphoreInit s sem 0).2 0 (by simp [MySemaphoreInit])
    (le_refl 0) (by omega)]
  simp [MySemaphoreInit, hneg]

/-- Witness of C8: `MySemaphoreInit(0)` and three signals against
`MySemaphoreInit(3)`. -/
theorem C8_init_eq_signals_witness :
    (7 : Nat) ≠ 0 ∧ ((3 : Nat) : Int) ≤ INT_MAX ∧
    (MySemaphoreInit emptyRuntime 7 0).1 = (MySemaphoreInit emptyRuntime 7 ((3 : Nat) : Int)).1 ∧
    semCalls (MySemaphoreInit emptyRuntime 7 0).2 7 (List.replicate 3 SemCall.signal)
      = some (MySemaphoreInit emptyRuntime 7 ((3 : Nat) : Int)).2 :=
  ⟨by decide, by decide, C8_init_eq_signals emptyRuntime 7 3 (by decide) (by decide)⟩

/-! ## Scheduling and thread creation -/

/-- C9: `MyThreadYield` changes nothing when the ready queue is empty; when the
ready queue is `head :: rest` the new current thread is `head` and the ready
queue is `rest` followed by the caller, the heaps being unchanged; so when A
yields while B and C are ready, B runs next and the queue is C, A. -/
theorem C9_yield (s : Runtime) :
    (s.ready_queue = [] → MyThreadYield s = s) ∧
    (∀ head rest, s.ready_queue = head :: rest →
      (MyThreadYield s).current_thread = head ∧
      (MyThreadYield s).ready_queue = rest ++ [s.current_thread] ∧
      (MyThreadYield s).threads = s.threads ∧ (MyThreadYield s).sems = s.sems ∧
      (MyThreadYield s).init = s.init) ∧
    (∀ A B C, s.current_thread = A → s.ready_queue = [B, C] →
      (MyThreadYield s).current_thread = B ∧ (MyThreadYield s).ready_queue = [C, A]) := by
  refine ⟨?_, ?_, ?_⟩
  · intro h
    simp [MyThreadYield, h]
  · intro head rest h
    simp [MyThreadYield, _popNextThread, h]
  · intro A B C hA h
    simp [MyThreadYield, _popNextThread, h, hA]

/-- Witness of C9: thread 1 yields while threads 2 and 3 are ready. -/
theorem C9_yield_witness :
    (MyThreadYield { emptyRuntime with current_thread := 1, ready_queue := [2, 3] }).current_thread
      = 2 ∧
    (MyThreadYield { emptyRuntime with current_thread := 1, ready_queue := [2, 3] }).ready_queue
      = [3, 1] :=
  (C9_yield { emptyRuntime with current_thread := 1, ready_queue := [2, 3] }).2.2 1 2 3 rfl rfl

/-- C10: let `new_thread` be the fresh address `new` returns and let the
current thread be absent or live.  Then `MyThreadCreate` returns the handle
`new_thread`; the new thread has parent `current_thread` (null when no thread
is current), no children and an empty `blocked_by`; a current thread gains
`new_thread` in its children and keeps its parent and `blocked_by`; the new
thread is appended to the tail of the ready queue; `current_thread` is
unchanged; no other thread and no semaphore changes. -/
theorem C10_create (s : Runtime) (new_thread : Nat)
    (hfresh : s.threads new_thread = none)
    (hcur : s.current_thread = 0 ∨ ∃ cur, s.threads s.current_thread = some cur) :
    ∃ s1, MyThreadCreate s new_thread = some (new_thread, s1) ∧
      s1.threads new_thread
        = some { parent := s.current_thread, children := ∅, blocked_by := ∅ } ∧
      (∀ cur, s.current_thread ≠ 0 → s.threads s.current_thread = some cur →
        s1.threads s.current_thread
          = some { parent := cur.parent, children := insert new_thread cur.children,
                   blocked_by := cur.blocked_by }) ∧
      s1.ready_queue = s.ready_queue ++ [new_thread] ∧
      s1.current_thread = s.current_thread ∧
      (∀ t, t ≠ new_thread → t ≠ s.current_thread → s1.threads t = s.threads t) ∧
      s1.sems = s.sems ∧ s1.init = s.init := by
  by_cases hc : s.current_thread = 0
  · refine ⟨{ s with
        threads := Function.update s.threads new_thread
          (some { parent := s.current_thread, children := ∅, blocked_by := ∅ })
        ready_queue := s.ready_queue ++ [new_thread] },
      by simp [MyThreadCreate, hc], by simp, ?_, rfl, rfl, ?_, rfl, rfl⟩
    · intro cur h
      exact absurd hc h
    · intro t ht _
      simp [Function.update_noteq ht]
  · rcases hcur with h0 | ⟨cur, hcur⟩
    · exact absurd h0 hc
    · have hne : s.current_thread ≠ new_thread := by
        intro h
        rw [h, hfresh] at hcur
        exact absurd hcur (by simp)
      refine ⟨{ s with
          threads := Function.update
            (Function.update s.threads new_thread
              (some { parent := s.current_thread, children := ∅, blocked_by := ∅ }))
            s.current_thread
            (some { cur with children := insert new_thread cur.children })
          ready_queue := s.ready_queue ++ [new_thread] },
        by simp [MyThreadCreate, hc, Function.update_noteq hne, hcur], ?_, ?_, rfl, rfl, ?_,
        rfl, rfl⟩
      · simp [Function.update_noteq hne.symm]
      · intro cur1 _ h1
        rw [hcur] at h1
        cases h1
        simp
      · intro t ht htc
        simp [Function.update_noteq ht, Function.update_noteq htc]

/-- Witness of C10: thread 3, which has child 4, creates a thread at address 5
while thread 4 is ready. -/
theorem C10_create_witness :
    ∃ s1, MyThreadCreate
        { emptyRuntime with
          current_thread := 3
          ready_queue := [4]
          threads := Function.update
            (Function.update emptyRuntime.threads 3
              (some { parent := 0, children := {4}, blocked_by := ∅ }))
            4 (some { parent := 3, children := ∅, blocked_by := ∅ }) }
        5 = some (5, s1) ∧
      s1.threads 5 = some { parent := 3, children := ∅, blocked_by := ∅ } ∧
      s1.threads 3 = some { parent := 0, children := {5, 4}, blocked_by := ∅ } ∧
      s1.ready_queue = [4, 5] ∧ s1.current_thread = 3 := by
  obtain ⟨s1, h1, h2, h3, h4, h5, _⟩ := C10_create
    { emptyRuntime with
      current_thread := 3
      ready_queue := [4]
      threads := Function.update
        (Function.update emptyRuntime.threads 3
          (some { parent := 0, children := {4}, blocked_by := ∅ }))
        4 (some { parent := 3, children := ∅, blocked_by := ∅ }) }
    5 (by decide)
    (Or.inr ⟨{ parent := 0, children := {4}, blocked_by := ∅ }, by decide⟩)
  exact ⟨s1, h1, h2, h3 { parent := 0, children := {4}, blocked_by := ∅ } (by decide)
    (by decide), h4, h5⟩

/-! ## Joining and exiting: the calls by themselves -/

theorem join_child (s : Runtime) (thread : Nat) (cur : _MyThread)
    (hcur : s.threads s.current_thread = some cur) (hc : thread ∈ cur.children) :
    MyThreadJoin s thread = some (0, _popNextThread { s with
      threads := Function.update s.threads s.current_thread
        (some { cur with blocked_by := insert thread cur.blocked_by }) }) := by
  simp [MyThreadJoin, hcur, hc]

theorem join_non_child (s : Runtime) (thread : Nat) (cur : _MyThread)
    (hcur : s.threads s.current_thread = some cur) (hc : thread ∉ cur.children) :
    MyThreadJoin s thread = some (-1, s) := by
  simp [MyThreadJoin, hcur, hc]

theorem joinAll_children (s : Runtime) (cur : _MyThread)
    (hcur : s.threads s.current_thread = some cur) (hc : cur.children ≠ ∅) :
    MyThreadJoinAll s = some (_popNextThread { s with
      threads := Function.update s.threads s.current_thread
        (some { cur with blocked_by := cur.blocked_by ∪ cur.children }) }) := by
  simp [MyThreadJoinAll, hcur, hc]

theorem joinAll_no_children (s : Runtime) (cur : _MyThread)
    (hcur : s.threads s.current_thread = some cur) (hc : cur.children = ∅) :
    MyThreadJoinAll s = some s := by
  simp [MyThreadJoinAll, hcur, hc]

theorem exitParent_orphan (s : Runtime) (cur : _MyThread) (hp : cur.parent = 0) :
    exitParent s cur = some s := by
  simp [exitParent, hp]

/-- The first block of `MyThreadExit` when the parent is allocated. -/
theorem exitParent_parent (s : Runtime) (cur parent : _MyThread) (hp : cur.parent ≠ 0)
    (hparent : s.threads cur.parent = some parent) :
    exitParent s cur = some { s with
      threads := Function.update s.threads cur.parent
        (some { parent with
          children := parent.children.erase s.current_thread
          blocked_by := parent.blocked_by.erase s.current_thread })
      ready_queue :=
        if parent.blocked_by ≠ ∅ ∧ parent.blocked_by.erase s.current_thread = ∅
        then s.ready_queue ++ [cur.parent] else s.ready_queue } := by
  unfold exitParent
  by_cases hb : parent.blocked_by = ∅
  · simp [hp, hparent, hb]
  · by_cases he : parent.blocked_by.erase s.current_thread = ∅
    · simp [hp, hparent, hb, he]
    · simp [hp, hparent, hb, he]

/-- The second block of `MyThreadExit` in a state `s1` whose running thread is
`cur` and has allocated children. -/
theorem exit_detach (s s1 : Runtime) (cur : _MyThread)
    (hcur : s.threads s.current_thread = some cur)
    (hpar : exitParent s cur = some s1)
    (hcur1 : s1.threads s1.current_thread = some cur)
    (hkids : ∀ c ∈ cur.children, (s1.threads c).isSome = true) :
    MyThreadExit s = some { s1 with
      threads := fun a =>
        if a ∈ cur.children then (s1.threads a).map fun th => { th with parent := 0 }
        else s1.threads a } := by
  unfold MyThreadExit
  simp only [hcur, hpar, Option.some_bind, hcur1]
  unfold detachChildren
  rw [if_pos hkids]
  rfl

/-- C11: when the handle is not in the children of the running thread,
`MyThreadJoin` returns `-1` and the runtime state is the one before the call:
`blocked_by`, the ready queue and `current_thread` are the same and the caller
keeps running. -/
theorem C11_join_non_child (s : Runtime) (thread : Nat) (cur : _MyThread)
    (hcur : s.threads s.current_thread = some cur) (hc : thread ∉ cur.children) :
    MyThreadJoin s thread = some (-1, s) :=
  join_non_child s thread cur hcur hc

/-- Witness of C11: thread 3, whose only child is 4, joins the handle 5. -/
theorem C11_join_non_child_witness :
    MyThreadJoin
      { emptyRuntime with
        current_thread := 3
        ready_queue := [4]
        threads := Function.update
          (Function.update emptyRuntime.threads 3
            (some { parent := 0, children := {4}, blocked_by := ∅ }))
          4 (some { parent := 3, children := ∅, blocked_by := ∅ }) }
      5
    = some (-1,
      { emptyRuntime with
        current_thread := 3
        ready_queue := [4]
        threads := Function.update
          (Function.update emptyRuntime.threads 3
            (some { parent := 0, children := {4}, blocked_by := ∅ }))
          4 (some { parent := 3, children := ∅, blocked_by := ∅ }) }) :=
  C11_join_non_child _ 5 { parent := 0, children := {4}, blocked_by := ∅ }
    (by decide) (by decide)

/-- The state `MyThreadExit` leaves, in closed form.  The running thread `cur`
is not its own parent, its parent is allocated when it is not null, and its
children are allocated. -/
theorem exit_result (s : Runtime) (cur : _MyThread)
    (hcur : s.threads s.current_thread = some cur)
    (hself : cur.parent ≠ s.current_thread)
    (hparent : cur.parent ≠ 0 → ∃ parent, s.threads cur.parent = some parent)
    (hkids : ∀ c ∈ cur.children, (s.threads c).isSome = true) :
    ∃ s1, MyThreadExit s = some s1 ∧ s1.current_thread = s.current_thread ∧
      s1.sems = s.sems ∧ s1.init = s.init ∧
      s1.ready_queue =
        (match s.threads cur.parent with
         | some parent =>
           if cur.parent ≠ 0 ∧ parent.blocked_by ≠ ∅ ∧
              parent.blocked_by.erase s.current_thread = ∅
           then s.ready_queue ++ [cur.parent] else s.ready_queue
         | none => s.ready_queue) ∧
      ∀ a, s1.threads a = (s.threads a).map fun th =>
        { parent := if a ∈ cur.children then 0 else th.parent
          children :=
            if a = cur.parent ∧ cur.parent ≠ 0 then th.children.erase s.current_thread
            else th.children
          blocked_by :=
            if a = cur.parent ∧ cur.parent ≠ 0 then th.blocked_by.erase s.current_thread
            else th.blocked_by } := by
  by_cases hp : cur.parent = 0
  · have hex := exit_detach s s cur hcur (exitParent_orphan s cur hp) hcur hkids
    refine ⟨_, hex, rfl, rfl, rfl, ?_, ?_⟩
    · cases s.threads cur.parent <;> simp [hp]
    · intro a
      by_cases ha : a ∈ cur.children
      · cases hth : s.threads a <;> simp [ha, hp, hth]
      · cases hth : s.threads a
        · simp [ha, hth]
        · simp [ha, hp, hth]
  · obtain ⟨parent, hpar⟩ := hparent hp
    have hstep := exitParent_parent s cur parent hp hpar
    have hcur1 : (Function.update s.threads cur.parent
        (some { parent with
          children := parent.children.erase s.current_thread
          blocked_by := parent.blocked_by.erase s.current_thread })) s.current_thread
        = some cur := by
      rw [Function.update_noteq (Ne.symm hself)]
      exact hcur
    have hkids1 : ∀ c ∈ cur.children, ((Function.update s.threads cur.parent
        (some { parent with
          children := parent.children.erase s.current_thread
          blocked_by := parent.blocked_by.erase s.current_thread })) c).isSome = true := by
      intro c hc
      by_cases hcp : c = cur.parent
      · rw [hcp, Function.update_same]
        rfl
      · rw [Function.update_noteq hcp]
        exact hkids c hc
    have hex := exit_detach s _ cur hcur hstep hcur1 hkids1
    refine ⟨_, hex, rfl, rfl, rfl, ?_, ?_⟩
    · simp [hpar, hp]
    · intro a
      by_cases hap : a = cur.parent
      · subst hap
        by_cases ha : cur.parent ∈ cur.children
        · simp [ha, hp, hpar]
        · simp [ha, hp, hpar]
      · by_cases ha : a ∈ cur.children
        · cases hth : s.threads a <;> simp [ha, hap, hth, Function.update_noteq hap]
        · cases hth : s.threads a <;> simp [ha, hap, hth, Function.update_noteq hap]

/-- C15: let the running thread `t` be `cur`, not its own parent, with an
allocated parent (when it has one) and allocated children.  `MyThreadExit`
returns; `t` is removed from the parent's `children` and `blocked_by`; the
parent is appended to the tail of the ready queue if and only if its
`blocked_by` was non-empty before the call and is empty after it, and the ready
queue is unchanged otherwise, in particular when `t` has no parent or the
parent is not blocked on `t`. -/
theorem C15_exit_parent_rule (s : Runtime) (cur : _MyThread)
    (hcur : s.threads s.current_thread = some cur)
    (hself : cur.parent ≠ s.current_thread)
    (hparent : cur.parent ≠ 0 → ∃ parent, s.threads cur.parent = some parent)
    (hkids : ∀ c ∈ cur.children, (s.threads c).isSome = true) :
    ∃ s1, MyThreadExit s = some s1 ∧
      (cur.parent = 0 → s1.ready_queue = s.ready_queue) ∧
      (∀ parent, cur.parent ≠ 0 → s.threads cur.parent = some parent →
        ∃ parent1, s1.threads cur.parent = some parent1 ∧
          parent1.children = parent.children.erase s.current_thread ∧
          parent1.blocked_by = parent.blocked_by.erase s.current_thread ∧
          s.current_thread ∉ parent1.children ∧ s.current_thread ∉ parent1.blocked_by ∧
          (s1.ready_queue = s.ready_queue ++ [cur.parent] ↔
            (parent.blocked_by ≠ ∅ ∧ parent1.blocked_by = ∅)) ∧
          (¬ (parent.blocked_by ≠ ∅ ∧ parent1.blocked_by = ∅) →
            s1.ready_queue = s.ready_queue) ∧
          (s.current_thread ∉ parent.blocked_by → s1.ready_queue = s.ready_queue)) := by
  obtain ⟨s1, hex, _, _, _, hready, hthreads⟩ := exit_result s cur hcur hself hparent hkids
  refine ⟨s1, hex, ?_, ?_⟩
  · intro hp
    rw [hready]
    cases s.threads cur.parent <;> simp [hp]
  · intro parent hp hpar
    have h1 := hthreads cur.parent
    rw [hpar] at h1
    simp only [Option.map_some', hp, ne_eq, not_false_eq_true, and_self, if_true] at h1
    rw [hpar] at hready
    simp only [hp, ne_eq, not_false_eq_true, true_and] at hready
    refine ⟨_, h1, rfl, rfl, by simp, by simp, ?_, ?_, ?_⟩
    · constructor
      · intro h
        by_contra hcon
        rw [hready, if_neg hcon] at h
        have := congrArg List.length h
        simp at this
      · intro h
        rw [hready, if_pos h]
    · intro h
      rw [hready, if_neg h]
    · intro h
      rw [hready, Finset.erase_eq_of_not_mem h]
      by_cases hb : parent.blocked_by = ∅
      · simp [hb]
      · simp [hb]

/-- Witness of C15: thread 4 exits while its parent 3 is blocked on it alone. -/
theorem C15_exit_parent_rule_witness :
    ∃ s1 parent1, MyThreadExit
        { emptyRuntime with
          current_thread := 4
          ready_queue := [5]
          threads := Function.update
            (Function.update
              (Function.update emptyRuntime.threads 3
                (some { parent := 0, children := {4, 5}, blocked_by := {4} }))
              4 (some { parent := 3, children := ∅, blocked_by := ∅ }))
            5 (some { parent := 3, children := ∅, blocked_by := ∅ }) } = some s1 ∧
      s1.threads 3 = some parent1 ∧ parent1.children = {5} ∧ parent1.blocked_by = ∅ ∧
      s1.ready_queue = [5, 3] := by
  obtain ⟨s1, h1, _, h2⟩ := C15_exit_parent_rule
    { emptyRuntime with
      current_thread := 4
      ready_queue := [5]
      threads := Function.update
        (Function.update
          (Function.update emptyRuntime.threads 3
            (some { parent := 0, children := {4, 5}, blocked_by := {4} }))
          4 (some { parent := 3, children := ∅, blocked_by := ∅ }))
        5 (some { parent := 3, children := ∅, blocked_by := ∅ }) }
    { parent := 3, children := ∅, blocked_by := ∅ }
    (by decide) (by decide)
    (fun _ => ⟨{ parent := 0, children := {4, 5}, blocked_by := {4} }, by decide⟩) (by decide)
  obtain ⟨parent1, h3, h4, h5, _, _, h6, _⟩ :=
    h2 { parent := 0, children := {4, 5}, blocked_by := {4} } (by decide) (by decide)
  have hb : parent1.blocked_by = ∅ := by rw [h5]; decide
  exact ⟨s1, parent1, h1, h3, by rw [h4]; decide, hb, h6.mpr ⟨by decide, hb⟩⟩

/-! ## The invariant of the runtime -/

theorem runnable_congr (s s1 : Runtime) (t : Nat) (h : s1.threads t = s.threads t) :
    Runnable s1 t ↔ Runnable s t := by
  unfold Runnable
  rw [h]

theorem runnable_ne_zero (s : Runtime) (t : Nat) (hnull : s.threads 0 = none)
    (h : Runnable s t) : t ≠ 0 := by
  intro h0
  obtain ⟨th, hth, _⟩ := h
  rw [h0, hnull] at hth
  exact absurd hth (by simp)

/-- Dispatching from a state whose queues are in order gives a state that
satisfies the invariant. -/
theorem inv_popNextThread (s : Runtime) (htree : TreeInv s.threads) (hpark : Parked s)
    (hinit : s.init = true) : Inv (_popNextThread s) := by
  unfold _popNextThread
  cases hq : s.ready_queue with
  | nil =>
    refine ⟨htree, ⟨by simp [hq], by simp [hq], hpark.sem_nodup, ?_, hpark.sem_disjoint⟩,
      by simp [hq], fun h => absurd rfl h, ?_, fun _ => rfl, hinit⟩
    · intro a ms hms t ht
      exact ⟨by simp [hq], (hpark.sem_run a ms hms t ht).2⟩
    · intro a ms hms h0
      exact runnable_ne_zero s 0 htree.null_free (hpark.sem_run a ms hms 0 h0).2 rfl
  | cons next rest =>
    have hnd := hpark.ready_nodup
    rw [hq] at hnd
    obtain ⟨hnext, hrest⟩ := List.nodup_cons.mp hnd
    have hnext0 : next ≠ 0 :=
      runnable_ne_zero s next htree.null_free
        (hpark.ready_run next (by rw [hq]; exact List.mem_cons_self _ _))
    refine ⟨htree, ⟨hrest, ?_, hpark.sem_nodup, ?_, hpark.sem_disjoint⟩, hnext, ?_, ?_,
      fun h => absurd h hnext0, hinit⟩
    · intro t ht
      exact hpark.ready_run t (by rw [hq]; exact List.mem_cons_of_mem _ ht)
    · intro a ms hms t ht
      obtain ⟨h1, h2⟩ := hpark.sem_run a ms hms t ht
      refine ⟨?_, h2⟩
      intro hmem
      exact h1 (by rw [hq]; exact List.mem_cons_of_mem _ hmem)
    · intro _
      exact hpark.ready_run next (by rw [hq]; exact List.mem_cons_self _ _)
    · intro a ms hms hmem
      exact (hpark.sem_run a ms hms next hmem).1 (by rw [hq]; exact List.mem_cons_self _ _)

theorem nodup_snoc (l : List Nat) (a : Nat) (hl : l.Nodup) (ha : a ∉ l) :
    (l ++ [a]).Nodup := by
  rw [List.nodup_append]
  refine ⟨hl, List.nodup_singleton a, ?_⟩
  intro x hx hx1
  rw [List.mem_singleton] at hx1
  rw [hx1] at hx
  exact ha hx

theorem update_some_cases {β : Type} (f : Nat → Option β) (a b : Nat) (x : Option β) (y : β)
    (h : Function.update f a x b = some y) :
    (b = a ∧ x = some y) ∨ (b ≠ a ∧ f b = some y) := by
  by_cases hb : b = a
  · left
    rw [hb, Function.update_same] at h
    exact ⟨hb, h⟩
  · right
    rw [Function.update_noteq hb] at h
    exact ⟨hb, h⟩

theorem inv_yield (s : Runtime) (hinv : Inv s) (hcur : s.current_thread ≠ 0) :
    Inv (MyThreadYield s) := by
  unfold MyThreadYield
  split
  · refine inv_popNextThread { s with ready_queue := s.ready_queue ++ [s.current_thread] }
      hinv.tree ?_ hinv.started
    refine ⟨nodup_snoc _ _ hinv.parked.ready_nodup hinv.cur_not_ready, ?_,
      hinv.parked.sem_nodup, ?_, hinv.parked.sem_disjoint⟩
    · intro t ht
      rcases List.mem_append.mp ht with h | h
      · exact hinv.parked.ready_run t h
      · rw [List.mem_singleton] at h
        rw [h]
        exact hinv.cur_run hcur
    · intro a ms hms t ht
      obtain ⟨h1, h2⟩ := hinv.parked.sem_run a ms hms t ht
      refine ⟨?_, h2⟩
      intro hmem
      rcases List.mem_append.mp hmem with h | h
      · exact h1 h
      · rw [List.mem_singleton] at h
        rw [h] at ht
        exact hinv.cur_not_waiting a ms hms ht
  · exact hinv

theorem inv_signal (s s1 : Runtime) (sem : Nat) (hinv : Inv s) (hcur : s.current_thread ≠ 0)
    (h : MySemaphoreSignal s sem = some s1) : Inv s1 := by
  by_cases hsem : sem = 0
  · simp [MySemaphoreSignal, hsem] at h
    rw [← h]
    exact hinv
  · cases hms : s.sems sem with
    | none => simp [MySemaphoreSignal, hsem, hms] at h
    | some ms =>
      cases hq : ms.block_queue with
      | nil =>
        rw [signal_nil s sem ms hsem hms hq] at h
        cases h
        refine ⟨hinv.tree, ⟨hinv.parked.ready_nodup, hinv.parked.ready_run, ?_, ?_, ?_⟩,
          hinv.cur_not_ready, hinv.cur_run, ?_, hinv.drained, hinv.started⟩
        · intro a ma hma
          rcases update_some_cases _ _ _ _ _ hma with ⟨_, hx⟩ | ⟨_, hx⟩
          · cases hx
            simp [hq]
          · exact hinv.parked.sem_nodup a ma hx
        · intro a ma hma t ht
          rcases update_some_cases _ _ _ _ _ hma with ⟨_, hx⟩ | ⟨_, hx⟩
          · cases hx
            simp [hq] at ht
          · exact hinv.parked.sem_run a ma hx t ht
        · intro a b ma mb hab hma hmb t ht
          rcases update_some_cases _ _ _ _ _ hma with ⟨_, hx⟩ | ⟨_, hx⟩
          · cases hx
            simp [hq] at ht
          · rcases update_some_cases _ _ _ _ _ hmb with ⟨_, hy⟩ | ⟨_, hy⟩
            · cases hy
              simp [hq]
            · exact hinv.parked.sem_disjoint a b ma mb hab hx hy t ht
        · intro a ma hma
          rcases update_some_cases _ _ _ _ _ hma with ⟨_, hx⟩ | ⟨_, hx⟩
          · cases hx
            simp [hq]
          · exact hinv.cur_not_waiting a ma hx
      | cons front rest =>
        rw [signal_cons s sem ms front rest hsem hms hq] at h
        cases h
        have hnd := hinv.parked.sem_nodup sem ms hms
        rw [hq] at hnd
        obtain ⟨hfront_rest, hrest⟩ := List.nodup_cons.mp hnd
        have hfront_mem : front ∈ ms.block_queue := by rw [hq]; exact List.mem_cons_self _ _
        have hrest_mem : ∀ t ∈ rest, t ∈ ms.block_queue := by
          intro t ht; rw [hq]; exact List.mem_cons_of_mem _ ht
        obtain ⟨hf1, hf2⟩ := hinv.parked.sem_run sem ms hms front hfront_mem
        refine ⟨hinv.tree, ⟨nodup_snoc _ _ hinv.parked.ready_nodup hf1, ?_, ?_, ?_, ?_⟩,
          ?_, hinv.cur_run, ?_, fun h0 => absurd h0 hcur, hinv.started⟩
        · intro t ht
          rcases List.mem_append.mp ht with h1 | h1
          · exact hinv.parked.ready_run t h1
          · rw [List.mem_singleton] at h1
            rw [h1]
            exact hf2
        · intro a ma hma
          rcases update_some_cases _ _ _ _ _ hma with ⟨_, hx⟩ | ⟨_, hx⟩
          · cases hx
            exact hrest
          · exact hinv.parked.sem_nodup a ma hx
        · intro a ma hma t ht
          rcases update_some_cases _ _ _ _ _ hma with ⟨_, hx⟩ | ⟨hne, hx⟩
          · cases hx
            obtain ⟨h1, h2⟩ := hinv.parked.sem_run sem ms hms t (hrest_mem t ht)
            refine ⟨?_, h2⟩
            intro hmem
            rcases List.mem_append.mp hmem with h3 | h3
            · exact h1 h3
            · rw [List.mem_singleton] at h3
              rw [h3] at ht
              exact hfront_rest ht
          · obtain ⟨h1, h2⟩ := hinv.parked.sem_run a ma hx t ht
            refine ⟨?_, h2⟩
            intro hmem
            rcases List.mem_append.mp hmem with h3 | h3
            · exact h1 h3
            · rw [List.mem_singleton] at h3
              rw [h3] at ht
              exact hinv.parked.sem_disjoint sem a ms ma (Ne.symm hne) hms hx front
                hfront_mem ht
        · intro a b ma mb hab hma hmb t ht
          rcases update_some_cases _ _ _ _ _ hma with ⟨ha, hx⟩ | ⟨ha, hx⟩
          · cases hx
            rcases update_some_cases _ _ _ _ _ hmb with ⟨hb, hy⟩ | ⟨hb, hy⟩
            · exact absurd (ha.trans hb.symm) hab
            · exact hinv.parked.sem_disjoint sem b ms mb (Ne.symm hb) hms hy t (hrest_mem t ht)
          · rcases update_some_cases _ _ _ _ _ hmb with ⟨hb, hy⟩ | ⟨hb, hy⟩
            · cases hy
              intro hmem
              exact hinv.parked.sem_disjoint a sem ma ms ha hx hms t ht (hrest_mem t hmem)
            · exact hinv.parked.sem_disjoint a b ma mb hab hx hy t ht
        · intro hmem
          rcases List.mem_append.mp hmem with h3 | h3
          · exact hinv.cur_not_ready h3
          · rw [List.mem_singleton] at h3
            exact hinv.cur_not_waiting sem ms hms (by rw [h3]; exact hfront_mem)
        · intro a ma hma
          rcases update_some_cases _ _ _ _ _ hma with ⟨_, hx⟩ | ⟨_, hx⟩
          · cases hx
            intro hmem
            exact hinv.cur_not_waiting sem ms hms (hrest_mem _ hmem)
          · exact hinv.cur_not_waiting a ma hx

/-- Replacing one semaphore by nothing, by a semaphore with an empty block
queue, or by one with the block queue it had, keeps the invariant. -/
theorem inv_sems_update (s : Runtime) (a : Nat) (x : Option _MySem) (hinv : Inv s)
    (hx : ∀ m, x = some m →
      m.block_queue = [] ∨ ∃ ms, s.sems a = some ms ∧ m.block_queue = ms.block_queue) :
    Inv { s with sems := Function.update s.sems a x } := by
  refine ⟨hinv.tree, ⟨hinv.parked.ready_nodup, hinv.parked.ready_run, ?_, ?_, ?_⟩,
    hinv.cur_not_ready, hinv.cur_run, ?_, hinv.drained, hinv.started⟩
  · intro b mb hmb
    rcases update_some_cases _ _ _ _ _ hmb with ⟨_, h1⟩ | ⟨_, h1⟩
    · rcases hx mb h1 with h2 | ⟨ms, h2, h3⟩
      · rw [h2]; exact List.nodup_nil
      · rw [h3]; exact hinv.parked.sem_nodup a ms h2
    · exact hinv.parked.sem_nodup b mb h1
  · intro b mb hmb t ht
    rcases update_some_cases _ _ _ _ _ hmb with ⟨_, h1⟩ | ⟨_, h1⟩
    · rcases hx mb h1 with h2 | ⟨ms, h2, h3⟩
      · rw [h2] at ht; exact absurd ht (List.not_mem_nil t)
      · rw [h3] at ht; exact hinv.parked.sem_run a ms h2 t ht
    · exact hinv.parked.sem_run b mb h1 t ht
  · intro b c mb mc hbc hmb hmc t ht
    rcases update_some_cases _ _ _ _ _ hmb with ⟨hb, h1⟩ | ⟨hb, h1⟩
    · rcases hx mb h1 with h2 | ⟨ms, h2, h3⟩
      · rw [h2] at ht; exact absurd ht (List.not_mem_nil t)
      · rw [h3] at ht
        rcases update_some_cases _ _ _ _ _ hmc with ⟨hc, h4⟩ | ⟨hc, h4⟩
        · exact absurd (hb.trans hc.symm) hbc
        · exact hinv.parked.sem_disjoint a c ms mc (Ne.symm hc) h2 h4 t ht
    · rcases update_some_cases _ _ _ _ _ hmc with ⟨hc, h4⟩ | ⟨hc, h4⟩
      · rcases hx mc h4 with h5 | ⟨ms, h5, h6⟩
        · rw [h5]; exact List.not_mem_nil t
        · rw [h6]; exact hinv.parked.sem_disjoint b a mb ms hb h1 h5 t ht
      · exact hinv.parked.sem_disjoint b c mb mc hbc h1 h4 t ht
  · intro b mb hmb
    rcases update_some_cases _ _ _ _ _ hmb with ⟨_, h1⟩ | ⟨_, h1⟩
    · rcases hx mb h1 with h2 | ⟨ms, h2, h3⟩
      · rw [h2]; exact List.not_mem_nil _
      · rw [h3]; exact hinv.cur_not_waiting a ms h2
    · exact hinv.cur_not_waiting b mb h1

theorem inv_wait (s s1 : Runtime) (sem : Nat) (hinv : Inv s) (hcur : s.current_thread ≠ 0)
    (h : MySemaphoreWait s sem = some s1) : Inv s1 := by
  by_cases hsem : sem = 0
  · simp [MySemaphoreWait, hsem] at h
    rw [← h]
    exact hinv
  · cases hms : s.sems sem with
    | none => simp [MySemaphoreWait, hsem, hms] at h
    | some ms =>
      by_cases hv : 0 < ms.value
      · rw [wait_pos s sem ms hsem hms hv] at h
        cases h
        exact inv_sems_update s sem _ hinv (fun m hm => Or.inr ⟨ms, hms, by cases hm; rfl⟩)
      · rw [wait_block s sem ms hsem hms hv] at h
        cases h
        refine inv_popNextThread
          { s with
            sems := Function.update s.sems sem
              (some { ms with block_queue := ms.block_queue ++ [s.current_thread] }) }
          hinv.tree ?_ hinv.started
        refine ⟨hinv.parked.ready_nodup, hinv.parked.ready_run, ?_, ?_, ?_⟩
        · intro a ma hma
          rcases update_some_cases _ _ _ _ _ hma with ⟨_, hx⟩ | ⟨_, hx⟩
          · cases hx
            exact nodup_snoc _ _ (hinv.parked.sem_nodup sem ms hms)
              (hinv.cur_not_waiting sem ms hms)
          · exact hinv.parked.sem_nodup a ma hx
        · intro a ma hma t ht
          rcases update_some_cases _ _ _ _ _ hma with ⟨_, hx⟩ | ⟨_, hx⟩
          · cases hx
            rcases List.mem_append.mp ht with h1 | h1
            · exact hinv.parked.sem_run sem ms hms t h1
            · rw [List.mem_singleton] at h1
              rw [h1]
              exact ⟨hinv.cur_not_ready, hinv.cur_run hcur⟩
          · exact hinv.parked.sem_run a ma hx t ht
        · intro a b ma mb hab hma hmb t ht
          rcases update_some_cases _ _ _ _ _ hma with ⟨ha, hx⟩ | ⟨ha, hx⟩
          · cases hx
            rcases update_some_cases _ _ _ _ _ hmb with ⟨hb, hy⟩ | ⟨hb, hy⟩
            · exact absurd (ha.trans hb.symm) hab
            · rcases List.mem_append.mp ht with h1 | h1
              · exact hinv.parked.sem_disjoint sem b ms mb (Ne.symm hb) hms hy t h1
              · rw [List.mem_singleton] at h1
                rw [h1]
                exact hinv.cur_not_waiting b mb hy
          · rcases update_some_cases _ _ _ _ _ hmb with ⟨hb, hy⟩ | ⟨hb, hy⟩
            · cases hy
              intro hmem
              rcases List.mem_append.mp hmem with h1 | h1
              · exact hinv.parked.sem_disjoint a sem ma ms ha hx hms t ht h1
              · rw [List.mem_singleton] at h1
                rw [h1] at ht
                exact hinv.cur_not_waiting a ma hx ht
            · exact hinv.parked.sem_disjoint a b ma mb hab hx hy t ht

theorem inv_semInit (s : Runtime) (sem : Nat) (n : Int) (hinv : Inv s) :
    Inv (MySemaphoreInit s sem n).2 := by
  unfold MySemaphoreInit
  split
  · exact hinv
  · exact inv_sems_update s sem _ hinv (fun m hm => Or.inl (by cases hm; rfl))

theorem inv_semDestroy (s : Runtime) (sem : Nat) (r : Int × Runtime) (hinv : Inv s)
    (h : MySemaphoreDestroy s sem = some r) : Inv r.2 := by
  unfold MySemaphoreDestroy at h
  by_cases hsem : sem = 0
  · simp [hsem] at h
    rw [← h]
    exact hinv
  · cases hms : s.sems sem with
    | none => simp [hsem, hms] at h
    | some ms =>
      by_cases hq : ms.block_queue.isEmpty = true
      · simp [hsem, hms, hq] at h
        rw [← h]
        exact inv_sems_update s sem none hinv (fun m hm => absurd hm (by simp))
      · simp [hsem, hms, hq] at h
        rw [← h]
        exact hinv

/-- Changing `blocked_by` of one thread within its children keeps the shape of
the thread heap. -/
theorem tree_update_blocked (threads : Nat → Option _MyThread) (t : Nat) (T : _MyThread)
    (B : Finset Nat) (htree : TreeInv threads) (hT : threads t = some T)
    (hB : B ⊆ T.children) :
    TreeInv (Function.update threads t (some { T with blocked_by := B })) := by
  have ht0 : t ≠ 0 := by
    intro h
    rw [h, htree.null_free] at hT
    exact absurd hT (by simp)
  refine ⟨by rw [Function.update_noteq (Ne.symm ht0)]; exact htree.null_free, ?_, ?_, ?_, ?_⟩
  · intro p P c hP hc
    have hc1 : ∃ C, threads c = some C ∧ C.parent = p := by
      rcases update_some_cases _ _ _ _ _ hP with ⟨hp, hx⟩ | ⟨_, hx⟩
      · cases hx
        rw [hp]
        exact htree.child_parent t T c hT hc
      · exact htree.child_parent p P c hx hc
    obtain ⟨C, hC, hCp⟩ := hc1
    by_cases hct : c = t
    · rw [hct, Function.update_same]
      rw [hct, hT] at hC
      cases hC
      exact ⟨_, rfl, hCp⟩
    · rw [Function.update_noteq hct]
      exact ⟨C, hC, hCp⟩
  · intro c C hC hpar
    have hc1 : ∃ P, threads C.parent = some P ∧ c ∈ P.children := by
      rcases update_some_cases _ _ _ _ _ hC with ⟨hc, hx⟩ | ⟨_, hx⟩
      · cases hx
        rw [hc]
        exact htree.parent_child t T hT hpar
      · exact htree.parent_child c C hx hpar
    obtain ⟨P, hP, hcP⟩ := hc1
    by_cases hpt : C.parent = t
    · rw [hpt, Function.update_same]
      rw [hpt, hT] at hP
      cases hP
      exact ⟨_, rfl, hcP⟩
    · rw [Function.update_noteq hpt]
      exact ⟨P, hP, hcP⟩
  · intro q Q hQ
    rcases update_some_cases _ _ _ _ _ hQ with ⟨_, hx⟩ | ⟨_, hx⟩
    · cases hx
      exact htree.parent_not_child t T hT
    · exact htree.parent_not_child q Q hx
  · intro q Q hQ
    rcases update_some_cases _ _ _ _ _ hQ with ⟨_, hx⟩ | ⟨_, hx⟩
    · cases hx
      exact hB
    · exact htree.blocked_sub q Q hx

/-- Rewriting the record of the running thread leaves the queues in order: the
running thread is in none of them. -/
theorem parked_update_current (s : Runtime) (x : Option _MyThread) (hinv : Inv s) :
    Parked { s with threads := Function.update s.threads s.current_thread x } := by
  have hrun : ∀ t, t ≠ s.current_thread → Runnable s t →
      Runnable { s with threads := Function.update s.threads s.current_thread x } t := by
    intro t ht h
    exact (runnable_congr s _ t (by simp [Function.update_noteq ht])).mpr h
  refine ⟨hinv.parked.ready_nodup, ?_, hinv.parked.sem_nodup, ?_, hinv.parked.sem_disjoint⟩
  · intro t ht
    apply hrun t _ (hinv.parked.ready_run t ht)
    intro h
    rw [h] at ht
    exact hinv.cur_not_ready ht
  · intro a ms hms t ht
    obtain ⟨h1, h2⟩ := hinv.parked.sem_run a ms hms t ht
    refine ⟨h1, hrun t ?_ h2⟩
    intro h
    rw [h] at ht
    exact hinv.cur_not_waiting a ms hms ht

theorem inv_join (s : Runtime) (thread : Nat) (r : Int × Runtime) (hinv : Inv s)
    (h : MyThreadJoin s thread = some r) : Inv r.2 := by
  cases hcur : s.threads s.current_thread with
  | none => simp [MyThreadJoin, hcur] at h
  | some cur =>
    by_cases hc : thread ∈ cur.children
    · rw [join_child s thread cur hcur hc] at h
      cases h
      refine inv_popNextThread
        { s with
          threads := Function.update s.threads s.current_thread
            (some { cur with blocked_by := insert thread cur.blocked_by }) }
        (tree_update_blocked s.threads s.current_thread cur _ hinv.tree hcur ?_)
        (parked_update_current s _ hinv) hinv.started
      intro x hx
      rcases Finset.mem_insert.mp hx with h1 | h1
      · rw [h1]; exact hc
      · exact hinv.tree.blocked_sub _ cur hcur h1
    · rw [join_non_child s thread cur hcur hc] at h
      cases h
      exact hinv

theorem inv_joinAll (s s1 : Runtime) (hinv : Inv s)
    (h : MyThreadJoinAll s = some s1) : Inv s1 := by
  cases hcur : s.threads s.current_thread with
  | none => simp [MyThreadJoinAll, hcur] at h
  | some cur =>
    by_cases hc : cur.children = ∅
    · rw [joinAll_no_children s cur hcur hc] at h
      cases h
      exact hinv
    · rw [joinAll_children s cur hcur hc] at h
      cases h
      refine inv_popNextThread
        { s with
          threads := Function.update s.threads s.current_thread
            (some { cur with blocked_by := cur.blocked_by ∪ cur.children }) }
        (tree_update_blocked s.threads s.current_thread cur _ hinv.tree hcur ?_)
        (parked_update_current s _ hinv) hinv.started
      exact Finset.union_subset (hinv.tree.blocked_sub _ cur hcur) (Finset.Subset.refl _)

theorem create_running (s : Runtime) (new_thread : Nat) (cur : _MyThread)
    (hc : s.current_thread ≠ 0) (hcur : s.threads s.current_thread = some cur)
    (hfresh : s.threads new_thread = none) :
    MyThreadCreate s new_thread = some (new_thread, { s with
      threads := Function.update
        (Function.update s.threads new_thread
          (some { parent := s.current_thread, children := ∅, blocked_by := ∅ }))
        s.current_thread (some { cur with children := insert new_thread cur.children })
      ready_queue := s.ready_queue ++ [new_thread] }) := by
  have hne : s.current_thread ≠ new_thread := by
    intro h
    rw [h, hfresh] at hcur
    exact absurd hcur (by simp)
  simp [MyThreadCreate, hc, Function.update_noteq hne, hcur]

/-- The thread heap after a creation by the running thread `t`. -/
theorem tree_create (threads : Nat → Option _MyThread) (t a : Nat) (T : _MyThread)
    (htree : TreeInv threads) (hT : threads t = some T) (ha0 : a ≠ 0)
    (hfresh : threads a = none) :
    TreeInv (Function.update
      (Function.update threads a (some { parent := t, children := ∅, blocked_by := ∅ }))
      t (some { T with children := insert a T.children })) := by
  have ht0 : t ≠ 0 := by
    intro h
    rw [h, htree.null_free] at hT
    exact absurd hT (by simp)
  have hta : t ≠ a := by
    intro h
    rw [h, hfresh] at hT
    exact absurd hT (by simp)
  have hlive_ne : ∀ x X, threads x = some X → x ≠ a := by
    intro x X hx h
    rw [h, hfresh] at hx
    exact absurd hx (by simp)
  have hat : ∀ x, x ≠ t → x ≠ a →
      Function.update
        (Function.update threads a (some { parent := t, children := ∅, blocked_by := ∅ }))
        t (some { T with children := insert a T.children }) x = threads x := by
    intro x h1 h2
    rw [Function.update_noteq h1, Function.update_noteq h2]
  have hnew : Function.update
        (Function.update threads a (some { parent := t, children := ∅, blocked_by := ∅ }))
        t (some { T with children := insert a T.children }) a
      = some { parent := t, children := ∅, blocked_by := ∅ } := by
    rw [Function.update_noteq (Ne.symm hta), Function.update_same]
  have hcases : ∀ x X, Function.update
        (Function.update threads a (some { parent := t, children := ∅, blocked_by := ∅ }))
        t (some { T with children := insert a T.children }) x = some X →
      (x = t ∧ X = { T with children := insert a T.children }) ∨
      (x = a ∧ X = { parent := t, children := ∅, blocked_by := ∅ }) ∨
      (x ≠ t ∧ x ≠ a ∧ threads x = some X) := by
    intro x X hX
    rcases update_some_cases _ _ _ _ _ hX with ⟨h1, h2⟩ | ⟨h1, h2⟩
    · left
      cases h2
      exact ⟨h1, rfl⟩
    · rcases update_some_cases _ _ _ _ _ h2 with ⟨h3, h4⟩ | ⟨h3, h4⟩
      · right; left
        cases h4
        exact ⟨h3, rfl⟩
      · right; right
        exact ⟨h1, h3, h4⟩
  -- every thread allocated before is still allocated, with the same parent
  have hkeep : ∀ x X, threads x = some X → ∃ X1, Function.update
        (Function.update threads a (some { parent := t, children := ∅, blocked_by := ∅ }))
        t (some { T with children := insert a T.children }) x = some X1 ∧
      X1.parent = X.parent ∧ X.children ⊆ X1.children := by
    intro x X hx
    by_cases hxt : x = t
    · rw [hxt, Function.update_same]
      rw [hxt, hT] at hx
      cases hx
      exact ⟨_, rfl, rfl, Finset.subset_insert _ _⟩
    · rw [hat x hxt (hlive_ne x X hx)]
      exact ⟨X, hx, rfl, Finset.Subset.refl _⟩
  refine ⟨?_, ?_, ?_, ?_, ?_⟩
  · rw [hat 0 (Ne.symm ht0) (Ne.symm ha0)]
    exact htree.null_free
  · intro p P c hP hc
    rcases hcases p P hP with ⟨h1, h2⟩ | ⟨h1, h2⟩ | ⟨h1, h2, h3⟩
    · rw [h2] at hc
      rcases Finset.mem_insert.mp hc with h4 | h4
      · rw [h4, h1]
        exact ⟨_, hnew, rfl⟩
      · obtain ⟨C, hC, hCp⟩ := htree.child_parent t T c hT h4
        obtain ⟨C1, hC1, hp1, _⟩ := hkeep c C hC
        exact ⟨C1, hC1, by rw [hp1, hCp, h1]⟩
    · rw [h2] at hc
      exact absurd hc (Finset.not_mem_empty c)
    · obtain ⟨C, hC, hCp⟩ := htree.child_parent p P c h3 hc
      obtain ⟨C1, hC1, hp1, _⟩ := hkeep c C hC
      exact ⟨C1, hC1, by rw [hp1, hCp]⟩
  · intro c C hC hpar
    rcases hcases c C hC with ⟨h1, h2⟩ | ⟨h1, h2⟩ | ⟨h1, h2, h3⟩
    · rw [h2] at hpar ⊢
      obtain ⟨P, hP, hcP⟩ := htree.parent_child t T hT hpar
      obtain ⟨P1, hP1, _, hsub⟩ := hkeep _ P hP
      exact ⟨P1, hP1, by rw [h1]; exact hsub hcP⟩
    · rw [h2, h1]
      exact ⟨_, Function.update_same _ _ _, Finset.mem_insert_self _ _⟩
    · obtain ⟨P, hP, hcP⟩ := htree.parent_child c C h3 hpar
      obtain ⟨P1, hP1, _, hsub⟩ := hkeep _ P hP
      exact ⟨P1, hP1, hsub hcP⟩
  · intro x X hX
    rcases hcases x X hX with ⟨h1, h2⟩ | ⟨h1, h2⟩ | ⟨h1, h2, h3⟩
    · rw [h2]
      intro hmem
      rcases Finset.mem_insert.mp hmem with h4 | h4
      · by_cases hp0 : T.parent = 0
        · exact ha0 (by rw [← h4]; exact hp0)
        · obtain ⟨P, hP, _⟩ := htree.parent_child t T hT hp0
          exact hlive_ne _ P hP h4
      · exact htree.parent_not_child t T hT h4
    · rw [h2]
      exact Finset.not_mem_empty _
    · exact htree.parent_not_child x X h3
  · intro x X hX
    rcases hcases x X hX with ⟨h1, h2⟩ | ⟨h1, h2⟩ | ⟨h1, h2, h3⟩
    · rw [h2]
      exact (htree.blocked_sub t T hT).trans (Finset.subset_insert _ _)
    · rw [h2]
    · exact htree.blocked_sub x X h3

theorem inv_create (s : Runtime) (a : Nat) (r : Nat × Runtime) (hinv : Inv s)
    (hcur : s.current_thread ≠ 0) (ha0 : a ≠ 0) (hfresh : s.threads a = none)
    (h : MyThreadCreate s a = some r) : Inv r.2 := by
  obtain ⟨T, hT, hTb⟩ := hinv.cur_run hcur
  rw [create_running s a T hcur hT hfresh] at h
  cases h
  have hta : s.current_thread ≠ a := by
    intro h
    rw [h, hfresh] at hT
    exact absurd hT (by simp)
  have hrun_ne : ∀ x, Runnable s x → x ≠ a := by
    intro x hx h
    obtain ⟨X, hX, _⟩ := hx
    rw [h, hfresh] at hX
    exact absurd hX (by simp)
  have hrun : ∀ x, Runnable s x → Runnable { s with
      threads := Function.update
        (Function.update s.threads a
          (some { parent := s.current_thread, children := ∅, blocked_by := ∅ }))
        s.current_thread (some { T with children := insert a T.children })
      ready_queue := s.ready_queue ++ [a] } x := by
    intro x hx
    by_cases hxt : x = s.current_thread
    · refine ⟨{ T with children := insert a T.children }, ?_, hTb⟩
      show Function.update (Function.update s.threads a _) s.current_thread _ x = _
      rw [hxt, Function.update_same]
    · obtain ⟨X, hX, hXb⟩ := hx
      refine ⟨X, ?_, hXb⟩
      show Function.update (Function.update s.threads a _) s.current_thread _ x = some X
      rw [Function.update_noteq hxt, Function.update_noteq (hrun_ne x ⟨X, hX, hXb⟩)]
      exact hX
  have hnew : Runnable { s with
      threads := Function.update
        (Function.update s.threads a
          (some { parent := s.current_thread, children := ∅, blocked_by := ∅ }))
        s.current_thread (some { T with children := insert a T.children })
      ready_queue := s.ready_queue ++ [a] } a := by
    refine ⟨{ parent := s.current_thread, children := ∅, blocked_by := ∅ }, ?_, rfl⟩
    show Function.update (Function.update s.threads a _) s.current_thread _ a = _
    rw [Function.update_noteq (Ne.symm hta), Function.update_same]
  have ha_ready : a ∉ s.ready_queue := fun hmem =>
    hrun_ne a (hinv.parked.ready_run a hmem) rfl
  refine ⟨tree_create s.threads s.current_thread a T hinv.tree hT ha0 hfresh,
    ⟨nodup_snoc _ _ hinv.parked.ready_nodup ha_ready, ?_, hinv.parked.sem_nodup, ?_,
      hinv.parked.sem_disjoint⟩, ?_, fun _ => hrun _ (hinv.cur_run hcur),
    hinv.cur_not_waiting, fun h0 => absurd h0 hcur, hinv.started⟩
  · intro t ht
    rcases List.mem_append.mp ht with h1 | h1
    · exact hrun t (hinv.parked.ready_run t h1)
    · rw [List.mem_singleton] at h1
      rw [h1]
      exact hnew
  · intro b mb hmb t ht
    obtain ⟨h1, h2⟩ := hinv.parked.sem_run b mb hmb t ht
    refine ⟨?_, hrun t h2⟩
    intro hmem
    rcases List.mem_append.mp hmem with h3 | h3
    · exact h1 h3
    · rw [List.mem_singleton] at h3
      exact hrun_ne t h2 h3
  · intro hmem
    rcases List.mem_append.mp hmem with h3 | h3
    · exact hinv.cur_not_ready h3
    · rw [List.mem_singleton] at h3
      exact hta h3

theorem dummy_func_eq (s : Runtime) (T : _MyThread)
    (hT : s.threads s.current_thread = some T) :
    dummy_func s = some (_popNextThread { s with
      threads := Function.update s.threads s.current_thread none }) := by
  unfold dummy_func _popNextThread
  rw [hT]
  cases s.ready_queue <;> rfl

theorem inv_current_not_own_parent (s : Runtime) (T : _MyThread) (hinv : Inv s)
    (hT : s.threads s.current_thread = some T) : T.parent ≠ s.current_thread := by
  intro h
  have h0 : T.parent ≠ 0 := by
    intro h0
    rw [h0] at h
    rw [← h, hinv.tree.null_free] at hT
    exact absurd hT (by simp)
  obtain ⟨P, hP, hmem⟩ := hinv.tree.parent_child _ T hT h0
  rw [h, hT] at hP
  cases hP
  apply hinv.tree.parent_not_child _ T hT
  rw [h]
  exact hmem

/-- The state `MyThreadExit` leaves when the invariant holds: every allocated
thread loses the running thread from `children` and `blocked_by`, the children
of the running thread lose their parent, and the ready queue is unchanged or
gains the parent, which was blocked on the running thread alone. -/
theorem exit_under_inv (s : Runtime) (T : _MyThread) (hinv : Inv s)
    (hT : s.threads s.current_thread = some T) :
    ∃ s1, MyThreadExit s = some s1 ∧ s1.current_thread = s.current_thread ∧
      s1.sems = s.sems ∧ s1.init = s.init ∧
      (∀ a A, s.threads a = some A → s1.threads a = some
        { parent := if a ∈ T.children then 0 else A.parent
          children := A.children.erase s.current_thread
          blocked_by := A.blocked_by.erase s.current_thread }) ∧
      (∀ a, s.threads a = none → s1.threads a = none) ∧
      ((s1.ready_queue = s.ready_queue ∧
          ∀ P, s.threads T.parent = some P →
            ¬ (T.parent ≠ 0 ∧ P.blocked_by ≠ ∅ ∧ P.blocked_by.erase s.current_thread = ∅)) ∨
        (s1.ready_queue = s.ready_queue ++ [T.parent] ∧ T.parent ≠ 0 ∧
          ∃ P, s.threads T.parent = some P ∧ P.blocked_by ≠ ∅ ∧
            P.blocked_by.erase s.current_thread = ∅)) := by
  have hself := inv_current_not_own_parent s T hinv hT
  have hparent : T.parent ≠ 0 → ∃ parent, s.threads T.parent = some parent := by
    intro h0
    obtain ⟨P, hP, _⟩ := hinv.tree.parent_child _ T hT h0
    exact ⟨P, hP⟩
  have hkids : ∀ c ∈ T.children, (s.threads c).isSome = true := by
    intro c hc
    obtain ⟨C, hC, _⟩ := hinv.tree.child_parent _ T c hT hc
    rw [hC]
    rfl
  obtain ⟨s1, hex, hc1, hs1, hi1, hready, hthreads⟩ :=
    exit_result s T hT hself hparent hkids
  refine ⟨s1, hex, hc1, hs1, hi1, ?_, ?_, ?_⟩
  · intro a A hA
    rw [hthreads a, hA]
    simp only [Option.map_some', Option.some.injEq]
    by_cases hap : a = T.parent ∧ T.parent ≠ 0
    · simp [hap]
    · have h1 : s.current_thread ∉ A.children := by
        intro hmem
        obtain ⟨C, hC, hCp⟩ := hinv.tree.child_parent a A _ hA hmem
        rw [hT] at hC
        cases hC
        apply hap
        refine ⟨hCp.symm, ?_⟩
        rw [hCp]
        intro h0
        rw [h0, hinv.tree.null_free] at hA
        exact absurd hA (by simp)
      have h2 : s.current_thread ∉ A.blocked_by := fun hmem =>
        h1 (hinv.tree.blocked_sub a A hA hmem)
      simp [hap, Finset.erase_eq_of_not_mem h1, Finset.erase_eq_of_not_mem h2]
  · intro a ha
    rw [hthreads a, ha]
    rfl
  · rw [hready]
    cases hP : s.threads T.parent with
    | none =>
      left
      exact ⟨rfl, by intro P h; exact absurd h (by simp)⟩
    | some P =>
      by_cases hw : T.parent ≠ 0 ∧ P.blocked_by ≠ ∅ ∧ P.blocked_by.erase s.current_thread = ∅
      · right
        exact ⟨by simp only [if_pos hw], hw.1, P, rfl, hw.2.1, hw.2.2⟩
      · left
        refine ⟨by simp only [if_neg hw], ?_⟩
        intro P1 h
        cases h
        exact hw

/-- The thread heap once the exiting thread `t` has been freed by `dummy_func`:
`H` is the heap `MyThreadExit` left. -/
theorem tree_exit (threads H : Nat → Option _MyThread) (t : Nat) (T : _MyThread)
    (htree : TreeInv threads) (hT : threads t = some T)
    (hsome : ∀ a A, threads a = some A → H a = some
      { parent := if a ∈ T.children then 0 else A.parent
        children := A.children.erase t
        blocked_by := A.blocked_by.erase t })
    (hnone : ∀ a, threads a = none → H a = none) :
    TreeInv (Function.update H t none) := by
  have hfwd : ∀ a A, threads a = some A → a ≠ t → Function.update H t none a = some
      { parent := if a ∈ T.children then 0 else A.parent
        children := A.children.erase t
        blocked_by := A.blocked_by.erase t } := by
    intro a A hA hat
    rw [Function.update_noteq hat]
    exact hsome a A hA
  have hback : ∀ a A1, Function.update H t none a = some A1 →
      a ≠ t ∧ ∃ A, threads a = some A ∧ A1 =
        { parent := if a ∈ T.children then 0 else A.parent
          children := A.children.erase t
          blocked_by := A.blocked_by.erase t } := by
    intro a A1 h
    rcases update_some_cases _ _ _ _ _ h with ⟨_, hx⟩ | ⟨hat, hx⟩
    · exact absurd hx (by simp)
    · refine ⟨hat, ?_⟩
      cases hA : threads a with
      | none =>
        rw [hnone a hA] at hx
        exact absurd hx (by simp)
      | some A =>
        rw [hsome a A hA] at hx
        cases hx
        exact ⟨A, rfl, rfl⟩
  refine ⟨?_, ?_, ?_, ?_, ?_⟩
  · by_cases h0 : (0 : Nat) = t
    · rw [h0, Function.update_same]
    · rw [Function.update_noteq h0]
      exact hnone 0 htree.null_free
  · intro p P1 c hP1 hc
    obtain ⟨hpt, P, hP, hP1eq⟩ := hback p P1 hP1
    rw [hP1eq] at hc
    obtain ⟨hct, hcP⟩ := Finset.mem_erase.mp hc
    obtain ⟨C, hC, hCp⟩ := htree.child_parent p P c hP hcP
    refine ⟨_, hfwd c C hC hct, ?_⟩
    have hnot : c ∉ T.children := by
      intro hmem
      obtain ⟨C2, hC2, hC2p⟩ := htree.child_parent t T c hT hmem
      rw [hC] at hC2
      cases hC2
      exact hpt (hCp.symm.trans hC2p)
    simp [hnot, hCp]
  · intro c C1 hC1 hpar
    obtain ⟨hct, C, hC, hC1eq⟩ := hback c C1 hC1
    rw [hC1eq] at hpar ⊢
    by_cases hmem : c ∈ T.children
    · simp [hmem] at hpar
    · have hpe : (if c ∈ T.children then 0 else C.parent) = C.parent := if_neg hmem
      dsimp only at hpar ⊢
      rw [hpe] at hpar ⊢
      obtain ⟨P, hP, hcP⟩ := htree.parent_child c C hC hpar
      have hpt : C.parent ≠ t := by
        intro h
        rw [h, hT] at hP
        cases hP
        exact hmem hcP
      exact ⟨_, hfwd _ P hP hpt, Finset.mem_erase.mpr ⟨hct, hcP⟩⟩
  · intro x X1 hX1
    obtain ⟨_, X, hX, hX1eq⟩ := hback x X1 hX1
    rw [hX1eq]
    intro hmem
    obtain ⟨_, hmem1⟩ := Finset.mem_erase.mp hmem
    by_cases hx : x ∈ T.children
    · simp only [hx, if_true] at hmem1
      obtain ⟨C, hC, _⟩ := htree.child_parent x X 0 hX hmem1
      rw [htree.null_free] at hC
      exact absurd hC (by simp)
    · simp only [hx, if_false] at hmem1
      exact htree.parent_not_child x X hX hmem1
  · intro x X1 hX1
    obtain ⟨_, X, hX, hX1eq⟩ := hback x X1 hX1
    rw [hX1eq]
    exact Finset.erase_subset_erase _ (htree.blocked_sub x X hX)

theorem inv_exit (s s2 : Runtime) (hinv : Inv s) (hcur : s.current_thread ≠ 0)
    (h : (MyThreadExit s).bind dummy_func = some s2) : Inv s2 := by
  obtain ⟨T, hT, hTb⟩ := hinv.cur_run hcur
  obtain ⟨s1, hex, hc1, hs1, hi1, hsome, hnone, hready⟩ := exit_under_inv s T hinv hT
  rw [hex, Option.some_bind] at h
  have hT1 := hsome _ T hT
  rw [← hc1] at hT1
  rw [dummy_func_eq s1 _ hT1] at h
  cases h
  have hrun : ∀ x, Runnable s x → x ≠ s.current_thread → Runnable
      { s1 with threads := Function.update s1.threads s1.current_thread none } x := by
    intro x hx hne
    obtain ⟨X, hX, hXb⟩ := hx
    refine ⟨{ parent := if x ∈ T.children then 0 else X.parent
              children := X.children.erase s.current_thread
              blocked_by := X.blocked_by.erase s.current_thread }, ?_, ?_⟩
    · show Function.update s1.threads s1.current_thread none x = _
      rw [hc1, Function.update_noteq hne]
      exact hsome x X hX
    · simp [hXb]
  have hsems : ∀ a ms, s1.sems a = some ms → s.sems a = some ms := by
    intro a ms h
    rw [hs1] at h
    exact h
  refine inv_popNextThread
    { s1 with threads := Function.update s1.threads s1.current_thread none }
    ?_ ?_ (by rw [← hinv.started]; exact hi1)
  · have := tree_exit s.threads s1.threads s.current_thread T hinv.tree hT hsome hnone
    rw [← hc1] at this
    exact this
  · rcases hready with ⟨hr, _⟩ | ⟨hr, hp0, P, hP, hPb, hPe⟩
    · refine ⟨by rw [show _ = s1.ready_queue from rfl, hr]; exact hinv.parked.ready_nodup,
        ?_, ?_, ?_, ?_⟩
      · intro t ht
        have ht1 : t ∈ s.ready_queue := by rw [← hr]; exact ht
        refine hrun t (hinv.parked.ready_run t ht1) ?_
        intro h
        rw [h] at ht1
        exact hinv.cur_not_ready ht1
      · intro a ms hms
        exact hinv.parked.sem_nodup a ms (hsems a ms hms)
      · intro a ms hms t ht
        obtain ⟨h1, h2⟩ := hinv.parked.sem_run a ms (hsems a ms hms) t ht
        refine ⟨by rw [show _ = s1.ready_queue from rfl, hr]; exact h1, hrun t h2 ?_⟩
        intro h
        rw [h] at ht
        exact hinv.cur_not_waiting a ms (hsems a ms hms) ht
      · intro a b ma mb hab hma hmb
        exact hinv.parked.sem_disjoint a b ma mb hab (hsems a ma hma) (hsems b mb hmb)
    · have hpnot : ¬ Runnable s T.parent := by
        intro hx
        obtain ⟨X, hX, hXb⟩ := hx
        rw [hP] at hX
        cases hX
        exact hPb hXb
      have hpt : T.parent ≠ s.current_thread := inv_current_not_own_parent s T hinv hT
      have hprun : Runnable
          { s1 with threads := Function.update s1.threads s1.current_thread none }
          T.parent := by
        refine ⟨{ parent := if T.parent ∈ T.children then 0 else P.parent
                  children := P.children.erase s.current_thread
                  blocked_by := P.blocked_by.erase s.current_thread }, ?_, ?_⟩
        · show Function.update s1.threads s1.current_thread none T.parent = _
          rw [hc1, Function.update_noteq hpt]
          exact hsome _ P hP
        · exact hPe
      refine ⟨?_, ?_, ?_, ?_, ?_⟩
      · rw [show _ = s1.ready_queue from rfl, hr]
        exact nodup_snoc _ _ hinv.parked.ready_nodup
          (fun hmem => hpnot (hinv.parked.ready_run _ hmem))
      · intro t ht
        have ht1 : t ∈ s.ready_queue ++ [T.parent] := by rw [← hr]; exact ht
        rcases List.mem_append.mp ht1 with h1 | h1
        · refine hrun t (hinv.parked.ready_run t h1) ?_
          intro h
          rw [h] at h1
          exact hinv.cur_not_ready h1
        · rw [List.mem_singleton] at h1
          rw [h1]
          exact hprun
      · intro a ms hms
        exact hinv.parked.sem_nodup a ms (hsems a ms hms)
      · intro a ms hms t ht
        obtain ⟨h1, h2⟩ := hinv.parked.sem_run a ms (hsems a ms hms) t ht
        refine ⟨?_, hrun t h2 ?_⟩
        · rw [show _ = s1.ready_queue from rfl, hr]
          intro hmem
          rcases List.mem_append.mp hmem with h3 | h3
          · exact h1 h3
          · rw [List.mem_singleton] at h3
            rw [h3] at h2
            exact hpnot h2
        · intro h
          rw [h] at ht
          exact hinv.cur_not_waiting a ms (hsems a ms hms) ht
      · intro a b ma mb hab hma hmb
        exact hinv.parked.sem_disjoint a b ma mb hab (hsems a ma hma) (hsems b mb hmb)

theorem inv_libCall (s s1 : Runtime) (c : Call) (hinv : Inv s)
    (hcur : s.current_thread ≠ 0) (h : libCall s c = some s1) : Inv s1 := by
  cases c with
  | create a =>
    simp only [libCall] at h
    split at h
    · rename_i hok
      cases hr : MyThreadCreate s a with
      | none => rw [hr] at h; exact absurd h (by simp)
      | some r =>
        rw [hr] at h
        simp only [Option.map_some', Option.some.injEq] at h
        rw [← h]
        exact inv_create s a r hinv hcur hok.1 (Option.isNone_iff_eq_none.mp hok.2) hr
    · exact absurd h (by simp)
  | yield =>
    simp only [libCall, Option.some.injEq] at h
    rw [← h]
    exact inv_yield s hinv hcur
  | join t =>
    simp only [libCall] at h
    cases hr : MyThreadJoin s t with
    | none => rw [hr] at h; exact absurd h (by simp)
    | some r =>
      rw [hr] at h
      simp only [Option.map_some', Option.some.injEq] at h
      rw [← h]
      exact inv_join s t r hinv hr
  | joinAll => exact inv_joinAll s s1 hinv h
  | exit => exact inv_exit s s1 hinv hcur h
  | semInit a n =>
    simp only [libCall] at h
    split at h
    · simp only [Option.some.injEq] at h
      rw [← h]
      exact inv_semInit s a n hinv
    · exact absurd h (by simp)
  | semWait a => exact inv_wait s s1 a hinv hcur h
  | semSignal a => exact inv_signal s s1 a hinv hcur h
  | semDestroy a =>
    simp only [libCall] at h
    cases hr : MySemaphoreDestroy s a with
    | none => rw [hr] at h; exact absurd h (by simp)
    | some r =>
      rw [hr] at h
      simp only [Option.map_some', Option.some.injEq] at h
      rw [← h]
      exact inv_semDestroy s a r hinv hr

theorem threadCall_some (s s1 : Runtime) (c : Call) (h : threadCall s c = some s1) :
    s.current_thread ≠ 0 ∧ libCall s c = some s1 := by
  unfold threadCall at h
  by_cases hc : s.current_thread ≠ 0
  · rw [if_pos hc] at h
    exact ⟨hc, h⟩
  · rw [if_neg hc] at h
    exact absurd h (by simp)

theorem inv_threadCall (s s1 : Runtime) (c : Call) (hinv : Inv s)
    (h : threadCall s c = some s1) : Inv s1 := by
  obtain ⟨hc, hl⟩ := threadCall_some s s1 c h
  exact inv_libCall s s1 c hinv hc hl

theorem threadCalls_cons (s s2 : Runtime) (c : Call) (cs : List Call)
    (h : threadCalls s (c :: cs) = some s2) :
    ∃ s1, threadCall s c = some s1 ∧ threadCalls s1 cs = some s2 := by
  simp only [threadCalls] at h
  cases hc : threadCall s c with
  | none => rw [hc] at h; exact absurd h (by simp)
  | some s1 =>
    rw [hc] at h
    exact ⟨s1, rfl, h⟩

theorem inv_threadCalls (cs : List Call) :
    ∀ (s s2 : Runtime), Inv s → threadCalls s cs = some s2 → Inv s2 := by
  induction cs with
  | nil =>
    intro s s2 hinv h
    simp only [threadCalls, Option.some.injEq] at h
    rw [← h]
    exact hinv
  | cons c cs ih =>
    intro s s2 hinv h
    obtain ⟨s1, h1, h2⟩ := threadCalls_cons s s2 c cs h
    exact ih s1 s2 (inv_threadCall s s1 c hinv h1) h2

/-- The first call of `MyThreadInit`, made by the host. -/
theorem init_first (s0 : Runtime) (a : Nat) (hi : s0.init = false)
    (hc : s0.current_thread = 0) (hr : s0.ready_queue = []) :
    MyThreadInit s0 a = some { s0 with
      init := true
      threads := Function.update s0.threads a
        (some { parent := 0, children := ∅, blocked_by := ∅ })
      current_thread := a
      ready_queue := [] } := by
  simp [MyThreadInit, MyThreadCreate, _popNextThread, hi, hc, hr]

theorem inv_init (s0 s1 : Runtime) (a : Nat) (h0 : Unstarted s0) (ha : a ≠ 0)
    (h : MyThreadInit s0 a = some s1) : Inv s1 := by
  rw [init_first s0 a h0.init h0.current h0.ready] at h
  cases h
  have hcases : ∀ x X, Function.update s0.threads a
      (some { parent := 0, children := ∅, blocked_by := ∅ }) x = some X →
      x = a ∧ X = { parent := 0, children := ∅, blocked_by := ∅ } := by
    intro x X hX
    rcases update_some_cases _ _ _ _ _ hX with ⟨h1, h2⟩ | ⟨_, h2⟩
    · cases h2
      exact ⟨h1, rfl⟩
    · rw [h0.threads x] at h2
      exact absurd h2 (by simp)
  refine ⟨⟨?_, ?_, ?_, ?_, ?_⟩, ⟨List.nodup_nil, ?_, ?_, ?_, ?_⟩, List.not_mem_nil _, ?_, ?_,
    fun _ => rfl, rfl⟩
  · show Function.update s0.threads a _ 0 = none
    rw [Function.update_noteq (Ne.symm ha)]
    exact h0.threads 0
  · intro p P c hP hc
    obtain ⟨_, h2⟩ := hcases p P hP
    rw [h2] at hc
    exact absurd hc (Finset.not_mem_empty c)
  · intro c C hC hpar
    obtain ⟨_, h2⟩ := hcases c C hC
    rw [h2] at hpar
    exact absurd rfl hpar
  · intro x X hX
    obtain ⟨_, h2⟩ := hcases x X hX
    rw [h2]
    exact Finset.not_mem_empty _
  · intro x X hX
    obtain ⟨_, h2⟩ := hcases x X hX
    rw [h2]
  · intro t ht
    exact absurd ht (List.not_mem_nil t)
  · intro b mb hmb
    rw [h0.waiters b mb hmb]
    exact List.nodup_nil
  · intro b mb hmb t ht
    rw [h0.waiters b mb hmb] at ht
    exact absurd ht (List.not_mem_nil t)
  · intro b c mb mc _ hmb _ t ht
    rw [h0.waiters b mb hmb] at ht
    exact absurd ht (List.not_mem_nil t)
  · intro _
    exact ⟨{ parent := 0, children := ∅, blocked_by := ∅ }, Function.update_same _ _ _, rfl⟩
  · intro b mb hmb
    rw [h0.waiters b mb hmb]
    exact List.not_mem_nil _

/-- Every state reached from `MyThreadInit` by calls of the running threads
satisfies the invariant. -/
theorem inv_runFrom (s0 s : Runtime) (main : Nat) (cs : List Call) (h0 : Unstarted s0)
    (hmain : main ≠ 0) (h : runFrom s0 main cs = some s) : Inv s := by
  unfold runFrom at h
  cases h1 : MyThreadInit s0 main with
  | none => rw [h1] at h; exact absurd h (by simp)
  | some s1 =>
    rw [h1, Option.some_bind] at h
    exact inv_threadCalls cs s1 s (inv_init s0 s1 main h0 hmain h1) h

theorem option_eq_get {α : Type} (o : Option α) (h : o.isSome = true) : o = some (o.get h) :=
  (Option.some_get h).symm

theorem unstarted_empty : Unstarted emptyRuntime :=
  ⟨rfl, rfl, rfl, fun _ => rfl, fun _ _ h => absurd h (by simp [emptyRuntime])⟩

/-! ## Invariants of the reachable states -/

/-- C19: in every state reached from `MyThreadInit` by create, yield, join,
join-all, exit followed by the reaper, and semaphore calls of the running
threads, every thread in the ready queue is allocated with an empty
`blocked_by` and is in the block queue of no semaphore. -/
theorem C19_ready_implies_unblocked (s0 s : Runtime) (main : Nat) (cs : List Call)
    (h0 : Unstarted s0) (hmain : main ≠ 0) (h : runFrom s0 main cs = some s) :
    ∀ t ∈ s.ready_queue,
      (∃ th, s.threads t = some th ∧ th.blocked_by = ∅) ∧
      ∀ sem ms, s.sems sem = some ms → t ∉ ms.block_queue := by
  have hinv := inv_runFrom s0 s main cs h0 hmain h
  intro t ht
  refine ⟨hinv.parked.ready_run t ht, ?_⟩
  intro sem ms hms hmem
  exact (hinv.parked.sem_run sem ms hms t hmem).1 ht

/-- Witness of C19: the first thread creates thread 2, which it then joins;
thread 2 creates thread 3 and yields. -/
theorem C19_ready_implies_unblocked_witness :
    ∃ s, runFrom emptyRuntime 1 [Call.create 2, Call.join 2, Call.create 3, Call.yield] = some s ∧
      s.ready_queue = [2] ∧
      ∀ t ∈ s.ready_queue,
        (∃ th, s.threads t = some th ∧ th.blocked_by = ∅) ∧
        ∀ sem ms, s.sems sem = some ms → t ∉ ms.block_queue :=
  ⟨_, rfl, rfl,
    C19_ready_implies_unblocked emptyRuntime _ 1
      [Call.create 2, Call.join 2, Call.create 3, Call.yield] unstarted_empty (by decide) rfl⟩

/-- C20: in every state reached from `MyThreadInit` by calls of the running
threads, where a thread calls `MyThreadExit` only as its last act before it
returns into the reaper, no thread occurs twice in the ready queue, the current
thread does not occur in it, and no thread of the ready queue occurs in the
block queue of a semaphore. -/
theorem C20_ready_queue_unique (s0 s : Runtime) (main : Nat) (cs : List Call)
    (h0 : Unstarted s0) (hmain : main ≠ 0) (h : runFrom s0 main cs = some s) :
    s.ready_queue.Nodup ∧ s.current_thread ∉ s.ready_queue ∧
    ∀ sem ms, s.sems sem = some ms → ∀ t ∈ s.ready_queue, t ∉ ms.block_queue := by
  have hinv := inv_runFrom s0 s main cs h0 hmain h
  refine ⟨hinv.parked.ready_nodup, hinv.cur_not_ready, ?_⟩
  intro sem ms hms t ht hmem
  exact (hinv.parked.sem_run sem ms hms t hmem).1 ht

/-- Witness of C20: the first thread creates threads 2 and 3 and a semaphore of
value 0, waits on it, and thread 2 signals it. -/
theorem C20_ready_queue_unique_witness :
    ∃ s, runFrom emptyRuntime 1
        [Call.create 2, Call.create 3, Call.semInit 7 0, Call.semWait 7, Call.semSignal 7]
        = some s ∧
      s.current_thread = 2 ∧ s.ready_queue = [3, 1] ∧
      s.ready_queue.Nodup ∧ s.current_thread ∉ s.ready_queue ∧
      ∀ sem ms, s.sems sem = some ms → ∀ t ∈ s.ready_queue, t ∉ ms.block_queue :=
  ⟨_, rfl, rfl, rfl,
    C20_ready_queue_unique emptyRuntime _ 1
      [Call.create 2, Call.create 3, Call.semInit 7 0, Call.semWait 7, Call.semSignal 7]
      unstarted_empty (by decide) rfl⟩

/-! ## The `init` flag -/

theorem popNextThread_init (s : Runtime) : (_popNextThread s).init = s.init := by
  unfold _popNextThread
  cases s.ready_queue <;> rfl

theorem create_init (s : Runtime) (a : Nat) (r : Nat × Runtime)
    (h : MyThreadCreate s a = some r) : r.2.init = s.init := by
  unfold MyThreadCreate at h
  simp only at h
  split at h
  · split at h
    · exact absurd h (by simp)
    · cases h
      rfl
  · cases h
    rfl

theorem exitParent_init (s s1 : Runtime) (cur : _MyThread)
    (h : exitParent s cur = some s1) : s1.init = s.init := by
  unfold exitParent at h
  split at h
  · split at h
    · exact absurd h (by simp)
    · split at h
      · split at h <;> (cases h; rfl)
      · cases h
        rfl
  · cases h
    rfl

theorem exit_init (s s1 : Runtime) (h : MyThreadExit s = some s1) : s1.init = s.init := by
  unfold MyThreadExit at h
  split at h
  · exact absurd h (by simp)
  · cases hp : exitParent s _ with
    | none => rw [hp] at h; exact absurd h (by simp)
    | some s2 =>
      rw [hp, Option.some_bind] at h
      split at h
      · exact absurd h (by simp)
      · cases hd : detachChildren s2.threads _ with
        | none => rw [hd] at h; exact absurd h (by simp)
        | some d =>
          rw [hd] at h
          cases h
          exact exitParent_init s s2 _ hp

theorem dummy_func_init (s s1 : Runtime) (h : dummy_func s = some s1) : s1.init = s.init := by
  unfold dummy_func at h
  split at h
  · exact absurd h (by simp)
  · simp only at h
    split at h <;> (cases h; rfl)

theorem signal_init (s s1 : Runtime) (a : Nat) (h : MySemaphoreSignal s a = some s1) :
    s1.init = s.init := by
  unfold MySemaphoreSignal at h
  split at h
  · split at h
    · exact absurd h (by simp)
    · split at h <;> (cases h; rfl)
  · cases h
    rfl

theorem wait_init (s s1 : Runtime) (a : Nat) (h : MySemaphoreWait s a = some s1) :
    s1.init = s.init := by
  unfold MySemaphoreWait at h
  split at h
  · split at h
    · exact absurd h (by simp)
    · split at h
      · cases h
        rfl
      · cases h
        rw [popNextThread_init]
  · cases h
    rfl

/-- No library call of a thread changes the `init` flag. -/
theorem libCall_init (s s1 : Runtime) (c : Call) (h : libCall s c = some s1) :
    s1.init = s.init := by
  cases c with
  | create a =>
    simp only [libCall] at h
    split at h
    · cases hr : MyThreadCreate s a with
      | none => rw [hr] at h; exact absurd h (by simp)
      | some r =>
        rw [hr] at h
        simp only [Option.map_some', Option.some.injEq] at h
        rw [← h]
        exact create_init s a r hr
    · exact absurd h (by simp)
  | yield =>
    simp only [libCall, Option.some.injEq] at h
    rw [← h]
    unfold MyThreadYield
    split
    · rw [popNextThread_init]
    · rfl
  | join t =>
    simp only [libCall, MyThreadJoin] at h
    split at h
    · exact absurd h (by simp)
    · split at h
      · simp only [Option.map_some', Option.some.injEq] at h
        rw [← h, popNextThread_init]
      · simp only [Option.map_some', Option.some.injEq] at h
        rw [← h]
  | joinAll =>
    simp only [libCall, MyThreadJoinAll] at h
    split at h
    · exact absurd h (by simp)
    · split at h
      · cases h
        rw [popNextThread_init]
      · cases h
        rfl
  | exit =>
    simp only [libCall] at h
    cases he : MyThreadExit s with
    | none => rw [he] at h; exact absurd h (by simp)
    | some s2 =>
      rw [he, Option.some_bind] at h
      rw [dummy_func_init s2 s1 h, exit_init s s2 he]
  | semInit a n =>
    simp only [libCall, MySemaphoreInit] at h
    split at h
    · split at h <;> (cases h; rfl)
    · exact absurd h (by simp)
  | semWait a => exact wait_init s s1 a h
  | semSignal a => exact signal_init s s1 a h
  | semDestroy a =>
    simp only [libCall, MySemaphoreDestroy] at h
    split at h
    · split at h
      · exact absurd h (by simp)
      · split at h <;>
          (simp only [Option.map_some', Option.some.injEq] at h; rw [← h])
    · simp only [Option.map_some', Option.some.injEq] at h
      rw [← h]

/-- C17: the first call of `MyThreadInit`, made by the host before any thread
exists, sets the `init` flag, allocates exactly one thread, with no parent, and
makes it the current thread with an empty ready queue.  No library call clears
the flag, and with the flag set `MyThreadInit` leaves the whole state unchanged
whatever address the allocator would return. -/
theorem C17_init_idempotent (s : Runtime) (a : Nat) :
    (s.init = false → s.current_thread = 0 → s.ready_queue = [] →
      ∃ s1, MyThreadInit s a = some s1 ∧ s1.init = true ∧
        s1.threads a = some { parent := 0, children := ∅, blocked_by := ∅ } ∧
        (∀ b, b ≠ a → s1.threads b = s.threads b) ∧
        s1.current_thread = a ∧ s1.ready_queue = [] ∧ s1.sems = s.sems) ∧
    (s.init = true → MyThreadInit s a = some s) ∧
    (∀ c s1, libCall s c = some s1 → s1.init = s.init) := by
  refine ⟨?_, ?_, fun c s1 h => libCall_init s s1 c h⟩
  · intro hi hc hr
    rw [init_first s a hi hc hr]
    refine ⟨_, rfl, rfl, by simp, ?_, rfl, rfl, rfl⟩
    intro b hb
    simp [Function.update_noteq hb]
  · intro hi
    simp [MyThreadInit, hi]

/-- Witness of C17: the host calls `MyThreadInit` twice, the first thread being
allocated at address 1. -/
theorem C17_init_idempotent_witness :
    ∃ s1, MyThreadInit emptyRuntime 1 = some s1 ∧ s1.init = true ∧
      s1.current_thread = 1 ∧ s1.ready_queue = [] ∧
      MyThreadInit s1 2 = some s1 := by
  obtain ⟨s1, h1, h2, _, _, h3, h4, _⟩ := (C17_init_idempotent emptyRuntime 1).1 rfl rfl rfl
  exact ⟨s1, h1, h2, h3, h4, (C17_init_idempotent s1 2).2.1 h2⟩

/-- C18: both dispatchers hand control to the host exactly when the ready
queue is empty, and `current_thread` is then null; with a non-empty ready queue
they remove its head, make that thread current and leave the rest of the queue
in its order.  In every state reached from `MyThreadInit` the ready queue holds
no null pointer, and no thread is current only if the ready queue is empty. -/
theorem C18_return_to_host (s0 s : Runtime) (main : Nat) (cs : List Call)
    (h0 : Unstarted s0) (hmain : main ≠ 0) (h : runFrom s0 main cs = some s) :
    (∀ d : Runtime,
      (_popNextThread_control d = Control.host ↔ d.ready_queue = []) ∧
      (_popNextThread_control d = Control.host → (_popNextThread d).current_thread = 0) ∧
      (∀ head rest, d.ready_queue = head :: rest →
        _popNextThread_control d = Control.thread head ∧
        (_popNextThread d).current_thread = head ∧ (_popNextThread d).ready_queue = rest)) ∧
    (∀ (d : Runtime) (T : _MyThread), d.threads d.current_thread = some T →
      ∃ d1, dummy_func d = some d1 ∧
        (dummy_func_control d = Control.host ↔ d.ready_queue = []) ∧
        (dummy_func_control d = Control.host → d1.current_thread = 0) ∧
        (∀ head rest, d.ready_queue = head :: rest →
          dummy_func_control d = Control.thread head ∧
          d1.current_thread = head ∧ d1.ready_queue = rest)) ∧
    (0 ∉ s.ready_queue) ∧ (s.current_thread = 0 → s.ready_queue = []) := by
  have hinv := inv_runFrom s0 s main cs h0 hmain h
  refine ⟨?_, ?_, ?_, hinv.drained⟩
  · intro d
    unfold _popNextThread_control _popNextThread
    cases d.ready_queue with
    | nil => simp
    | cons head rest => simp
  · intro d T hT
    rw [dummy_func_eq d T hT]
    refine ⟨_, rfl, ?_⟩
    unfold dummy_func_control _popNextThread
    cases d.ready_queue with
    | nil => simp
    | cons head rest => simp
  · intro hmem
    exact runnable_ne_zero s 0 hinv.tree.null_free (hinv.parked.ready_run 0 hmem) rfl

/-- Witness of C18: the first thread creates thread 2 and waits on a semaphore
of value 0; thread 2 then runs, and when it exits the ready queue is empty and
control returns to the host. -/
theorem C18_return_to_host_witness :
    ∃ s, runFrom emptyRuntime 1
        [Call.create 2, Call.semInit 7 0, Call.semWait 7, Call.exit] = some s ∧
      s.current_thread = 0 ∧ s.ready_queue = [] ∧
      _popNextThread_control s = Control.host :=
  ⟨_, rfl, rfl,
    (C18_return_to_host emptyRuntime _ 1
      [Call.create 2, Call.semInit 7 0, Call.semWait 7, Call.exit]
      unstarted_empty (by decide) rfl).2.2.2 rfl,
    ((C18_return_to_host emptyRuntime _ 1
      [Call.create 2, Call.semInit 7 0, Call.semWait 7, Call.exit]
      unstarted_empty (by decide) rfl).1 _).1.mpr rfl⟩

/-! ## The thread heap across one call -/

theorem popNextThread_threads (s : Runtime) : (_popNextThread s).threads = s.threads := by
  unfold _popNextThread
  cases s.ready_queue <;> rfl

theorem yield_threads (s : Runtime) : (MyThreadYield s).threads = s.threads := by
  unfold MyThreadYield
  split
  · rw [popNextThread_threads]
  · rfl

theorem signal_threads (s s1 : Runtime) (a : Nat) (h : MySemaphoreSignal s a = some s1) :
    s1.threads = s.threads := by
  unfold MySemaphoreSignal at h
  split at h
  · split at h
    · exact absurd h (by simp)
    · split at h <;> (cases h; rfl)
  · cases h
    rfl

theorem wait_threads (s s1 : Runtime) (a : Nat) (h : MySemaphoreWait s a = some s1) :
    s1.threads = s.threads := by
  unfold MySemaphoreWait at h
  split at h
  · split at h
    · exact absurd h (by simp)
    · split at h
      · cases h
        rfl
      · cases h
        rw [popNextThread_threads]
  · cases h
    rfl

theorem destroy_threads (s : Runtime) (a : Nat) (r : Int × Runtime)
    (h : MySemaphoreDestroy s a = some r) : r.2.threads = s.threads := by
  unfold MySemaphoreDestroy at h
  split at h
  · split at h
    · exact absurd h (by simp)
    · split at h <;> (cases h; rfl)
  · cases h
    rfl

theorem semInit_threads (s : Runtime) (a : Nat) (n : Int) :
    (MySemaphoreInit s a n).2.threads = s.threads := by
  unfold MySemaphoreInit
  split <;> rfl

/-- The thread heap after one call of the running thread, whose record is `T`:
it is unchanged, or the running thread has a new `blocked_by`, or a thread was
created, or the running thread exited and was freed. -/
theorem step_heap (s s1 : Runtime) (c : Call) (hinv : Inv s)
    (h : threadCall s c = some s1) :
    ∃ T, s.threads s.current_thread = some T ∧ T.blocked_by = ∅ ∧
      ((c ≠ Call.exit ∧ s1.threads = s.threads) ∨
       (c ≠ Call.exit ∧ ∃ B, s1.threads = Function.update s.threads s.current_thread
          (some { T with blocked_by := B })) ∨
       (∃ a, c = Call.create a ∧ s.threads a = none ∧
          s1.threads = Function.update
            (Function.update s.threads a
              (some { parent := s.current_thread, children := ∅, blocked_by := ∅ }))
            s.current_thread (some { T with children := insert a T.children })) ∨
       (c = Call.exit ∧ ∀ x, s1.threads x =
          if x = s.current_thread then none
          else (s.threads x).map fun X =>
            { parent := if x ∈ T.children then 0 else X.parent
              children := X.children.erase s.current_thread
              blocked_by := X.blocked_by.erase s.current_thread })) := by
  obtain ⟨hcur, hl⟩ := threadCall_some s s1 c h
  obtain ⟨T, hT, hTb⟩ := hinv.cur_run hcur
  refine ⟨T, hT, hTb, ?_⟩
  cases c with
  | create a =>
    right; right; left
    simp only [libCall] at hl
    split at hl
    · rename_i hok
      have hfresh := Option.isNone_iff_eq_none.mp hok.2
      rw [create_running s a T hcur hT hfresh] at hl
      simp only [Option.map_some', Option.some.injEq] at hl
      rw [← hl]
      exact ⟨a, rfl, hfresh, rfl⟩
    · exact absurd hl (by simp)
  | yield =>
    left
    simp only [libCall, Option.some.injEq] at hl
    rw [← hl]
    exact ⟨by simp, yield_threads s⟩
  | join t =>
    simp only [libCall] at hl
    by_cases hc : t ∈ T.children
    · right; left
      rw [join_child s t T hT hc] at hl
      simp only [Option.map_some', Option.some.injEq] at hl
      rw [← hl, popNextThread_threads]
      exact ⟨by simp, _, rfl⟩
    · left
      rw [join_non_child s t T hT hc] at hl
      simp only [Option.map_some', Option.some.injEq] at hl
      rw [← hl]
      exact ⟨by simp, rfl⟩
  | joinAll =>
    simp only [libCall] at hl
    by_cases hc : T.children = ∅
    · left
      rw [joinAll_no_children s T hT hc] at hl
      cases hl
      exact ⟨by simp, rfl⟩
    · right; left
      rw [joinAll_children s T hT hc] at hl
      cases hl
      rw [popNextThread_threads]
      exact ⟨by simp, _, rfl⟩
  | exit =>
    right; right; right
    refine ⟨rfl, ?_⟩
    simp only [libCall] at hl
    obtain ⟨s2, hex, hc2, _, _, hsome, hnone, _⟩ := exit_under_inv s T hinv hT
    rw [hex, Option.some_bind] at hl
    have hT2 := hsome _ T hT
    rw [← hc2] at hT2
    rw [dummy_func_eq s2 _ hT2] at hl
    cases hl
    intro x
    rw [popNextThread_threads]
    show Function.update s2.threads s2.current_thread none x = _
    rw [hc2]
    by_cases hx : x = s.current_thread
    · rw [hx, Function.update_same, if_pos rfl]
    · rw [Function.update_noteq hx, if_neg hx]
      cases hX : s.threads x with
      | none => rw [hnone x hX]; rfl
      | some X => rw [hsome x X hX]; rfl
  | semInit a n =>
    left
    simp only [libCall] at hl
    split at hl
    · simp only [Option.some.injEq] at hl
      rw [← hl]
      exact ⟨by simp, semInit_threads s a n⟩
    · exact absurd hl (by simp)
  | semWait a => exact Or.inl ⟨by simp, wait_threads s s1 a hl⟩
  | semSignal a => exact Or.inl ⟨by simp, signal_threads s s1 a hl⟩
  | semDestroy a =>
    left
    simp only [libCall] at hl
    cases hr : MySemaphoreDestroy s a with
    | none => rw [hr] at hl; exact absurd hl (by simp)
    | some r =>
      rw [hr] at hl
      simp only [Option.map_some', Option.some.injEq] at hl
      rw [← hl]
      exact ⟨by simp, destroy_threads s a r hr⟩

/-- An address at which no thread is allocated stays free until a thread is
created at it. -/
theorem step_free (s s1 : Runtime) (c : Call) (q : Nat) (hinv : Inv s)
    (h : threadCall s c = some s1) (hq : s.threads q = none) (hc : c ≠ Call.create q) :
    s1.threads q = none := by
  obtain ⟨T, hT, _, hcase⟩ := step_heap s s1 c hinv h
  have hqc : q ≠ s.current_thread := by
    intro hx
    rw [hx, hT] at hq
    exact absurd hq (by simp)
  rcases hcase with ⟨_, h1⟩ | ⟨_, B, h1⟩ | ⟨a, h0, _, h1⟩ | ⟨_, h1⟩
  · rw [h1]; exact hq
  · rw [h1, Function.update_noteq hqc]; exact hq
  · have hqa : q ≠ a := by
      intro hx
      rw [h0, hx] at hc
      exact hc rfl
    rw [h1, Function.update_noteq hqc, Function.update_noteq hqa]
    exact hq
  · rw [h1 q, if_neg hqc, hq]
    rfl

/-- A thread other than the running one across a call: it stays allocated, its
parent is kept or cleared, and it loses the running thread from `children` and
`blocked_by` exactly when the call is `exit`. -/
theorem step_other (s s1 : Runtime) (c : Call) (q : Nat) (Q : _MyThread) (hinv : Inv s)
    (h : threadCall s c = some s1) (hq : s.threads q = some Q)
    (hne : q ≠ s.current_thread) :
    ∃ Q1, s1.threads q = some Q1 ∧ (Q1.parent = Q.parent ∨ Q1.parent = 0) ∧
      Q1.children = (if c = Call.exit then Q.children.erase s.current_thread else Q.children) ∧
      Q1.blocked_by =
        (if c = Call.exit then Q.blocked_by.erase s.current_thread else Q.blocked_by) := by
  obtain ⟨T, hT, _, hcase⟩ := step_heap s s1 c hinv h
  rcases hcase with ⟨hc, h1⟩ | ⟨hc, B, h1⟩ | ⟨a, h0, hfresh, h1⟩ | ⟨hc, h1⟩
  · exact ⟨Q, by rw [h1]; exact hq, Or.inl rfl, by rw [if_neg hc], by rw [if_neg hc]⟩
  · exact ⟨Q, by rw [h1, Function.update_noteq hne]; exact hq, Or.inl rfl,
      by rw [if_neg hc], by rw [if_neg hc]⟩
  · have hqa : q ≠ a := by
      intro hx
      rw [hx, hfresh] at hq
      exact absurd hq (by simp)
    have hc : c ≠ Call.exit := by rw [h0]; simp
    exact ⟨Q, by rw [h1, Function.update_noteq hne, Function.update_noteq hqa]; exact hq,
      Or.inl rfl, by rw [if_neg hc], by rw [if_neg hc]⟩
  · refine ⟨_, by rw [h1 q, if_neg hne, hq]; rfl, ?_, by rw [if_pos hc], by rw [if_pos hc]⟩
    by_cases hx : q ∈ T.children
    · right; simp [hx]
    · left; simp [hx]

/-- The running thread across a call other than `exit`: it stays allocated and
keeps its parent. -/
theorem step_current (s s1 : Runtime) (c : Call) (Q : _MyThread) (hinv : Inv s)
    (h : threadCall s c = some s1) (hq : s.threads s.current_thread = some Q)
    (hc : c ≠ Call.exit) :
    ∃ Q1, s1.threads s.current_thread = some Q1 ∧ Q1.parent = Q.parent := by
  obtain ⟨T, hT, _, hcase⟩ := step_heap s s1 c hinv h
  rw [hq] at hT
  cases hT
  rcases hcase with ⟨_, h1⟩ | ⟨_, B, h1⟩ | ⟨a, _, _, h1⟩ | ⟨hx, _⟩
  · exact ⟨Q, by rw [h1]; exact hq, rfl⟩
  · exact ⟨{ Q with blocked_by := B }, by rw [h1, Function.update_same], rfl⟩
  · exact ⟨{ Q with children := insert a Q.children },
      by rw [h1, Function.update_same], rfl⟩
  · exact absurd hx hc

/-! ## Threads across a sequence of calls -/

theorem exitsBy_cons (t : Nat) (s s1 : Runtime) (c : Call) (cs : List Call)
    (h : threadCall s c = some s1) :
    exitsBy t s (c :: cs)
      = ((decide (c = Call.exit) && decide (s.current_thread = t)) || exitsBy t s1 cs) := by
  simp only [exitsBy, h]

theorem free_trace (q : Nat) (cs : List Call) :
    ∀ (s s3 : Runtime), Inv s → s.threads q = none → threadCalls s cs = some s3 →
      Call.create q ∉ cs → s3.threads q = none := by
  induction cs with
  | nil =>
    intro s s3 _ hq h _
    simp only [threadCalls, Option.some.injEq] at h
    rw [← h]
    exact hq
  | cons c cs ih =>
    intro s s3 hinv hq h hnot
    obtain ⟨s1, h1, h2⟩ := threadCalls_cons s s3 c cs h
    have hc : c ≠ Call.create q := fun hx => hnot (by rw [hx]; exact List.mem_cons_self _ _)
    exact ih s1 s3 (inv_threadCall s s1 c hinv h1) (step_free s s1 c q hinv h1 hq hc) h2
      (fun hx => hnot (List.mem_cons_of_mem _ hx))

/-- A thread blocked in a join stays blocked on exactly those of its blockers
that have not exited, as long as one of them is left. -/
theorem blocked_trace (p : Nat) (cs : List Call) :
    ∀ (s s2 : Runtime) (B : Finset Nat) (P : _MyThread), Inv s → s.threads p = some P →
      P.blocked_by = B → threadCalls s cs = some s2 →
      (B.filter fun ch => exitsBy ch s cs = false).Nonempty →
      ∃ P2, s2.threads p = some P2 ∧
        P2.blocked_by = B.filter fun ch => exitsBy ch s cs = false := by
  induction cs with
  | nil =>
    intro s s2 B P _ hP hB h _
    simp only [threadCalls, Option.some.injEq] at h
    rw [← h]
    refine ⟨P, hP, ?_⟩
    rw [hB]
    ext ch
    simp [exitsBy]
  | cons c cs ih =>
    intro s s2 B P hinv hP hB h hne
    obtain ⟨s1, h1, h2⟩ := threadCalls_cons s s2 c cs h
    obtain ⟨hcur, _⟩ := threadCall_some s s1 c h1
    have hpc : p ≠ s.current_thread := by
      intro hx
      obtain ⟨T, hT, hTb⟩ := hinv.cur_run hcur
      rw [← hx, hP] at hT
      cases hT
      rw [hB] at hTb
      rw [hTb] at hne
      simp at hne
    obtain ⟨P1, hP1, _, _, hb1⟩ := step_other s s1 c p P hinv h1 hP hpc
    have hfilter : (B.filter fun ch => exitsBy ch s (c :: cs) = false)
        = (P1.blocked_by.filter fun ch => exitsBy ch s1 cs = false) := by
      rw [hb1, hB]
      ext ch
      simp only [Finset.mem_filter]
      rw [exitsBy_cons ch s s1 c cs h1]
      by_cases hc : c = Call.exit
      · simp only [hc, if_true, Finset.mem_erase, decide_True, Bool.true_and,
          Bool.or_eq_false_iff, decide_eq_false_iff_not]
        constructor
        · rintro ⟨hb, hx, he⟩
          exact ⟨⟨fun hch => hx hch.symm, hb⟩, he⟩
        · rintro ⟨⟨hx, hb⟩, he⟩
          exact ⟨hb, fun hch => hx hch.symm, he⟩
      · simp [hc]
    rw [hfilter] at hne ⊢
    exact ih s1 s2 P1.blocked_by P1 (inv_threadCall s s1 c hinv h1) hP1 rfl h2 hne

/-- Joining a handle at which nothing is allocated, or a thread without
parent, fails without blocking. -/
theorem join_stranger (s : Runtime) (q : Nat) (hinv : Inv s) (hcur : s.current_thread ≠ 0)
    (hq : s.threads q = none ∨ ∃ C, s.threads q = some C ∧ C.parent = 0) :
    MyThreadJoin s q = some (-1, s) := by
  obtain ⟨T, hT, _⟩ := hinv.cur_run hcur
  apply join_non_child s q T hT
  intro hmem
  obtain ⟨C, hC, hCp⟩ := hinv.tree.child_parent _ T q hT hmem
  rcases hq with hx | ⟨C1, hx, hp⟩
  · rw [hx] at hC
    exact absurd hC (by simp)
  · rw [hx] at hC
    cases hC
    rw [hp] at hCp
    exact hcur hCp.symm

/-- A thread that waits in a join is not running, not ready and in no block
queue. -/
theorem blocked_not_scheduled (s : Runtime) (p : Nat) (P : _MyThread) (hinv : Inv s)
    (hP : s.threads p = some P) (hb : P.blocked_by ≠ ∅) :
    s.current_thread ≠ p ∧ p ∉ s.ready_queue ∧
    ∀ a ms, s.sems a = some ms → p ∉ ms.block_queue := by
  have hnot : ¬ Runnable s p := by
    rintro ⟨X, hX, hXb⟩
    rw [hP] at hX
    cases hX
    exact hb hXb
  have hp0 : p ≠ 0 := by
    intro hx
    rw [hx, hinv.tree.null_free] at hP
    exact absurd hP (by simp)
  refine ⟨?_, fun hmem => hnot (hinv.parked.ready_run p hmem),
    fun a ms hms hmem => hnot (hinv.parked.sem_run a ms hms p hmem).2⟩
  intro hx
  apply hnot
  rw [← hx]
  exact hinv.cur_run (by rw [hx]; exact hp0)

/-- The exit of a thread on which `p` is blocked: `p` loses it from
`blocked_by` and is appended to the ready queue exactly when nothing is left. -/
theorem blocked_wake (s : Runtime) (p : Nat) (P : _MyThread) (hinv : Inv s)
    (hP : s.threads p = some P) (hmem : s.current_thread ∈ P.blocked_by) :
    ∃ s3 P3, MyThreadExit s = some s3 ∧ s3.threads p = some P3 ∧
      P3.blocked_by = P.blocked_by.erase s.current_thread ∧
      (P.blocked_by.erase s.current_thread = ∅ → s3.ready_queue = s.ready_queue ++ [p]) ∧
      (P.blocked_by.erase s.current_thread ≠ ∅ → s3.ready_queue = s.ready_queue) := by
  have hchild := hinv.tree.blocked_sub p P hP hmem
  obtain ⟨T, hT, hTp⟩ := hinv.tree.child_parent p P _ hP hchild
  have hp0 : p ≠ 0 := by
    intro hx
    rw [hx, hinv.tree.null_free] at hP
    exact absurd hP (by simp)
  have hne : P.blocked_by ≠ ∅ := Finset.ne_empty_of_mem hmem
  obtain ⟨s3, hex, _, _, _, hsome, _, hready⟩ := exit_under_inv s T hinv hT
  refine ⟨s3, _, hex, hsome p P hP, rfl, ?_, ?_⟩
  · intro he
    rcases hready with ⟨_, hno⟩ | ⟨hr, _⟩
    · exact absurd ⟨by rw [hTp]; exact hp0, hne, he⟩ (hno P (by rw [hTp]; exact hP))
    · rw [hr, hTp]
  · intro he
    rcases hready with ⟨hr, _⟩ | ⟨_, _, P1, hP1, _, he1⟩
    · exact hr
    · rw [hTp, hP] at hP1
      cases hP1
      exact absurd he1 he

/-! ## Joins -/

/-- C13: in a state reached from `MyThreadInit`, let the running thread `p`
join its child `c`.  The call inserts `c` in `blocked_by`, which is then
`{c}`, and `p` is neither current nor in the ready queue.  After every sequence
of calls of the other threads in which `c` has not exited, `p` is still
blocked on `c`, not current and not in the ready queue; and when `c` then
calls `MyThreadExit`, `p` is appended to the tail of the ready queue and its
`blocked_by` is empty. -/
theorem C13_join_wakeup (s0 s : Runtime) (main : Nat) (cs0 : List Call) (c : Nat)
    (P : _MyThread) (h0 : Unstarted s0) (hmain : main ≠ 0)
    (hs : runFrom s0 main cs0 = some s)
    (hP : s.threads s.current_thread = some P) (hc : c ∈ P.children) :
    ∃ s1, MyThreadJoin s c = some (0, s1) ∧
      (∃ P1, s1.threads s.current_thread = some P1 ∧ P1.blocked_by = {c}) ∧
      s1.current_thread ≠ s.current_thread ∧ s.current_thread ∉ s1.ready_queue ∧
      ∀ cs s2, threadCalls s1 cs = some s2 → exitsBy c s1 cs = false →
        (∃ P2, s2.threads s.current_thread = some P2 ∧ P2.blocked_by = {c}) ∧
        s2.current_thread ≠ s.current_thread ∧ s.current_thread ∉ s2.ready_queue ∧
        (s2.current_thread = c →
          ∃ s3 P3, MyThreadExit s2 = some s3 ∧
            s3.ready_queue = s2.ready_queue ++ [s.current_thread] ∧
            s3.threads s.current_thread = some P3 ∧ P3.blocked_by = ∅) := by
  have hinv := inv_runFrom s0 s main cs0 h0 hmain hs
  have hcur : s.current_thread ≠ 0 := by
    intro hx
    rw [hx, hinv.tree.null_free] at hP
    exact absurd hP (by simp)
  have hPb : P.blocked_by = ∅ := by
    obtain ⟨X, hX, hXb⟩ := hinv.cur_run hcur
    rw [hP] at hX
    cases hX
    exact hXb
  have hjoin := join_child s c P hP hc
  have hinv1 := inv_join s c _ hinv hjoin
  have hP1 : (_popNextThread { s with
      threads := Function.update s.threads s.current_thread
        (some { P with blocked_by := insert c P.blocked_by }) }).threads s.current_thread
      = some { P with blocked_by := {c} } := by
    rw [popNextThread_threads, hPb]
    show Function.update s.threads s.current_thread _ s.current_thread = _
    rw [Function.update_same]
    rfl
  have hsing : ({c} : Finset Nat) ≠ ∅ := Finset.singleton_ne_empty c
  obtain ⟨hn1, hn2, _⟩ := blocked_not_scheduled _ _ _ hinv1 hP1 hsing
  refine ⟨_, hjoin, ⟨_, hP1, rfl⟩, hn1, hn2, ?_⟩
  intro cs s2 hrun hex
  have hfilter : (({c} : Finset Nat).filter fun ch =>
      exitsBy ch (_popNextThread { s with
        threads := Function.update s.threads s.current_thread
          (some { P with blocked_by := insert c P.blocked_by }) }) cs = false) = {c} := by
    ext ch
    simp only [Finset.mem_filter, Finset.mem_singleton]
    constructor
    · exact fun hx => hx.1
    · intro hx
      exact ⟨hx, by rw [hx]; exact hex⟩
  obtain ⟨P2, hP2, hP2b⟩ := blocked_trace s.current_thread cs _ s2 {c} _ hinv1 hP1 rfl hrun
    (by rw [hfilter]; exact Finset.singleton_nonempty c)
  rw [hfilter] at hP2b
  have hinv2 := inv_threadCalls cs _ s2 hinv1 hrun
  obtain ⟨hm1, hm2, _⟩ := blocked_not_scheduled s2 _ P2 hinv2 hP2 (by rw [hP2b]; exact hsing)
  refine ⟨⟨P2, hP2, hP2b⟩, hm1, hm2, ?_⟩
  intro hcc
  obtain ⟨s3, P3, hex3, hP3, hP3b, hwake, _⟩ := blocked_wake s2 _ P2 hinv2 hP2
    (by rw [hP2b, hcc]; exact Finset.mem_singleton_self c)
  have hempty : P2.blocked_by.erase s2.current_thread = ∅ := by
    rw [hP2b, hcc]
    exact Finset.erase_singleton c
  exact ⟨s3, P3, hex3, hwake hempty, hP3, by rw [hP3b, hempty]⟩

/-- Witness of C13: the first thread creates threads 2 and 3 and joins
thread 2. -/
theorem C13_join_wakeup_witness :
    ∃ s s1, runFrom emptyRuntime 1 [Call.create 2, Call.create 3] = some s ∧
      MyThreadJoin s 2 = some (0, s1) ∧
      s1.current_thread ≠ s.current_thread ∧ s.current_thread ∉ s1.ready_queue := by
  obtain ⟨s1, h1, _, h2, h3, _⟩ := C13_join_wakeup emptyRuntime _ 1
    [Call.create 2, Call.create 3] 2 { parent := 0, children := {3, 2}, blocked_by := ∅ }
    unstarted_empty (by decide) rfl (by decide) (by decide)
  exact ⟨_, s1, rfl, h1, h2, h3⟩

/-- C14: in a state reached from `MyThreadInit`, let the running thread `p`
have the record `P` and call `MyThreadJoinAll`.  Without children the call
leaves the state as it is.  Otherwise `blocked_by` becomes the set of children
and `p` is neither current nor ready; after every sequence of calls in which
some of these children have not exited, `p` is blocked on exactly those, is
not current and not ready; and when one of them calls `MyThreadExit`, `p` is
appended to the tail of the ready queue if it was the last one and the ready
queue is unchanged otherwise.  A parent that creates A, B, C and calls
`MyThreadJoinAll` sees A, B, C run in this order and is queued by the exit of
C. -/
theorem C14_join_all (s0 s : Runtime) (main : Nat) (cs0 : List Call) (P : _MyThread)
    (h0 : Unstarted s0) (hmain : main ≠ 0) (hs : runFrom s0 main cs0 = some s)
    (hP : s.threads s.current_thread = some P) :
    (P.children = ∅ → MyThreadJoinAll s = some s) ∧
    (P.children ≠ ∅ →
      ∃ s1, MyThreadJoinAll s = some s1 ∧
        (∃ P1, s1.threads s.current_thread = some P1 ∧ P1.blocked_by = P.children) ∧
        s1.current_thread ≠ s.current_thread ∧ s.current_thread ∉ s1.ready_queue ∧
        ∀ cs s2, threadCalls s1 cs = some s2 →
          (P.children.filter fun ch => exitsBy ch s1 cs = false).Nonempty →
          (∃ P2, s2.threads s.current_thread = some P2 ∧
            P2.blocked_by = P.children.filter fun ch => exitsBy ch s1 cs = false) ∧
          s2.current_thread ≠ s.current_thread ∧ s.current_thread ∉ s2.ready_queue ∧
          (s2.current_thread ∈ (P.children.filter fun ch => exitsBy ch s1 cs = false) →
            ∃ s3, MyThreadExit s2 = some s3 ∧
              ((P.children.filter fun ch => exitsBy ch s1 cs = false) = {s2.current_thread} →
                s3.ready_queue = s2.ready_queue ++ [s.current_thread]) ∧
              ((P.children.filter fun ch => exitsBy ch s1 cs = false) ≠ {s2.current_thread} →
                s3.ready_queue = s2.ready_queue))) ∧
    ((runFrom emptyRuntime 1 [Call.create 2, Call.create 3, Call.create 4, Call.joinAll]).map
        (fun r => (r.current_thread, r.ready_queue)) = some (2, [3, 4]) ∧
     (runFrom emptyRuntime 1
        [Call.create 2, Call.create 3, Call.create 4, Call.joinAll, Call.exit]).map
        (fun r => (r.current_thread, r.ready_queue)) = some (3, [4]) ∧
     (runFrom emptyRuntime 1
        [Call.create 2, Call.create 3, Call.create 4, Call.joinAll, Call.exit, Call.exit]).map
        (fun r => (r.current_thread, r.ready_queue)) = some (4, []) ∧
     (runFrom emptyRuntime 1
        [Call.create 2, Call.create 3, Call.create 4, Call.joinAll, Call.exit, Call.exit]).bind
        (fun r => (MyThreadExit r).map fun r1 => r1.ready_queue) = some [1] ∧
     (runFrom emptyRuntime 1
        [Call.create 2, Call.create 3, Call.create 4, Call.joinAll, Call.exit, Call.exit,
          Call.exit]).map
        (fun r => (r.current_thread, r.ready_queue)) = some (1, [])) := by
  have hinv := inv_runFrom s0 s main cs0 h0 hmain hs
  have hcur : s.current_thread ≠ 0 := by
    intro hx
    rw [hx, hinv.tree.null_free] at hP
    exact absurd hP (by simp)
  have hPb : P.blocked_by = ∅ := by
    obtain ⟨X, hX, hXb⟩ := hinv.cur_run hcur
    rw [hP] at hX
    cases hX
    exact hXb
  refine ⟨joinAll_no_children s P hP, ?_, by decide⟩
  intro hkids
  have hjoin := joinAll_children s P hP hkids
  have hinv1 := inv_joinAll s _ hinv hjoin
  have hP1 : (_popNextThread { s with
      threads := Function.update s.threads s.current_thread
        (some { P with blocked_by := P.blocked_by ∪ P.children }) }).threads s.current_thread
      = some { P with blocked_by := P.children } := by
    rw [popNextThread_threads, hPb, Finset.empty_union]
    show Function.update s.threads s.current_thread _ s.current_thread = _
    rw [Function.update_same]
  obtain ⟨hn1, hn2, _⟩ := blocked_not_scheduled _ _ _ hinv1 hP1 hkids
  refine ⟨_, hjoin, ⟨_, hP1, rfl⟩, hn1, hn2, ?_⟩
  intro cs s2 hrun hne
  obtain ⟨P2, hP2, hP2b⟩ := blocked_trace s.current_thread cs _ s2 P.children _ hinv1 hP1 rfl
    hrun hne
  have hinv2 := inv_threadCalls cs _ s2 hinv1 hrun
  have hne2 : P2.blocked_by ≠ ∅ := by
    rw [hP2b]
    exact Finset.nonempty_iff_ne_empty.mp hne
  obtain ⟨hm1, hm2, _⟩ := blocked_not_scheduled s2 _ P2 hinv2 hP2 hne2
  refine ⟨⟨P2, hP2, hP2b⟩, hm1, hm2, ?_⟩
  intro hmem
  obtain ⟨s3, _, hex3, _, _, hwake, hstay⟩ := blocked_wake s2 _ P2 hinv2 hP2
    (by rw [hP2b]; exact hmem)
  rw [hP2b] at hwake hstay
  refine ⟨s3, hex3, ?_, ?_⟩
  · intro hlast
    apply hwake
    rw [hlast]
    exact Finset.erase_singleton _
  · intro hmore
    apply hstay
    intro he
    rcases (Finset.erase_eq_empty_iff _ _).mp he with hx | hx
    · exact Finset.nonempty_iff_ne_empty.mp hne hx
    · exact hmore hx

/-- Witness of C14: the first thread creates threads 2 and 3 and calls
`MyThreadJoinAll`. -/
theorem C14_join_all_witness :
    ∃ s s1, runFrom emptyRuntime 1 [Call.create 2, Call.create 3] = some s ∧
      MyThreadJoinAll s = some s1 ∧
      (∃ P1, s1.threads s.current_thread = some P1 ∧ P1.blocked_by = {3, 2}) ∧
      s1.current_thread ≠ s.current_thread ∧ s.current_thread ∉ s1.ready_queue := by
  obtain ⟨s1, h1, h2, h3, h4, _⟩ := (C14_join_all emptyRuntime _ 1
    [Call.create 2, Call.create 3] { parent := 0, children := {3, 2}, blocked_by := ∅ }
    unstarted_empty (by decide) rfl (by decide)).2.1 (by decide)
  exact ⟨_, s1, rfl, h1, h2, h3, h4⟩

/-- The exit of the running thread followed by its return into `dummy_func`,
when the invariant holds. -/
theorem exit_call_under_inv (s : Runtime) (T : _MyThread) (hinv : Inv s)
    (hT : s.threads s.current_thread = some T) :
    ∃ s1 s2, MyThreadExit s = some s1 ∧ dummy_func s1 = some s2 ∧
      (MyThreadExit s).bind dummy_func = some s2 ∧ Inv s2 ∧
      s2.threads s.current_thread = none ∧
      ∀ a, a ≠ s.current_thread → s2.threads a = s1.threads a := by
  have hcur : s.current_thread ≠ 0 := by
    intro hx
    rw [hx, hinv.tree.null_free] at hT
    exact absurd hT (by simp)
  obtain ⟨s1, hex, hc1, _, _, hsome, _, _⟩ := exit_under_inv s T hinv hT
  have hT1 := hsome _ T hT
  rw [← hc1] at hT1
  have hd := dummy_func_eq s1 _ hT1
  have hboth : (MyThreadExit s).bind dummy_func = some (_popNextThread { s1 with
      threads := Function.update s1.threads s1.current_thread none }) := by
    rw [hex, Option.some_bind, hd]
  refine ⟨s1, _, hex, hd, hboth, inv_exit s _ hinv hcur hboth, ?_, ?_⟩
  · rw [popNextThread_threads]
    show Function.update s1.threads s1.current_thread none s.current_thread = none
    rw [hc1, Function.update_same]
  · intro a ha
    rw [popNextThread_threads]
    show Function.update s1.threads s1.current_thread none a = _
    rw [hc1, Function.update_noteq ha]

/-- C12 (counterexample): thread 1 creates a child at address 2 and yields;
the child exits and is freed; thread 1 creates another child, which the
allocator places at address 2 again.  `MyThreadJoin` on the handle of the
exited child now returns 0 and blocks thread 1. -/
theorem C12_join_exited_counterexample :
    (runFrom emptyRuntime 1 [Call.create 2, Call.yield]).map
        (fun r => (r.current_thread, (r.threads 2).map _MyThread.parent)) = some (2, some 1) ∧
    (runFrom emptyRuntime 1 [Call.create 2, Call.yield, Call.exit]).map
        (fun r => (r.current_thread, (r.threads 2).isSome)) = some (1, false) ∧
    (runFrom emptyRuntime 1 [Call.create 2, Call.yield, Call.exit, Call.create 2]).bind
        (fun r => (MyThreadJoin r 2).map fun j =>
          (j.1, j.2.current_thread, (j.2.threads 1).map _MyThread.blocked_by))
      = some (0, 2, some {2}) := by
  decide

/-- C12 (amended): in a state reached from `MyThreadInit`, let the running
thread `c` call `MyThreadExit` and return into the reaper.  After every
sequence of calls in which no thread is created at the address of `c`, a
`MyThreadJoin` on `c` by the running thread, the parent of `c` included,
returns `-1` and leaves the state unchanged, so the caller is not blocked. -/
theorem C12_join_exited_child (s0 s : Runtime) (main : Nat) (cs0 : List Call)
    (h0 : Unstarted s0) (hmain : main ≠ 0) (hs : runFrom s0 main cs0 = some s)
    (hcur : s.current_thread ≠ 0) :
    ∃ s2, threadCall s Call.exit = some s2 ∧ s2.threads s.current_thread = none ∧
      ∀ cs s3, threadCalls s2 cs = some s3 → Call.create s.current_thread ∉ cs →
        s3.current_thread ≠ 0 → MyThreadJoin s3 s.current_thread = some (-1, s3) := by
  have hinv := inv_runFrom s0 s main cs0 h0 hmain hs
  obtain ⟨T, hT, _⟩ := hinv.cur_run hcur
  obtain ⟨s1, s2, _, _, hboth, hinv2, hfree, _⟩ := exit_call_under_inv s T hinv hT
  refine ⟨s2, by simp only [threadCall, libCall, hcur, ne_eq, not_false_eq_true, if_true, hboth],
    hfree, ?_⟩
  intro cs s3 hrun hnot hcur3
  exact join_stranger s3 _ (inv_threadCalls cs s2 s3 hinv2 hrun) hcur3
    (Or.inl (free_trace _ cs s2 s3 hinv2 hfree hrun hnot))

/-- Witness of C12: thread 1 creates thread 2 and yields; thread 2 exits; then
thread 1 creates a thread at address 3 and joins the handle 2. -/
theorem C12_join_exited_child_witness :
    ∃ s s2 s3, runFrom emptyRuntime 1 [Call.create 2, Call.yield] = some s ∧
      s.current_thread = 2 ∧ threadCall s Call.exit = some s2 ∧
      threadCalls s2 [Call.create 3] = some s3 ∧ s3.current_thread = 1 ∧
      MyThreadJoin s3 2 = some (-1, s3) := by
  have hs := option_eq_get (runFrom emptyRuntime 1 [Call.create 2, Call.yield]) rfl
  obtain ⟨s2, h1, _, h2⟩ := C12_join_exited_child emptyRuntime _ 1
    [Call.create 2, Call.yield] unstarted_empty (by decide) hs (by decide)
  have h3 := option_eq_get
    (threadCall ((runFrom emptyRuntime 1 [Call.create 2, Call.yield]).get rfl) Call.exit) rfl
  rw [h3] at h1
  cases h1
  have h4 := option_eq_get (threadCalls
    ((threadCall ((runFrom emptyRuntime 1 [Call.create 2, Call.yield]).get rfl)
      Call.exit).get rfl) [Call.create 3]) rfl
  exact ⟨_, _, _, hs, rfl, h3, h4, rfl, h2 [Call.create 3] _ h4 (by decide) (by decide)⟩

/-- An address that is free, or holds a thread without parent, stays so until a
thread is created at it. -/
theorem stranger_trace (q : Nat) (cs : List Call) :
    ∀ (s s3 : Runtime), Inv s →
      (s.threads q = none ∨ ∃ C, s.threads q = some C ∧ C.parent = 0) →
      threadCalls s cs = some s3 → Call.create q ∉ cs →
      (s3.threads q = none ∨ ∃ C3, s3.threads q = some C3 ∧ C3.parent = 0) := by
  induction cs with
  | nil =>
    intro s s3 _ hq h _
    simp only [threadCalls, Option.some.injEq] at h
    rw [← h]
    exact hq
  | cons c cs ih =>
    intro s s3 hinv hq h hnot
    obtain ⟨s1, h1, h2⟩ := threadCalls_cons s s3 c cs h
    have hc : c ≠ Call.create q := fun hx => hnot (by rw [hx]; exact List.mem_cons_self _ _)
    have hstep : s1.threads q = none ∨ ∃ C1, s1.threads q = some C1 ∧ C1.parent = 0 := by
      rcases hq with hfree | ⟨C, hC, hp⟩
      · exact Or.inl (step_free s s1 c q hinv h1 hfree hc)
      · by_cases hcc : q = s.current_thread
        · by_cases hce : c = Call.exit
          · left
            obtain ⟨T, _, _, hcase⟩ := step_heap s s1 c hinv h1
            rcases hcase with ⟨hx, _⟩ | ⟨hx, _⟩ | ⟨a, hx, _⟩ | ⟨_, hx⟩
            · exact absurd hce hx
            · exact absurd hce hx
            · rw [hx] at hce
              exact absurd hce (by simp)
            · rw [hx q, if_pos hcc]
          · right
            rw [hcc] at hC
            obtain ⟨C1, hC1, hp1⟩ := step_current s s1 c C hinv h1 hC hce
            exact ⟨C1, by rw [hcc]; exact hC1, by rw [hp1, hp]⟩
        · right
          obtain ⟨C1, hC1, hp1, _, _⟩ := step_other s s1 c q C hinv h1 hC hcc
          refine ⟨C1, hC1, ?_⟩
          rcases hp1 with hx | hx
          · rw [hx, hp]
          · exact hx
    exact ih s1 s3 (inv_threadCall s s1 c hinv h1) hstep h2
      (fun hx => hnot (List.mem_cons_of_mem _ hx))

/-- C16 (counterexample): thread 1 creates thread 2 and yields; thread 2 creates
thread 3 and exits, which leaves thread 3 without parent.  Thread 1 yields,
thread 3 exits and is freed, and thread 1 creates a child, which the allocator
places at address 3 again.  `MyThreadJoin` on the handle of the orphan now
returns 0 and blocks thread 1. -/
theorem C16_orphan_join_counterexample :
    (runFrom emptyRuntime 1 [Call.create 2, Call.yield, Call.create 3, Call.exit]).map
        (fun r => (r.current_thread, (r.threads 3).map _MyThread.parent)) = some (1, some 0) ∧
    (runFrom emptyRuntime 1 [Call.create 2, Call.yield, Call.create 3, Call.exit, Call.yield,
        Call.exit]).map
        (fun r => (r.current_thread, (r.threads 3).isSome)) = some (1, false) ∧
    (runFrom emptyRuntime 1 [Call.create 2, Call.yield, Call.create 3, Call.exit, Call.yield,
        Call.exit, Call.create 3]).bind
        (fun r => (MyThreadJoin r 3).map fun j =>
          (j.1, j.2.current_thread, (j.2.threads 1).map _MyThread.blocked_by))
      = some (0, 3, some {3}) := by
  decide

/-- C16 (amended): in a state reached from `MyThreadInit`, let the running
thread, whose record is `T`, call `MyThreadExit` and return into the reaper.
Every thread in `T.children` then has a null parent and the `children` and
`blocked_by` it had; `MyThreadExit` changes the ready queue by appending at most
its parent and changes no semaphore, so every queued thread keeps its place; and
after every later sequence of calls in which no thread is created at the address
of such an orphan, a `MyThreadJoin` on it by the running thread returns `-1` and
leaves the state unchanged. -/
theorem C16_exit_detaches_children (s0 s : Runtime) (main : Nat) (cs0 : List Call)
    (T : _MyThread) (h0 : Unstarted s0) (hmain : main ≠ 0)
    (hs : runFrom s0 main cs0 = some s) (hT : s.threads s.current_thread = some T) :
    ∃ s1 s2, MyThreadExit s = some s1 ∧ dummy_func s1 = some s2 ∧
      (∀ ch ∈ T.children, ∃ C, s.threads ch = some C ∧
        s1.threads ch = some { C with parent := 0 } ∧
        s2.threads ch = some { C with parent := 0 }) ∧
      (∃ woken, s1.ready_queue = s.ready_queue ++ woken) ∧ s1.sems = s.sems ∧
      (∀ ch ∈ T.children, ∀ cs s3, threadCalls s2 cs = some s3 →
        Call.create ch ∉ cs → s3.current_thread ≠ 0 →
        MyThreadJoin s3 ch = some (-1, s3)) := by
  have hinv := inv_runFrom s0 s main cs0 h0 hmain hs
  obtain ⟨s1, s2, hex, hd, _, hinv2, _, hother⟩ := exit_call_under_inv s T hinv hT
  obtain ⟨s1a, hexa, _, hsems, _, hsome, _, hready⟩ := exit_under_inv s T hinv hT
  rw [hex] at hexa
  cases hexa
  have hkid : ∀ ch ∈ T.children, ∃ C, s.threads ch = some C ∧
      s1.threads ch = some { C with parent := 0 } ∧
      s2.threads ch = some { C with parent := 0 } := by
    intro ch hch
    obtain ⟨C, hC, hCp⟩ := hinv.tree.child_parent _ T ch hT hch
    have hne : ch ≠ s.current_thread := by
      intro hx
      rw [hx, hT] at hC
      cases hC
      exact inv_current_not_own_parent s T hinv hT hCp
    have hnc : s.current_thread ∉ C.children := by
      intro hmem
      obtain ⟨X, hX, hXp⟩ := hinv.tree.child_parent ch C _ hC hmem
      rw [hT] at hX
      cases hX
      apply hinv.tree.parent_not_child _ T hT
      rw [hXp]
      exact hch
    have hnb : s.current_thread ∉ C.blocked_by := fun hmem =>
      hnc (hinv.tree.blocked_sub ch C hC hmem)
    have h1 : s1.threads ch = some { C with parent := 0 } := by
      rw [hsome ch C hC]
      simp [hch, Finset.erase_eq_of_not_mem hnc, Finset.erase_eq_of_not_mem hnb]
    exact ⟨C, hC, h1, by rw [hother ch hne]; exact h1⟩
  refine ⟨s1, s2, hex, hd, hkid, ?_, hsems, ?_⟩
  · rcases hready with ⟨hr, _⟩ | ⟨hr, _⟩
    · exact ⟨[], by rw [hr, List.append_nil]⟩
    · exact ⟨[T.parent], hr⟩
  · intro ch hch cs s3 hrun hnot hcur3
    obtain ⟨C, _, _, hC2⟩ := hkid ch hch
    exact join_stranger s3 ch (inv_threadCalls cs s2 s3 hinv2 hrun) hcur3
      (stranger_trace ch cs s2 s3 hinv2 (Or.inr ⟨_, hC2, rfl⟩) hrun hnot)

/-- Witness of C16: thread 1 creates thread 2 and yields; thread 2 creates
thread 3 and exits, which leaves thread 3 without parent.  Thread 1 yields and
thread 3 exits; a join on the handle 3 by thread 1 then returns `-1`. -/
theorem C16_exit_detaches_children_witness :
    ∃ s s1 s2 s3, runFrom emptyRuntime 1 [Call.create 2, Call.yield, Call.create 3] = some s ∧
      s.current_thread = 2 ∧ MyThreadExit s = some s1 ∧ dummy_func s1 = some s2 ∧
      (s1.threads 3).map _MyThread.parent = some 0 ∧
      threadCalls s2 [Call.yield, Call.exit] = some s3 ∧
      s3.current_thread = 1 ∧ MyThreadJoin s3 3 = some (-1, s3) := by
  have hs := option_eq_get
    (runFrom emptyRuntime 1 [Call.create 2, Call.yield, Call.create 3]) rfl
  obtain ⟨s1, s2, h1, h2, _, _, _, h4⟩ := C16_exit_detaches_children emptyRuntime _ 1
    [Call.create 2, Call.yield, Call.create 3]
    { parent := 1, children := {3}, blocked_by := ∅ }
    unstarted_empty (by decide) hs (by decide)
  have h5 := option_eq_get (MyThreadExit
    ((runFrom emptyRuntime 1 [Call.create 2, Call.yield, Call.create 3]).get rfl)) rfl
  rw [h5] at h1
  cases h1
  have h6 := option_eq_get (dummy_func ((MyThreadExit
    ((runFrom emptyRuntime 1 [Call.create 2, Call.yield, Call.create 3]).get rfl)).get rfl)) rfl
  rw [h6] at h2
  cases h2
  have h7 := option_eq_get (threadCalls (((dummy_func ((MyThreadExit
    ((runFrom emptyRuntime 1 [Call.create 2, Call.yield, Call.create 3]).get rfl)).get
      rfl)).get rfl)) [Call.yield, Call.exit]) rfl
  exact ⟨_, _, _, _, hs, rfl, h5, h6, by decide, h7, rfl,
    h4 3 (by decide) [Call.yield, Call.exit] _ h7 (by decide) (by decide)⟩

/-! ## Parent and child membership -/

/-- C21 (counterexample): between `MyThreadExit` and the reaper the membership rule
fails for the exiting thread, which is still allocated. Thread 1 creates thread 2
and yields to it; after `MyThreadExit` by thread 2 its `parent` is still 1 while
the `children` of thread 1 no longer hold 2. -/
theorem C21_membership_counterexample :
    ((runFrom emptyRuntime 1 [Call.create 2, Call.yield]).bind MyThreadExit).map
        (fun s1 => (s1.current_thread, (s1.threads 2).map (fun C => C.parent),
          (s1.threads 1).map (fun P => decide (2 ∈ P.children)))) =
      some (2, some 1, some false) := by
  decide

/-- C21 (amended): in every state the library calls reach, `MyThreadExit` being
followed by the reaper, allocated threads `p` and `c` satisfy `c ∈ p.children` iff
`c.parent = p`; and in the state `MyThreadExit` alone leaves, the same holds for
all allocated `p` and `c` other than the exiting thread. -/
theorem C21_parent_child_membership (s0 s : Runtime) (main : Nat) (cs : List Call)
    (h0 : Unstarted s0) (hmain : main ≠ 0) (h : runFrom s0 main cs = some s) :
    (∀ p c P C, s.threads p = some P → s.threads c = some C →
        (c ∈ P.children ↔ C.parent = p)) ∧
      (∀ T, s.threads s.current_thread = some T →
        ∃ s1, MyThreadExit s = some s1 ∧
          ∀ p c P C, p ≠ s.current_thread → c ≠ s.current_thread →
            s1.threads p = some P → s1.threads c = some C →
            (c ∈ P.children ↔ C.parent = p)) := by
  have hinv := inv_runFrom s0 s main cs h0 hmain h
  have key : ∀ H : Nat → Option _MyThread, TreeInv H → ∀ p c P C,
      H p = some P → H c = some C → (c ∈ P.children ↔ C.parent = p) := by
    intro H ht p c P C hP hC
    constructor
    · intro hmem
      obtain ⟨C1, hC1, hpar⟩ := ht.child_parent p P c hP hmem
      rw [hC] at hC1
      cases hC1
      exact hpar
    · intro hpar
      have hp0 : C.parent ≠ 0 := by
        rw [hpar]
        intro hz
        rw [hz, ht.null_free] at hP
        exact absurd hP (by simp)
      obtain ⟨P1, hP1, hmem⟩ := ht.parent_child c C hC hp0
      rw [hpar, hP] at hP1
      cases hP1
      exact hmem
  refine ⟨key s.threads hinv.tree, ?_⟩
  intro T hT
  obtain ⟨s1, hex, _, _, _, hsome, hnone, _⟩ := exit_under_inv s T hinv hT
  refine ⟨s1, hex, ?_⟩
  intro p c P C hp hc hP hC
  have ht := tree_exit s.threads s1.threads s.current_thread T hinv.tree hT hsome hnone
  apply key _ ht p c P C
  · rw [Function.update_noteq hp]
    exact hP
  · rw [Function.update_noteq hc]
    exact hC

/-- C21 (witness): thread 1 creates thread 2 and yields to it. -/
theorem C21_parent_child_membership_witness :
    ∃ s, runFrom emptyRuntime 1 [Call.create 2, Call.yield] = some s ∧
      (∀ p c P C, s.threads p = some P → s.threads c = some C →
        (c ∈ P.children ↔ C.parent = p)) :=
  ⟨_, rfl, (C21_parent_child_membership emptyRuntime _ 1 [Call.create 2, Call.yield]
    unstarted_empty (by decide) rfl).1⟩

end MyThreadLib

namespace Ramdisk

/-! ## Facts about the file tree -/

/-- The test of `strstr(b, a) == b`: `a` is an initial segment of `b`. -/
theorem isPrefixOf_iff (a b : List Char) : a.isPrefixOf b = true ↔ ∃ r, b = a ++ r := by
  induction a generalizing b with
  | nil => simp
  | cons x a ih =>
    cases b with
    | nil => simp [List.isPrefixOf]
    | cons y b =>
      simp only [List.isPrefixOf, Bool.and_eq_true, beq_iff_eq, ih, List.cons_append,
        List.cons.injEq]
      constructor
      · rintro ⟨rfl, r, rfl⟩
        exact ⟨r, rfl, rfl⟩
      · rintro ⟨r, rfl, rfl⟩
        exact ⟨rfl, r, rfl⟩

/-! ## Names of a tree -/

/-- A property of all names that follows from another one. -/
theorem allNames_mono (P Q : List Char → Bool) (t : FileInfo)
    (hPQ : ∀ x, P x = true → Q x = true) (h : allNames P t = true) :
    allNames Q t = true := by
  induction t with
  | null => rfl
  | node name d s f ch nx ihc ihn =>
    simp only [allNames, Bool.and_eq_true] at h ⊢
    exact ⟨⟨hPQ _ h.1.1, ihc h.1.2⟩, ihn h.2⟩

/-- In a chain whose names extend those of their parents, every name begins with
the name of the parent of the chain. -/
theorem namesExtend_all (pre : List Char) (t : FileInfo) (h : namesExtend pre t = true) :
    allNames (fun x => pre.isPrefixOf x) t = true := by
  induction t generalizing pre with
  | null => rfl
  | node name d s f ch nx ihc ihn =>
    simp only [namesExtend, Bool.and_eq_true] at h
    simp only [allNames, Bool.and_eq_true]
    refine ⟨⟨h.1.1, ?_⟩, ihn pre h.2⟩
    apply allNames_mono _ _ ch _ (ihc name h.1.2)
    intro x hx
    obtain ⟨r1, hr1⟩ := (isPrefixOf_iff _ _).mp h.1.1
    obtain ⟨r2, hr2⟩ := (isPrefixOf_iff _ _).mp hx
    apply (isPrefixOf_iff _ _).mpr
    exact ⟨r1 ++ r2, by rw [hr2, hr1, List.append_assoc]⟩

/-- The names of a renamed tree. -/
theorem allNames_mapNames (P : List Char → Bool) (g : List Char → List Char) (t : FileInfo) :
    allNames P (mapNames g t) = allNames (fun x => P (g x)) t := by
  induction t with
  | null => rfl
  | node name d s f ch nx ihc ihn => simp only [mapNames, allNames, ihc, ihn]

/-- Two renamings that agree on the names of a tree. -/
theorem mapNames_congr (P : List Char → Bool) (g1 g2 : List Char → List Char) (t : FileInfo)
    (hg : ∀ x, P x = true → g1 x = g2 x) (h : allNames P t = true) :
    mapNames g1 t = mapNames g2 t := by
  induction t with
  | null => rfl
  | node name d s f ch nx ihc ihn =>
    simp only [allNames, Bool.and_eq_true] at h
    simp only [mapNames, hg _ h.1.1, ihc h.1.2, ihn h.2]

/-! ## `File_find` -/

/-- The node `File_find` returns has the name asked for. -/
theorem find_deref (path : List Char) (t : FileInfo) (p : List Step)
    (h : File_find path t = some p) :
    ∃ d s f ch nx, deref p t = .node path d s f ch nx := by
  induction t generalizing p with
  | null => simp [File_find] at h
  | node name d s f ch nx ihc ihn =>
    unfold File_find at h
    by_cases h1 : path = name
    · rw [if_pos h1] at h
      cases h
      exact ⟨d, s, f, ch, nx, by rw [h1]; rfl⟩
    · rw [if_neg h1] at h
      have hnext : ∀ q, (File_find path nx).map (fun res => Step.next :: res) = some q →
          ∃ d1 s1 f1 ch1 nx1, deref q (.node name d s f ch nx) = .node path d1 s1 f1 ch1 nx1 := by
        intro q hq
        cases hn : File_find path nx with
        | none => rw [hn] at hq; exact absurd hq (by simp)
        | some r =>
          rw [hn] at hq
          cases hq
          exact ihn r hn
      by_cases h2 : name.isPrefixOf path = true
      · rw [if_pos h2] at h
        cases hc : File_find path ch with
        | none =>
          rw [hc] at h
          exact hnext p h
        | some r =>
          rw [hc] at h
          cases h
          exact ihc r hc
      · rw [if_neg h2] at h
        exact hnext p h

/-- The node the exhaustive traversal returns has the name asked for. -/
theorem exhaustive_deref (path : List Char) (t : FileInfo) (p : List Step)
    (h : File_find_exhaustive path t = some p) :
    ∃ d s f ch nx, deref p t = .node path d s f ch nx := by
  induction t generalizing p with
  | null => simp [File_find_exhaustive] at h
  | node name d s f ch nx ihc ihn =>
    unfold File_find_exhaustive at h
    by_cases h1 : path = name
    · rw [if_pos h1] at h
      cases h
      exact ⟨d, s, f, ch, nx, by rw [h1]; rfl⟩
    · rw [if_neg h1] at h
      cases hc : File_find_exhaustive path ch with
      | none =>
        rw [hc] at h
        cases hn : File_find_exhaustive path nx with
        | none => rw [hn] at h; exact absurd h (by simp)
        | some r =>
          rw [hn] at h
          cases h
          exact ihn r hn
      | some r =>
        rw [hc] at h
        cases h
        exact ihc r hc

/-- When the exhaustive traversal returns nothing, no node has the name. -/
theorem exhaustive_none (path : List Char) (t : FileInfo)
    (h : File_find_exhaustive path t = none) (p : List Step) (hp : deref p t ≠ .null) :
    (deref p t).name ≠ path := by
  induction t generalizing p with
  | null =>
    cases p with
    | nil => exact absurd rfl hp
    | cons c q => exact absurd (by cases c <;> rfl) hp
  | node name d s f ch nx ihc ihn =>
    unfold File_find_exhaustive at h
    by_cases h1 : path = name
    · rw [if_pos h1] at h
      exact absurd h (by simp)
    · rw [if_neg h1] at h
      cases hc : File_find_exhaustive path ch with
      | some r => rw [hc] at h; exact absurd h (by simp)
      | none =>
        rw [hc] at h
        cases hn : File_find_exhaustive path nx with
        | some r => rw [hn] at h; exact absurd h (by simp)
        | none =>
          cases p with
          | nil => exact fun he => h1 he.symm
          | cons c q =>
            cases c with
            | children => exact ihc hc q hp
            | next => exact ihn hn q hp

/-- A subtree whose names all begin with a name that does not begin `path` holds
no node named `path`. -/
theorem exhaustive_pruned (pre path : List Char) (t : FileInfo)
    (h : allNames (fun x => pre.isPrefixOf x) t = true) (hp : ¬ pre.isPrefixOf path = true) :
    File_find_exhaustive path t = none := by
  induction t with
  | null => rfl
  | node name d s f ch nx ihc ihn =>
    simp only [allNames, Bool.and_eq_true] at h
    unfold File_find_exhaustive
    have h1 : path ≠ name := by
      intro he
      rw [he] at hp
      exact hp h.1.1
    rw [if_neg h1, ihc h.1.2, ihn h.2]
    rfl

/-- The pruned search and the exhaustive traversal agree on a chain whose names
extend those of their parents. -/
theorem find_eq_exhaustive (pre path : List Char) (t : FileInfo)
    (h : namesExtend pre t = true) :
    File_find path t = File_find_exhaustive path t := by
  induction t generalizing pre with
  | null => rfl
  | node name d s f ch nx ihc ihn =>
    simp only [namesExtend, Bool.and_eq_true] at h
    unfold File_find File_find_exhaustive
    by_cases h1 : path = name
    · rw [if_pos h1, if_pos h1]
    · rw [if_neg h1, if_neg h1, ihn pre h.2]
      by_cases h2 : name.isPrefixOf path = true
      · rw [if_pos h2, ihc name h.1.2]
      · rw [if_neg h2, exhaustive_pruned name path ch (namesExtend_all name ch h.1.2) h2]

/-! ## The loop of `File_rename` -/

/-- The loop of `File_rename` on a chain whose names extend those of their
parents: every name loses the old name of the parent and gains the new one. -/
theorem renameChildren_names (pre newname : List Char) (t : FileInfo)
    (h : namesExtend pre t = true) :
    renameChildren pre.length newname t =
      some (mapNames (fun x => newname ++ x.drop pre.length) t) := by
  induction t generalizing pre newname with
  | null => rfl
  | node cname d s f ch nx ihc ihn =>
    simp only [namesExtend, Bool.and_eq_true] at h
    obtain ⟨r, hr⟩ := (isPrefixOf_iff _ _).mp h.1.1
    have hlen : ¬ cname.length < pre.length := by
      rw [hr, List.length_append]
      omega
    unfold renameChildren
    rw [if_neg hlen, ihc cname (newname ++ cname.drop pre.length) h.1.2, ihn pre newname h.2]
    have hsame : mapNames (fun x => (newname ++ cname.drop pre.length) ++ x.drop cname.length) ch =
        mapNames (fun x => newname ++ x.drop pre.length) ch := by
      apply mapNames_congr (fun x => cname.isPrefixOf x) _ _ ch _
        (namesExtend_all cname ch h.1.2)
      intro x hx
      obtain ⟨y, hy⟩ := (isPrefixOf_iff _ _).mp hx
      rw [hy, List.drop_left, hr, List.append_assoc pre r y, List.drop_left, List.drop_left,
        List.append_assoc]
    simp only [mapNames, hsame]

/-! ## Positions and sizes -/

/-- An integer in the range of `unsigned int` is not changed by the conversion. -/
theorem toUInt_of_range (x : Int) (h0 : 0 ≤ x) (h1 : x < 4294967296) :
    ((toUInt x : Nat) : Int) = x := by
  unfold toUInt
  rw [Int.emod_eq_of_lt h0 h1]
  exact Int.toNat_of_nonneg h0

/-- An integer in the range of `int` is not changed by the conversion. -/
theorem toInt_of_range (x : Int) (h0 : -2147483648 ≤ x) (h1 : x < 2147483648) :
    toInt x = x := by
  unfold toInt
  rw [Int.emod_eq_of_lt (by omega) (by omega)]
  omega

/-- Nothing stands at a position of the empty tree. -/
theorem deref_null (p : List Step) : deref p .null = .null := by
  cases p with
  | nil => rfl
  | cons c q => cases c <;> rfl

/-- A store through a null pointer leaves the empty tree. -/
theorem modifyAt_null (g : FileInfo → FileInfo) (hg : g .null = .null) (p : List Step) :
    modifyAt g p .null = .null := by
  cases p with
  | nil => exact hg
  | cons c q => cases c <;> rfl

/-- The function `File_update_size` leaves what stands at the position. -/
theorem deref_update_size (delta : Int) (p : List Step) (t : FileInfo) :
    deref p (File_update_size delta p t) = deref p t := by
  induction p generalizing t with
  | nil => rfl
  | cons c q ih =>
    cases t with
    | null => cases c <;> rfl
    | node n d s f ch nx =>
      cases c with
      | children => exact ih ch
      | next => exact ih nx

/-- The function `File_update_size` and a store at the position commute. -/
theorem update_size_modifyAt (g : FileInfo → FileInfo) (delta : Int) (p : List Step)
    (t : FileInfo) :
    File_update_size delta p (modifyAt g p t) = modifyAt g p (File_update_size delta p t) := by
  induction p generalizing t with
  | nil => rfl
  | cons c q ih =>
    cases t with
    | null => cases c <;> rfl
    | node n d s f ch nx =>
      cases c with
      | children =>
        show FileInfo.node n d _ f (File_update_size delta q (modifyAt g q ch)) nx = _
        rw [ih ch]
        rfl
      | next =>
        show FileInfo.node n d s f ch (File_update_size delta q (modifyAt g q nx)) = _
        rw [ih nx]
        rfl

/-- What `Regular` says of a node. -/
theorem regular_node (n : List Char) (d : Option (List (Option Nat))) (s : Nat) (f : Bool)
    (ch nx : FileInfo) :
    Regular (.node n d s f ch nx) ↔
      (f = true → ch = .null ∧ (d = none → s = 0)) ∧ (f = false → d = none) ∧
        (∀ b, d = some b → b.length = s) ∧ Regular ch ∧ Regular nx :=
  Iff.rfl

/-- The subtrees of a regular tree are regular. -/
theorem regular_deref (p : List Step) (t : FileInfo) (h : Regular t) : Regular (deref p t) := by
  induction p generalizing t with
  | nil => exact h
  | cons c q ih =>
    cases t with
    | null => rw [deref_null]; trivial
    | node n d s f ch nx =>
      rw [regular_node] at h
      cases c with
      | children => exact ih ch h.2.2.2.1
      | next => exact ih nx h.2.2.2.2

/-- What stands at a position after a store there. -/
theorem deref_modifyAt (g : FileInfo → FileInfo) (hg : g .null = .null) (p : List Step)
    (t : FileInfo) : deref p (modifyAt g p t) = g (deref p t) := by
  induction p generalizing t with
  | nil => rfl
  | cons c q ih =>
    cases t with
    | null => rw [modifyAt_null g hg, deref_null, hg]
    | node n d s f ch nx =>
      cases c with
      | children => exact ih ch
      | next => exact ih nx

/-! ## Names across the calls -/

/-- An initial segment taken from a path begins the path. -/
theorem take_isPrefixOf (k : Nat) (l : List Char) : (l.take k).isPrefixOf l = true :=
  (isPrefixOf_iff _ _).mpr ⟨l.drop k, (List.take_append_drop k l).symm⟩

/-- What `dirname` returns is `.` or an initial segment of the path. -/
theorem dirname_cases (path : List Char) :
    dirname path = ['.'] ∨ (dirname path).isPrefixOf path = true := by
  unfold dirname
  cases strrchr '/' path with
  | none => exact Or.inl rfl
  | some last =>
    dsimp only
    generalize (if last ≠ 0 ∧ last + 1 = path.length then
        if slashRun path last ≠ 0 then strrchr '/' (path.take (slashRun path last))
        else some last
      else some last) = ls
    cases ls with
    | none => exact Or.inl rfl
    | some ls =>
      dsimp only
      right
      by_cases h1 : slashRun path ls = 0
      · rw [if_pos h1]
        by_cases h2 : ls = 1
        · rw [if_pos h2]
          exact take_isPrefixOf 2 path
        · rw [if_neg h2]
          exact take_isPrefixOf 1 path
      · rw [if_neg h1]
        exact take_isPrefixOf _ path

/-- A property of all names holds of the name of every node. -/
theorem allNames_deref (P : List Char → Bool) (q : List Step) (t : FileInfo)
    (h : allNames P t = true) (hq : deref q t ≠ .null) : P (deref q t).name = true := by
  induction q generalizing t with
  | nil =>
    cases t with
    | null => exact absurd rfl hq
    | node n d s f ch nx =>
      simp only [allNames, Bool.and_eq_true] at h
      exact h.1.1
  | cons c q ih =>
    cases t with
    | null => exact absurd (deref_null _) hq
    | node n d s f ch nx =>
      simp only [allNames, Bool.and_eq_true] at h
      cases c with
      | children => exact ih ch h.1.2 hq
      | next => exact ih nx h.2 hq

/-- Below every node of a tree whose names extend those of their parents, the
names extend the name of the node. -/
theorem namesExtend_deref (pre : List Char) (q : List Step) (t : FileInfo)
    (h : namesExtend pre t = true) :
    namesExtend (deref q t).name (deref q t).children = true := by
  induction q generalizing pre t with
  | nil =>
    cases t with
    | null => rfl
    | node n d s f ch nx =>
      simp only [namesExtend, Bool.and_eq_true] at h
      exact h.1.2
  | cons c q ih =>
    cases t with
    | null => rw [deref_null]; rfl
    | node n d s f ch nx =>
      simp only [namesExtend, Bool.and_eq_true] at h
      cases c with
      | children => exact ih n ch h.1.2
      | next => exact ih pre nx h.2

/-- A store at a position keeps the names extending those of their parents when
what it stores does. -/
theorem namesExtend_modifyAt (g : FileInfo → FileInfo) (p : List Step) (t : FileInfo)
    (pre : List Char) (h : namesExtend pre t = true)
    (hg : ∀ pre1, namesExtend pre1 (deref p t) = true →
      namesExtend pre1 (g (deref p t)) = true) :
    namesExtend pre (modifyAt g p t) = true := by
  induction p generalizing t pre with
  | nil => exact hg pre h
  | cons c q ih =>
    cases t with
    | null => cases c <;> rfl
    | node n d s f ch nx =>
      simp only [namesExtend, Bool.and_eq_true] at h
      cases c with
      | children =>
        show namesExtend pre (FileInfo.node n d s f (modifyAt g q ch) nx) = true
        simp only [namesExtend, Bool.and_eq_true]
        exact ⟨⟨h.1.1, ih ch n h.1.2 hg⟩, h.2⟩
      | next =>
        show namesExtend pre (FileInfo.node n d s f ch (modifyAt g q nx)) = true
        simp only [namesExtend, Bool.and_eq_true]
        exact ⟨h.1, ih nx pre h.2 hg⟩

/-- The function `File_update_size` changes no name. -/
theorem namesExtend_update_size (delta : Int) (p : List Step) (t : FileInfo)
    (pre : List Char) :
    namesExtend pre (File_update_size delta p t) = namesExtend pre t := by
  induction p generalizing t pre with
  | nil => rfl
  | cons c q ih =>
    cases t with
    | null => cases c <;> rfl
    | node n d s f ch nx =>
      cases c with
      | children =>
        show namesExtend pre (FileInfo.node n d _ f (File_update_size delta q ch) nx) = _
        simp only [namesExtend, ih]
      | next =>
        show namesExtend pre (FileInfo.node n d s f ch (File_update_size delta q nx)) = _
        simp only [namesExtend, ih]

/-- The function `File_update_size` changes the name of no node. -/
theorem name_update_size (delta : Int) (p q : List Step) (t : FileInfo) :
    (deref q (File_update_size delta p t)).name = (deref q t).name := by
  induction p generalizing t q with
  | nil => rfl
  | cons c r ih =>
    cases t with
    | null => cases c <;> rfl
    | node n d s f ch nx =>
      cases c with
      | children =>
        cases q with
        | nil => rfl
        | cons c1 q1 =>
          cases c1 with
          | children => exact ih q1 ch
          | next => rfl
      | next =>
        cases q with
        | nil => rfl
        | cons c1 q1 =>
          cases c1 with
          | children => rfl
          | next => exact ih q1 nx

/-- The calls of `File_update_size` made by `File_destroy` change no name. -/
theorem names_update_sizes (deltas : List Int) (p : List Step) (t : FileInfo) :
    (∀ pre, namesExtend pre (deltas.foldl (fun t delta => File_update_size delta p t) t) =
        namesExtend pre t) ∧
      ∀ q, (deref q (deltas.foldl (fun t delta => File_update_size delta p t) t)).name =
        (deref q t).name := by
  induction deltas generalizing t with
  | nil => exact ⟨fun _ => rfl, fun _ => rfl⟩
  | cons delta ds ih =>
    obtain ⟨h1, h2⟩ := ih (File_update_size delta p t)
    refine ⟨fun pre => ?_, fun q => ?_⟩
    · show namesExtend pre (ds.foldl _ (File_update_size delta p t)) = _
      rw [h1, namesExtend_update_size]
    · show (deref q (ds.foldl _ (File_update_size delta p t))).name = _
      rw [h2, name_update_size]

/-- Taking a node out of its chain keeps the names extending those of their
parents. -/
theorem namesExtend_unlink (p : List Step) (t : FileInfo) (pre : List Char)
    (h : namesExtend pre t = true) :
    namesExtend pre (modifyAt FileInfo.next p t) = true := by
  apply namesExtend_modifyAt _ p t pre h
  intro pre1 h1
  cases hd : deref p t with
  | null => rfl
  | node n d s f ch nx =>
    rw [hd] at h1
    simp only [namesExtend, Bool.and_eq_true] at h1
    exact h1.2

/-- The node a rebased pointer points to has the name it had. -/
theorem rebase_name (r p q : List Step) (t : FileInfo) (h : rebase r p = some q) :
    (deref q (modifyAt FileInfo.next r t)).name = (deref p t).name := by
  induction r generalizing p q t with
  | nil =>
    cases p with
    | nil => exact absurd h (by simp [rebase])
    | cons c p1 =>
      cases c with
      | children => exact absurd h (by simp [rebase])
      | next =>
        simp only [rebase, Option.some.injEq] at h
        subst h
        cases t with
        | null => rw [deref_null]; show (deref p1 FileInfo.null).name = _; rw [deref_null]
        | node n d s f ch nx => rfl
  | cons c rs ih =>
    cases p with
    | nil =>
      simp only [rebase, Option.some.injEq] at h
      subst h
      cases t with
      | null => cases c <;> rfl
      | node n d s f ch nx => cases c <;> rfl
    | cons c1 p1 =>
      simp only [rebase] at h
      by_cases hc : c = c1
      · rw [if_pos hc] at h
        subst hc
        cases hr : rebase rs p1 with
        | none => rw [hr] at h; exact absurd h (by simp)
        | some q1 =>
          rw [hr] at h
          simp only [Option.map_some', Option.some.injEq] at h
          subst h
          cases t with
          | null => cases c <;> rfl
          | node n d s f ch nx =>
            cases c with
            | children => exact ih p1 q1 ch hr
            | next => exact ih p1 q1 nx hr
      · rw [if_neg hc] at h
        simp only [Option.some.injEq] at h
        subst h
        cases t with
        | null => cases c <;> cases c1 <;> rfl
        | node n d s f ch nx =>
          cases c with
          | children =>
            cases c1 with
            | children => exact absurd rfl hc
            | next => rfl
          | next =>
            cases c1 with
            | children => rfl
            | next => exact absurd rfl hc

/-- The renamed names extend the new name as the old names extended the old
one. -/
theorem namesExtend_mapNames (o n pre : List Char) (t : FileInfo)
    (ho : o.isPrefixOf pre = true) (h : namesExtend pre t = true) :
    namesExtend (n ++ pre.drop o.length) (mapNames (fun x => n ++ x.drop o.length) t) = true := by
  induction t generalizing pre with
  | null => rfl
  | node name d s f ch nx ihc ihn =>
    simp only [namesExtend, Bool.and_eq_true] at h
    obtain ⟨r0, hr0⟩ := (isPrefixOf_iff _ _).mp ho
    obtain ⟨r1, hr1⟩ := (isPrefixOf_iff _ _).mp h.1.1
    have hon : o.isPrefixOf name = true :=
      (isPrefixOf_iff _ _).mpr ⟨r0 ++ r1, by rw [hr1, hr0, List.append_assoc]⟩
    simp only [mapNames, namesExtend, Bool.and_eq_true]
    refine ⟨⟨?_, ihc name hon h.1.2⟩, ihn pre ho h.2⟩
    apply (isPrefixOf_iff _ _).mpr
    refine ⟨r1, ?_⟩
    rw [hr1, hr0, List.append_assoc o r0 r1, List.drop_left, List.drop_left, List.append_assoc]

/-- The node found for `dirname path` has a name that begins `path`. -/
theorem parent_name (root : FileInfo) (path : List Char) (pp : List Step)
    (h : namesExtend ['/'] root = true) (hp : File_find (dirname path) root = some pp) :
    (deref pp root).name.isPrefixOf path = true := by
  obtain ⟨d, s, f, ch, nx, hd⟩ := find_deref (dirname path) root pp hp
  have hall := namesExtend_all ['/'] root h
  have hslash := allNames_deref _ pp root hall (by rw [hd]; simp)
  rw [hd]
  rw [hd] at hslash
  show (dirname path).isPrefixOf path = true
  rcases dirname_cases path with hdot | hpre
  · have hs : List.isPrefixOf ['/'] (dirname path) = true := hslash
    rw [hdot] at hs
    exact absurd hs (by decide)
  · exact hpre

/-- A new first child whose names extend the name of the parent. -/
theorem add_child_names (pre : List Char) (root : FileInfo) (p : List Step) (cn : List Char)
    (cd : Option (List (Option Nat))) (cs : Nat) (cf : Bool) (cch cnx : FileInfo)
    (h : namesExtend pre root = true) (hpar : (deref p root).name.isPrefixOf cn = true)
    (hch : namesExtend cn cch = true) :
    namesExtend pre (File_add_child p (.node cn cd cs cf cch cnx) root) = true := by
  unfold File_add_child
  apply namesExtend_modifyAt _ p root pre h
  intro pre1 h1
  cases hd : deref p root with
  | null => rfl
  | node n d s f ch nx =>
    rw [hd] at hpar h1
    simp only [namesExtend, Bool.and_eq_true] at h1
    show namesExtend pre1 (FileInfo.node n d s f (FileInfo.node cn cd cs cf cch ch) nx) = true
    simp only [namesExtend, Bool.and_eq_true]
    exact ⟨⟨h1.1.1, ⟨hpar, hch⟩, h1.1.2⟩, h1.2⟩

/-- A store that changes no name and no link keeps the names. -/
theorem store_names (g : FileInfo → FileInfo)
    (hg : ∀ t pre, namesExtend pre (g t) = namesExtend pre t) (p : List Step)
    (t : FileInfo) (pre : List Char) (h : namesExtend pre t = true) :
    namesExtend pre (modifyAt g p t) = true :=
  namesExtend_modifyAt g p t pre h (fun pre1 h1 => by rw [hg]; exact h1)

/-- The function `File_resize` changes no name. -/
theorem resize_names (disk_size : Int) (root : FileInfo) (file : Option (List Step))
    (size : Nat) (pre : List Char) (h : namesExtend pre root = true) :
    namesExtend pre (File_resize disk_size root file size).2 = true := by
  unfold File_resize
  cases file with
  | none => exact h
  | some p =>
    dsimp only
    split
    · exact h
    · split
      · exact h
      · split
        · exact h
        · apply store_names (setSize size) _ p _ pre
          · rw [namesExtend_update_size]
            exact h
          · intro t pre1
            cases t <;> rfl

/-- The function `ramdisk_mkentry` keeps the names extending those of their parents. -/
theorem mkentry_names (root : FileInfo) (path : List Char) (isFile : Bool)
    (h : namesExtend ['/'] root = true) :
    namesExtend ['/'] (ramdisk_mkentry root path isFile).2 = true := by
  unfold ramdisk_mkentry
  split
  · exact h
  · cases hp : File_find_parent root path with
    | none => exact h
    | some fi =>
      dsimp only
      split
      · exact h
      · exact add_child_names ['/'] root fi path none 0 isFile .null .null h
          (parent_name root path fi h hp) rfl

/-- The function `File_remove_child` keeps the names extending those of their parents. -/
theorem remove_names (p : List Step) (destroy : Bool) (root : FileInfo) (pre : List Char)
    (h : namesExtend pre root = true) :
    namesExtend pre (File_remove_child p destroy root).1 = true := by
  unfold File_remove_child
  dsimp only
  cases destroy with
  | false => exact namesExtend_unlink p root pre h
  | true =>
    show namesExtend pre ((File_destroy (deref p root) false).foldl
      (fun t delta => File_update_size delta p t) (modifyAt FileInfo.next p root)) = true
    rw [(names_update_sizes _ p _).1]
    exact namesExtend_unlink p root pre h

/-- The function `ramdisk_unlink` keeps the names extending those of their parents. -/
theorem unlink_names (root : FileInfo) (path : List Char) (pre : List Char)
    (h : namesExtend pre root = true) :
    namesExtend pre (ramdisk_unlink root path).2 = true := by
  unfold ramdisk_unlink
  cases File_find path root with
  | none => exact h
  | some fi =>
    dsimp only
    split
    · exact h
    · exact remove_names fi true root pre h

/-- The function `ramdisk_rmdir` keeps the names extending those of their parents. -/
theorem rmdir_names (root : FileInfo) (path : List Char) (pre : List Char)
    (h : namesExtend pre root = true) :
    namesExtend pre (ramdisk_rmdir root path).2 = true := by
  unfold ramdisk_rmdir
  cases File_find path root with
  | none => exact h
  | some fi =>
    dsimp only
    split
    · exact h
    · split
      · exact h
      · split
        · exact h
        · exact remove_names fi true root pre h

/-- The function `ramdisk_write` changes no name. -/
theorem write_names (disk_size : Int) (root : FileInfo) (path : List Char) (buf : List Nat)
    (size : Nat) (offset : Int) (r : Int × FileInfo) (pre : List Char)
    (h : namesExtend pre root = true)
    (hr : ramdisk_write disk_size root path buf size offset = some r) :
    namesExtend pre r.2 = true := by
  unfold ramdisk_write at hr
  cases hfind : File_find path root with
  | none =>
    rw [hfind] at hr
    cases hr
    exact h
  | some file =>
    rw [hfind] at hr
    dsimp only at hr
    split at hr
    · cases hr
      exact h
    · have hres : ∀ res : Int × FileInfo, namesExtend pre res.2 = true →
          (if res.1 ≠ 0 then some res
            else if size = 0 then some (toInt size, res.2)
            else
              match (deref file res.2).data with
              | none => none
              | some b =>
                (memcpy offset buf size b).map
                  (fun b1 => (toInt size, modifyAt (setData (some b1)) file res.2))) = some r →
          namesExtend pre r.2 = true := by
        intro res hn hx
        by_cases hz : res.1 ≠ 0
        · rw [if_pos hz] at hx
          cases hx
          exact hn
        · rw [if_neg hz] at hx
          by_cases hs : size = 0
          · rw [if_pos hs] at hx
            rw [← Option.some.inj hx]
            exact hn
          · rw [if_neg hs] at hx
            cases hdata : (deref file res.2).data with
            | none =>
              rw [hdata] at hx
              exact absurd hx (by simp)
            | some b =>
              rw [hdata] at hx
              dsimp only at hx
              cases hm : memcpy offset buf size b with
              | none =>
                rw [hm] at hx
                exact absurd hx (by simp)
              | some b1 =>
                rw [hm] at hx
                rw [← Option.some.inj hx]
                exact store_names (setData (some b1)) (fun t pre1 => by cases t <;> rfl)
                  file res.2 pre hn
      refine hres _ ?_ hr
      split
      · exact resize_names disk_size root (some file) _ pre h
      · exact h

/-- The function `ramdisk_truncate` changes no name. -/
theorem truncate_names (disk_size : Int) (root : FileInfo) (path : List Char) (size : Int)
    (r : Int × FileInfo) (pre : List Char) (h : namesExtend pre root = true)
    (hr : ramdisk_truncate disk_size root path size = some r) :
    namesExtend pre r.2 = true := by
  unfold ramdisk_truncate at hr
  split at hr
  · cases hr
    exact h
  · cases hfind : File_find path root with
    | none =>
      rw [hfind] at hr
      cases hr
      exact h
    | some file =>
      rw [hfind] at hr
      dsimp only at hr
      split at hr
      · cases hr
        exact h
      · have hn := resize_names disk_size root (some file) size.toNat pre h
        have hres : ∀ res : Int × FileInfo, namesExtend pre res.2 = true →
            (if res.1 = 0 ∧ size > toInt ((deref file root).size : Int) then
              match (deref file res.2).data with
              | none => none
              | some b =>
                (memset (toInt ((deref file root).size : Int))
                  (size - toInt ((deref file root).size : Int)) b).map
                  (fun b1 => (res.1, modifyAt (setData (some b1)) file res.2))
              else some res) = some r →
            namesExtend pre r.2 = true := by
          intro res hn1 hx
          by_cases hz : res.1 = 0 ∧ size > toInt ((deref file root).size : Int)
          · rw [if_pos hz] at hx
            cases hdata : (deref file res.2).data with
            | none =>
              rw [hdata] at hx
              exact absurd hx (by simp)
            | some b =>
              rw [hdata] at hx
              dsimp only at hx
              cases hm : memset (toInt ((deref file root).size : Int))
                  (size - toInt ((deref file root).size : Int)) b with
              | none =>
                rw [hm] at hx
                exact absurd hx (by simp)
              | some b1 =>
                rw [hm] at hx
                cases hx
                exact store_names (setData (some b1)) (fun t pre1 => by cases t <;> rfl)
                  file res.2 pre hn1
          · rw [if_neg hz] at hx
            cases hx
            exact hn1
        exact hres _ hn hr

/-- Every call of `FsCall` keeps the names extending those of their parents. -/
theorem fsCall_names (disk_size : Int) (root : FileInfo) (c : FsCall) (r : Int × FileInfo)
    (h : namesExtend ['/'] root = true) (hr : fsCall disk_size root c = some r) :
    namesExtend ['/'] r.2 = true := by
  cases c with
  | mknod path =>
    cases hr
    exact mkentry_names root path true h
  | mkdir path =>
    cases hr
    exact mkentry_names root path false h
  | write path buf size offset => exact write_names disk_size root path buf size offset r _ h hr
  | truncate path size => exact truncate_names disk_size root path size r _ h hr
  | unlink path =>
    cases hr
    exact unlink_names root path _ h

/-- The last three calls of `ramdisk_rename` - the node at `f1` is taken out,
renamed and made a child of the node at `p2` - keep the names extending those of
their parents when the name of the new parent begins the new name. -/
theorem move_names (root1 : FileInfo) (f1 p1 p2 : List Step) (dst : List Char)
    (renamed : FileInfo) (h : namesExtend ['/'] root1 = true)
    (hpar : (deref p1 root1).name.isPrefixOf dst = true) (hp2 : rebase f1 p1 = some p2)
    (hren : File_rename dst (File_remove_child f1 false root1).2 = some renamed) :
    namesExtend ['/']
      (File_add_child p2 renamed (File_remove_child f1 false root1).1) = true := by
  have h1 : (File_remove_child f1 false root1).1 = modifyAt FileInfo.next f1 root1 := rfl
  have h2 : (File_remove_child f1 false root1).2 = setNext .null (deref f1 root1) := rfl
  rw [h1]
  rw [h2] at hren
  have hsub := namesExtend_deref ['/'] f1 root1 h
  cases hd : deref f1 root1 with
  | null =>
    rw [hd] at hren
    exact absurd hren (by simp [setNext, File_rename])
  | node o d s f ch nx =>
    rw [hd] at hren hsub
    have hch : namesExtend o ch = true := hsub
    have hr : File_rename dst (FileInfo.node o d s f ch .null) =
        some (.node dst d s f (mapNames (fun x => dst ++ x.drop o.length) ch) .null) := by
      show (renameChildren o.length dst ch).map (fun ch1 => FileInfo.node dst d s f ch1 .null) = _
      rw [renameChildren_names o dst ch hch]
      rfl
    have hren1 : File_rename dst (FileInfo.node o d s f ch .null) = some renamed := hren
    rw [hr] at hren1
    rw [← Option.some.inj hren1]
    apply add_child_names ['/'] _ p2 dst d s f _ .null (namesExtend_unlink f1 root1 _ h)
    · rw [rebase_name f1 p1 p2 root1 hp2]
      exact hpar
    · have hm := namesExtend_mapNames o dst o ch ((isPrefixOf_iff _ _).mpr ⟨[], by simp⟩) hch
      rw [List.drop_length, List.append_nil] at hm
      exact hm

/-- The function `ramdisk_rename` keeps the names extending those of their parents. -/
theorem rename_names (root : FileInfo) (src dst : List Char) (r : Int × FileInfo)
    (h : namesExtend ['/'] root = true) (hr : ramdisk_rename root src dst = some r) :
    namesExtend ['/'] r.2 = true := by
  unfold ramdisk_rename at hr
  by_cases h1 : src = dst
  · rw [if_pos h1] at hr
    rw [← Option.some.inj hr]
    exact h
  rw [if_neg h1] at hr
  by_cases h2 : src.isPrefixOf dst = true
  · rw [if_pos h2] at hr
    rw [← Option.some.inj hr]
    exact h
  rw [if_neg h2] at hr
  dsimp only at hr
  by_cases h3 : File_find src root = some [] ∨ File_find dst root = some []
  · rw [if_pos h3] at hr
    rw [← Option.some.inj hr]
    exact h
  rw [if_neg h3] at hr
  cases hfrom : File_find src root with
  | none =>
    rw [hfrom] at hr
    rw [← Option.some.inj hr]
    exact h
  | some fromfile =>
    cases hparent : File_find_parent root dst with
    | none =>
      rw [hfrom, hparent] at hr
      rw [← Option.some.inj hr]
      exact h
    | some parentfile =>
      rw [hfrom, hparent] at hr
      dsimp only at hr
      have hpn := parent_name root dst parentfile h hparent
      by_cases h4 : (deref parentfile root).isFile = true
      · rw [if_pos h4] at hr
        rw [← Option.some.inj hr]
        exact h
      rw [if_neg h4] at hr
      split at hr
      · rw [← Option.some.inj hr]
        exact h
      split at hr
      · rw [← Option.some.inj hr]
        exact h
      split at hr
      · rw [← Option.some.inj hr]
        exact h
      have key : ∀ root1 f1 p1, namesExtend ['/'] root1 = true →
          (deref p1 root1).name.isPrefixOf dst = true →
          (match rebase f1 p1, File_rename dst (File_remove_child f1 false root1).2 with
            | some p2, some renamed =>
              some ((0 : Int), File_add_child p2 renamed (File_remove_child f1 false root1).1)
            | none, some _ => some (0, (File_remove_child f1 false root1).1)
            | _, none => none) = some r →
          namesExtend ['/'] r.2 = true := by
        intro root1 f1 p1 hn hp hx
        cases hp2 : rebase f1 p1 with
        | none =>
          cases hren : File_rename dst (File_remove_child f1 false root1).2 with
          | none =>
            rw [hp2, hren] at hx
            exact absurd hx (by simp)
          | some renamed =>
            rw [hp2, hren] at hx
            rw [← Option.some.inj hx]
            exact remove_names f1 false root1 _ hn
        | some p2 =>
          cases hren : File_rename dst (File_remove_child f1 false root1).2 with
          | none =>
            rw [hp2, hren] at hx
            exact absurd hx (by simp)
          | some renamed =>
            rw [hp2, hren] at hx
            rw [← Option.some.inj hx]
            exact move_names root1 f1 p1 p2 dst renamed hn hp hp2 hren
      cases hto : File_find dst root with
      | none =>
        rw [hto] at hr
        exact key root fromfile parentfile h hpn hr
      | some t =>
        rw [hto] at hr
        dsimp only at hr
        cases hrf : rebase t fromfile with
        | none =>
          rw [hrf] at hr
          exact absurd hr (by simp)
        | some f1 =>
          cases hrp : rebase t parentfile with
          | none =>
            rw [hrf, hrp] at hr
            exact absurd hr (by simp)
          | some p1 =>
            rw [hrf, hrp] at hr
            dsimp only at hr
            by_cases hpo : parentOf t = some parentfile
            · rw [if_pos hpo] at hr
              dsimp only at hr
              apply key (File_remove_child t true root).1 f1 p1
                (remove_names t true root _ h) _ hr
              have hname : (deref p1 (File_remove_child t true root).1).name =
                  (deref parentfile root).name := by
                show (deref p1 ((File_destroy (deref t root) false).foldl
                  (fun t1 delta => File_update_size delta t t1)
                  (modifyAt FileInfo.next t root))).name = _
                rw [(names_update_sizes _ t _).2, rebase_name t parentfile p1 root hrp]
              rw [hname]
              exact hpn
            · rw [if_neg hpo] at hr
              exact absurd hr (by simp)

/-- Every call keeps the names extending those of their parents. -/
theorem treeCall_names (disk_size : Int) (root : FileInfo) (c : TreeCall)
    (r : Int × FileInfo) (h : namesExtend ['/'] root = true)
    (hr : treeCall disk_size root c = some r) : namesExtend ['/'] r.2 = true := by
  cases c with
  | fs c => exact fsCall_names disk_size root c r h hr
  | rmdir path =>
    have hx : some (ramdisk_rmdir root path) = some r := hr
    rw [← Option.some.inj hx]
    exact rmdir_names root path _ h
  | rename src dst => exact rename_names root src dst r h hr

/-- In every tree reached from the empty root the names extend those of their
parents. -/
theorem treeCalls_names (disk_size : Int) (cs : List TreeCall) :
    ∀ root root1 : FileInfo, namesExtend ['/'] root = true →
      treeCalls disk_size root cs = some root1 → namesExtend ['/'] root1 = true := by
  induction cs with
  | nil =>
    intro root root1 h hr
    have hx : some root = some root1 := hr
    rw [← Option.some.inj hx]
    exact h
  | cons c cs ih =>
    intro root root1 h hr
    have hx : (treeCall disk_size root c).bind (fun r => treeCalls disk_size r.2 cs) =
        some root1 := hr
    cases hc : treeCall disk_size root c with
    | none =>
      rw [hc] at hx
      exact absurd hx (by simp)
    | some r =>
      rw [hc] at hx
      exact ih r.2 root1 (treeCall_names disk_size root c r h hc) hx

/-! ## Recursive renaming -/

/-- C22: in every tree reached from the empty root by calls of the file system,
for every node `f` of the tree with old name `o` and every new name `n`,
`File_rename(f, n)` returns; afterwards the name of `f` is `n` and the name of
every descendant is `n` followed by its old name without the first `length(o)`
characters, while the shape of the tree and the flags, sizes and data of all
nodes are unchanged.  Every descendant's name then begins with `n`. -/
theorem C22_rename_names (disk_size : Int) (cs : List TreeCall) (root : FileInfo)
    (hrun : treeCalls disk_size (File_create "/".toList false) cs = some root)
    (p : List Step) (o : List Char) (d : Option (List (Option Nat))) (s : Nat) (f : Bool)
    (ch nx : FileInfo) (hp : deref p root = .node o d s f ch nx) (n : List Char) :
    (∀ nx1, File_rename n (.node o d s f ch nx1) =
        some (.node n d s f (mapNames (fun x => n ++ x.drop o.length) ch) nx1)) ∧
      allNames (fun x => n.isPrefixOf x) (mapNames (fun x => n ++ x.drop o.length) ch) = true := by
  have hroot := treeCalls_names disk_size cs _ root (by decide) hrun
  have hsub := namesExtend_deref ['/'] p root hroot
  rw [hp] at hsub
  have hch : namesExtend o ch = true := hsub
  constructor
  · intro nx1
    show (renameChildren o.length n ch).map (fun ch1 => FileInfo.node n d s f ch1 nx1) = _
    rw [renameChildren_names o n ch hch]
    rfl
  · rw [allNames_mapNames]
    have hall : ∀ t : FileInfo,
        allNames (fun x => n.isPrefixOf (n ++ x.drop o.length)) t = true := by
      intro t
      induction t with
      | null => rfl
      | node name d1 s1 f1 ch1 nx1 ihc ihn =>
        simp only [allNames, Bool.and_eq_true]
        exact ⟨⟨(isPrefixOf_iff _ _).mpr ⟨_, rfl⟩, ihc⟩, ihn⟩
    exact hall ch

/-- C22 (witness): the directory `/x` with the file `/x/f` is renamed to `/a` by
`ramdisk_rename`; `/a/b` and `/a/b/g` are created and a byte is written to
`/a/f`.  `File_rename` of the node `/a` of this tree to `/n` renames `/a/b`,
`/a/b/g` and `/a/f` to `/n/b`, `/n/b/g` and `/n/f`. -/
theorem C22_rename_names_witness :
    treeCalls 64 (File_create "/".toList false)
        [TreeCall.fs (FsCall.mkdir "/x".toList), TreeCall.fs (FsCall.mknod "/x/f".toList),
          TreeCall.rename "/x".toList "/a".toList, TreeCall.fs (FsCall.mkdir "/a/b".toList),
          TreeCall.fs (FsCall.mknod "/a/b/g".toList),
          TreeCall.fs (FsCall.write "/a/f".toList [7] 1 0)] =
      some (.node "/".toList none 1 false
        (.node "/a".toList none 1 false
          (.node "/a/b".toList none 0 false (.node "/a/b/g".toList none 0 true .null .null)
            (.node "/a/f".toList (some [some 7]) 1 true .null .null)) .null) .null) ∧
    File_rename "/n".toList
        (.node "/a".toList none 1 false
          (.node "/a/b".toList none 0 false (.node "/a/b/g".toList none 0 true .null .null)
            (.node "/a/f".toList (some [some 7]) 1 true .null .null)) .null) =
      some (.node "/n".toList none 1 false
        (.node "/n/b".toList none 0 false (.node "/n/b/g".toList none 0 true .null .null)
          (.node "/n/f".toList (some [some 7]) 1 true .null .null)) .null) :=
  ⟨by decide,
    (C22_rename_names 64
      [TreeCall.fs (FsCall.mkdir "/x".toList), TreeCall.fs (FsCall.mknod "/x/f".toList),
        TreeCall.rename "/x".toList "/a".toList, TreeCall.fs (FsCall.mkdir "/a/b".toList),
        TreeCall.fs (FsCall.mknod "/a/b/g".toList),
        TreeCall.fs (FsCall.write "/a/f".toList [7] 1 0)]
      (.node "/".toList none 1 false
        (.node "/a".toList none 1 false
          (.node "/a/b".toList none 0 false (.node "/a/b/g".toList none 0 true .null .null)
            (.node "/a/f".toList (some [some 7]) 1 true .null .null)) .null) .null)
      (by decide) [Step.children] "/a".toList none 1 false
      (.node "/a/b".toList none 0 false (.node "/a/b/g".toList none 0 true .null .null)
        (.node "/a/f".toList (some [some 7]) 1 true .null .null)) .null rfl
      "/n".toList).1 .null⟩

/-- The files of a subtree are files of the tree. -/
theorem totalSize_deref_le (p : List Step) (t : FileInfo) :
    totalSize (deref p t) ≤ totalSize t := by
  induction p generalizing t with
  | nil => exact le_refl _
  | cons c q ih =>
    cases t with
    | null => rw [deref_null]
    | node n d s f ch nx =>
      cases c with
      | children =>
        have h := ih ch
        show totalSize (deref q ch) ≤ _
        simp only [totalSize]
        omega
      | next =>
        have h := ih nx
        show totalSize (deref q nx) ≤ _
        simp only [totalSize]
        omega

/-- The total after a store at a position. -/
theorem totalSize_modifyAt (g : FileInfo → FileInfo) (hg : g .null = .null) (p : List Step)
    (t : FileInfo) :
    totalSize (modifyAt g p t) + totalSize (deref p t) =
      totalSize t + totalSize (g (deref p t)) := by
  induction p generalizing t with
  | nil => exact Nat.add_comm _ _
  | cons c q ih =>
    cases t with
    | null =>
      rw [deref_null, modifyAt_null g hg, hg]
    | node n d s f ch nx =>
      cases c with
      | children =>
        have h := ih ch
        show totalSize (FileInfo.node n d s f (modifyAt g q ch) nx) + totalSize (deref q ch) =
          _ + totalSize (g (deref q ch))
        simp only [totalSize]
        omega
      | next =>
        have h := ih nx
        show totalSize (FileInfo.node n d s f ch (modifyAt g q nx)) + totalSize (deref q nx) =
          _ + totalSize (g (deref q nx))
        simp only [totalSize]
        omega

/-- A store at a position keeps the tree regular when what it stores is regular. -/
theorem regular_modifyAt (g : FileInfo → FileInfo) (hg : g .null = .null) (p : List Step)
    (t : FileInfo) (h : Regular t) (hr : Regular (g (deref p t))) :
    Regular (modifyAt g p t) := by
  induction p generalizing t with
  | nil => exact hr
  | cons c q ih =>
    cases t with
    | null => rw [modifyAt_null g hg]; trivial
    | node n d s f ch nx =>
      rw [regular_node] at h
      cases c with
      | children =>
        show Regular (FileInfo.node n d s f (modifyAt g q ch) nx)
        rw [regular_node]
        refine ⟨?_, h.2.1, h.2.2.1, ih ch h.2.2.2.1 hr, h.2.2.2.2⟩
        intro hf
        obtain ⟨hch, hd⟩ := h.1 hf
        rw [hch, modifyAt_null g hg]
        exact ⟨rfl, hd⟩
      | next =>
        show Regular (FileInfo.node n d s f ch (modifyAt g q nx))
        rw [regular_node]
        exact ⟨h.1, h.2.1, h.2.2.1, h.2.2.2.1, ih nx h.2.2.2.2 hr⟩

/-- The function `File_update_size` above a node of a regular tree changes directories only. -/
theorem update_size_regular (delta : Int) (p : List Step) (t : FileInfo) (h : Regular t)
    (hp : deref p t ≠ .null) :
    totalSize (File_update_size delta p t) = totalSize t ∧
      Regular (File_update_size delta p t) := by
  induction p generalizing t with
  | nil => exact ⟨rfl, h⟩
  | cons c q ih =>
    cases t with
    | null => exact absurd (deref_null _) hp
    | node n d s f ch nx =>
      rw [regular_node] at h
      cases c with
      | children =>
        have hq : deref q ch ≠ .null := hp
        have hf : f = false := by
          cases f with
          | false => rfl
          | true =>
            rw [(h.1 rfl).1, deref_null] at hq
            exact absurd rfl hq
        have hd : d = none := h.2.1 hf
        obtain ⟨h1, h2⟩ := ih ch h.2.2.2.1 hq
        subst hf
        subst hd
        show totalSize (FileInfo.node n none _ false (File_update_size delta q ch) nx) = _ ∧
          Regular (FileInfo.node n none _ false (File_update_size delta q ch) nx)
        rw [regular_node]
        refine ⟨?_, fun hx => absurd hx (by simp), fun _ => rfl,
          fun b hb => absurd hb (by simp), h2, h.2.2.2.2⟩
        simp only [totalSize, h1]
        simp
      | next =>
        have hq : deref q nx ≠ .null := hp
        obtain ⟨h1, h2⟩ := ih nx h.2.2.2.2 hq
        show totalSize (FileInfo.node n d s f ch (File_update_size delta q nx)) = _ ∧
          Regular (FileInfo.node n d s f ch (File_update_size delta q nx))
        rw [regular_node]
        refine ⟨?_, h.1, h.2.1, h.2.2.1, h.2.2.2.1, h2⟩
        simp only [totalSize, h1]

/-! ## The quota -/

/-- The quota facts for a root that is a directory without siblings. -/
theorem quota_mk (disk_size : Int) (n : List Char) (s : Nat)
    (ch : FileInfo) (hreg : Regular ch) (htot : s = totalSize ch)
    (hb : (s : Int) ≤ disk_size) :
    Quota disk_size (.node n none s false ch .null) where
  node := by simp
  dir := rfl
  single := rfl
  regular := by
    rw [regular_node]
    exact ⟨fun hx => absurd hx (by simp), fun _ => rfl, fun b hb => absurd hb (by simp),
      hreg, trivial⟩
  total := by
    show s = totalSize (FileInfo.node n none s false ch .null)
    simp only [totalSize]
    simpa using htot
  bound := hb

/-- Where a regular file stands in a tree that satisfies the quota facts. -/
theorem file_position (disk_size : Int) (root : FileInfo) (p : List Step)
    (hq : Quota disk_size root) (hf : (deref p root).isFile = true) :
    ∃ n s ch r, root = .node n none s false ch .null ∧ p = Step.children :: r ∧
      s = totalSize ch ∧ Regular ch ∧ (s : Int) ≤ disk_size ∧
      ∃ nm fd fs nx1, deref r ch = .node nm fd fs true .null nx1 ∧
        (fd = none → fs = 0) ∧ (∀ b, fd = some b → b.length = fs) ∧ Regular nx1 ∧ fs ≤ s := by
  cases root with
  | null => exact absurd rfl hq.node
  | node n d s f ch nx =>
    have hdir : f = false := hq.dir
    have hnx : nx = .null := hq.single
    subst hdir
    subst hnx
    have hreg := hq.regular
    rw [regular_node] at hreg
    have hd : d = none := hreg.2.1 rfl
    subst hd
    have htot : s = totalSize ch := by
      have h := hq.total
      simp only [FileInfo.size, totalSize] at h
      simpa using h
    cases p with
    | nil => exact absurd hf (by simp [deref, FileInfo.isFile])
    | cons c r =>
      cases c with
      | next =>
        have h : deref (Step.next :: r) (FileInfo.node n none s false ch .null) = .null :=
          deref_null r
        rw [h] at hf
        exact absurd hf (by simp [FileInfo.isFile])
      | children =>
        have h : deref (Step.children :: r) (FileInfo.node n none s false ch .null) =
            deref r ch := rfl
        rw [h] at hf
        have hsub := regular_deref r ch hreg.2.2.2.1
        have hle := totalSize_deref_le r ch
        cases hd : deref r ch with
        | null =>
          rw [hd] at hf
          exact absurd hf (by simp [FileInfo.isFile])
        | node nm fd fs ff c1 nx1 =>
          rw [hd] at hf hsub hle
          have hff : ff = true := hf
          subst hff
          rw [regular_node] at hsub
          obtain ⟨hc1, hdata⟩ := hsub.1 rfl
          subst hc1
          simp only [totalSize] at hle
          refine ⟨n, s, ch, r, rfl, rfl, htot, hreg.2.2.2.1, hq.bound, nm, fd, fs, nx1, hd,
            hdata, hsub.2.2.1, hsub.2.2.2.2, ?_⟩
          simp only [if_true] at hle
          omega

/-- A store into a regular file together with `File_update_size` above it. -/
theorem chain_store (g : FileInfo → FileInfo) (hg : g .null = .null) (delta : Int)
    (r : List Step) (ch : FileInfo) (nm : List Char) (fd : Option (List (Option Nat)))
    (fs : Nat) (nx1 : FileInfo) (fs1 : Nat) (hreg : Regular ch)
    (hd : deref r ch = .node nm fd fs true .null nx1)
    (hgr : Regular (g (.node nm fd fs true .null nx1)))
    (hgt : totalSize (g (.node nm fd fs true .null nx1)) = fs1 + totalSize nx1) :
    Regular (modifyAt g r (File_update_size delta r ch)) ∧
      totalSize (modifyAt g r (File_update_size delta r ch)) + fs = totalSize ch + fs1 := by
  have hne : deref r ch ≠ .null := by
    rw [hd]
    simp
  obtain ⟨h1, h2⟩ := update_size_regular delta r ch hreg hne
  have hu := deref_update_size delta r ch
  rw [hd] at hu
  refine ⟨regular_modifyAt g hg r _ h2 (by rw [hu]; exact hgr), ?_⟩
  have h := totalSize_modifyAt g hg r (File_update_size delta r ch)
  rw [hu, h1, hgt] at h
  simp only [totalSize] at h
  simp only [if_true] at h
  omega

/-- The function `File_resize` on a regular file. -/
theorem resize_eq (disk_size : Int) (root : FileInfo) (p : List Step) (size : Nat)
    (hf : (deref p root).isFile = true) :
    File_resize disk_size root (some p) size =
      if (deref p root).size = size then (0, root)
      else if toUInt ((root.size : Int) + toInt ((size : Int) - ((deref p root).size : Int))) >
          toUInt disk_size then (-ENOSPC, root)
      else (0, modifyAt (setSize size) p
        (File_update_size (toInt ((size : Int) - ((deref p root).size : Int))) p root)) := by
  unfold File_resize
  simp only [hf, Bool.not_true, Bool.false_eq_true, if_false]

/-- The length of the buffer `realloc` returns. -/
theorem realloc_length (d : Option (List (Option Nat))) (size : Nat) :
    (realloc d size).length = size := by
  unfold realloc
  rw [List.length_append, List.length_take, List.length_replicate]
  omega

/-- The function `File_resize` keeps the quota facts and refuses a size that exceeds the
disk; when it changes the tree, the file has the new size and a buffer of that
many bytes. -/
theorem resize_quota (disk_size : Int) (root : FileInfo) (p : List Step) (size : Nat)
    (hq : Quota disk_size root) (hmax : disk_size ≤ 2147483647)
    (hf : (deref p root).isFile = true) (hs : size < 2147483648) :
    Quota disk_size (File_resize disk_size root (some p) size).2 ∧
      ((root.size : Int) + ((size : Int) - ((deref p root).size : Int)) > disk_size →
        File_resize disk_size root (some p) size = (-ENOSPC, root)) ∧
      ((File_resize disk_size root (some p) size).1 = 0 →
        (deref p (File_resize disk_size root (some p) size).2).isFile = true ∧
        (deref p (File_resize disk_size root (some p) size).2).size = size) := by
  rw [resize_eq disk_size root p size hf]
  obtain ⟨n, s, ch, r, hroot, hp, htot, hreg, hb, nm, fd, fs, nx1, hd, hdata, hlen, hnx1,
    hle⟩ := file_position disk_size root p hq hf
  subst hroot
  subst hp
  have hd1 : deref (Step.children :: r) (FileInfo.node n none s false ch .null) =
      .node nm fd fs true .null nx1 := hd
  rw [hd1]
  simp only [FileInfo.size]
  have hdelta : toInt ((size : Int) - (fs : Int)) = (size : Int) - (fs : Int) :=
    toInt_of_range _ (by omega) (by omega)
  rw [hdelta]
  have hsum : ((toUInt ((s : Int) + ((size : Int) - (fs : Int))) : Nat) : Int) =
      (s : Int) + ((size : Int) - (fs : Int)) :=
    toUInt_of_range _ (by omega) (by omega)
  have hdisk : ((toUInt disk_size : Nat) : Int) = disk_size :=
    toUInt_of_range _ (by omega) (by omega)
  by_cases heq : fs = size
  · rw [if_pos heq]
    refine ⟨hq, ?_, ?_⟩
    · intro h
      omega
    · intro _
      show (deref (Step.children :: r) (FileInfo.node n none s false ch .null)).isFile = true ∧
        (deref (Step.children :: r) (FileInfo.node n none s false ch .null)).size = size
      rw [hd1]
      exact ⟨rfl, heq⟩
  · rw [if_neg heq]
    by_cases hgt : toUInt ((s : Int) + ((size : Int) - (fs : Int))) > toUInt disk_size
    · rw [if_pos hgt]
      exact ⟨hq, fun _ => rfl, fun h => absurd h (by simp [ENOSPC])⟩
    · rw [if_neg hgt]
      have hmod : size % 4294967296 = size := Nat.mod_eq_of_lt (by omega)
      refine ⟨?_, ?_, ?_⟩
      · show Quota disk_size (FileInfo.node n none
          (toUInt ((s : Int) + ((size : Int) - (fs : Int))))
          false (modifyAt (setSize size) r
            (File_update_size ((size : Int) - (fs : Int)) r ch)) .null)
        obtain ⟨h1, h2⟩ := chain_store (setSize size) rfl ((size : Int) - (fs : Int)) r ch
          nm fd fs nx1 size hreg hd
          (by
            show Regular (FileInfo.node nm
              (if size = 0 then none else some (realloc fd (size % 4294967296)))
              (size % 4294967296) true .null nx1)
            rw [regular_node]
            refine ⟨fun _ => ⟨rfl, ?_⟩, fun hx => absurd hx (by simp), ?_, trivial, hnx1⟩
            · intro h0
              by_cases hz : size = 0
              · rw [hz]
              · rw [if_neg hz] at h0
                exact absurd h0 (by simp)
            · intro b hb
              by_cases hz : size = 0
              · rw [if_pos hz] at hb
                exact absurd hb (by simp)
              · rw [if_neg hz] at hb
                cases hb
                exact realloc_length _ _)
          (by
            simp only [setSize, totalSize, hmod]
            simp)
        apply quota_mk disk_size n _ _ h1
        · omega
        · omega
      · intro h
        omega
      · intro _
        show (deref r (modifyAt (setSize size) r
            (File_update_size ((size : Int) - (fs : Int)) r ch))).isFile = true ∧
          (deref r (modifyAt (setSize size) r
            (File_update_size ((size : Int) - (fs : Int)) r ch))).size = size
        rw [deref_modifyAt (setSize size) rfl, deref_update_size, hd]
        exact ⟨rfl, hmod⟩

/-- The function `File_remove_child` with `destroy` on a regular file keeps the quota facts. -/
theorem remove_quota (disk_size : Int) (root : FileInfo) (p : List Step)
    (hq : Quota disk_size root) (hmax : disk_size ≤ 2147483647)
    (hf : (deref p root).isFile = true) :
    Quota disk_size (File_remove_child p true root).1 := by
  obtain ⟨n, s, ch, r, hroot, hp, htot, hreg, hb, nm, fd, fs, nx1, hd, hdata, hlen, hnx1,
    hle⟩ := file_position disk_size root p hq hf
  subst hroot
  subst hp
  have hd1 : deref (Step.children :: r) (FileInfo.node n none s false ch .null) =
      .node nm fd fs true .null nx1 := hd
  unfold File_remove_child
  simp only [if_true]
  rw [hd1]
  cases fd with
  | none =>
    have hfs : fs = 0 := hdata rfl
    show Quota disk_size (FileInfo.node n none s false (modifyAt FileInfo.next r ch) .null)
    have h1 := regular_modifyAt FileInfo.next rfl r ch hreg (by rw [hd]; exact hnx1)
    have h2 := totalSize_modifyAt FileInfo.next rfl r ch
    rw [hd] at h2
    simp only [totalSize, FileInfo.next, if_true] at h2
    apply quota_mk disk_size n _ _ h1
    · omega
    · exact hb
  | some b =>
    have hdelta : toInt (-(fs : Int)) = -(fs : Int) := toInt_of_range _ (by omega) (by omega)
    show Quota disk_size (FileInfo.node n none (toUInt ((s : Int) + toInt (-(fs : Int)))) false
      (File_update_size (toInt (-(fs : Int))) r (modifyAt FileInfo.next r ch)) .null)
    rw [update_size_modifyAt, hdelta]
    have hsum : ((toUInt ((s : Int) + -(fs : Int)) : Nat) : Int) = (s : Int) + -(fs : Int) :=
      toUInt_of_range _ (by omega) (by omega)
    obtain ⟨h1, h2⟩ := chain_store FileInfo.next rfl (-(fs : Int)) r ch nm (some b) fs nx1 0
      hreg hd hnx1 (by simp [FileInfo.next])
    apply quota_mk disk_size n _ _ h1
    · omega
    · omega

/-- A store that changes neither sizes nor kinds nor the sibling links keeps the
quota facts. -/
theorem quota_modifyAt (disk_size : Int) (g : FileInfo → FileInfo) (hg : g .null = .null)
    (htop : ∀ t, (g t).size = t.size ∧ (g t).isFile = t.isFile ∧ (g t).next = t.next ∧
      (t ≠ .null → g t ≠ .null))
    (htot : ∀ t, totalSize (g t) = totalSize t) (p : List Step) (root : FileInfo)
    (hq : Quota disk_size root) (hreg : Regular (g (deref p root))) :
    Quota disk_size (modifyAt g p root) := by
  have hr := regular_modifyAt g hg p root hq.regular hreg
  have ht := totalSize_modifyAt g hg p root
  rw [htot] at ht
  have ht1 : totalSize (modifyAt g p root) = totalSize root := by omega
  have hfields : (modifyAt g p root).size = root.size ∧
      (modifyAt g p root).isFile = root.isFile ∧ (modifyAt g p root).next = root.next ∧
      modifyAt g p root ≠ .null := by
    cases p with
    | nil =>
      obtain ⟨h1, h2, h3, h4⟩ := htop root
      exact ⟨h1, h2, h3, h4 hq.node⟩
    | cons c r =>
      cases root with
      | null => exact absurd rfl hq.node
      | node n d s f ch nx =>
        cases c with
        | children => exact ⟨rfl, rfl, rfl, by simp [modifyAt]⟩
        | next =>
          have hnx : nx = .null := hq.single
          subst hnx
          refine ⟨rfl, rfl, ?_, by simp [modifyAt]⟩
          show modifyAt g r .null = .null
          exact modifyAt_null g hg r
  exact
    { node := hfields.2.2.2
      dir := by rw [hfields.2.1]; exact hq.dir
      single := by rw [hfields.2.2.1]; exact hq.single
      regular := hr
      total := by rw [hfields.1, ht1]; exact hq.total
      bound := by rw [hfields.1]; exact hq.bound }

/-- The function `ramdisk_mkentry` keeps the quota facts. -/
theorem mkentry_quota (disk_size : Int) (root : FileInfo) (path : List Char) (isFile : Bool)
    (hq : Quota disk_size root) :
    Quota disk_size (ramdisk_mkentry root path isFile).2 := by
  unfold ramdisk_mkentry
  by_cases h1 : File_find path root ≠ none
  · rw [if_pos h1]
    exact hq
  · rw [if_neg h1]
    cases hp : File_find_parent root path with
    | none => exact hq
    | some fi =>
      show Quota disk_size (if (deref fi root).isFile = true then (-ENOTDIR, root)
        else (0, File_add_child fi (File_create path isFile) root)).2
      by_cases h2 : (deref fi root).isFile = true
      · rw [if_pos h2]
        exact hq
      · rw [if_neg h2]
        apply quota_modifyAt disk_size _ rfl _ _ fi root hq
        · have hsub := regular_deref fi root hq.regular
          cases hd : deref fi root with
          | null => trivial
          | node n d s f ch nx =>
            rw [hd] at h2 hsub
            have hf : f = false := by
              cases f with
              | false => rfl
              | true => exact absurd rfl h2
            subst hf
            rw [regular_node] at hsub
            show Regular (FileInfo.node n d s false
              (FileInfo.node path none 0 isFile .null ch) nx)
            rw [regular_node, regular_node]
            exact ⟨fun hx => absurd hx (by simp), hsub.2.1, hsub.2.2.1,
              ⟨fun _ => ⟨rfl, fun _ => rfl⟩, fun _ => rfl, fun b hb => absurd hb (by simp),
                trivial, hsub.2.2.2.1⟩, hsub.2.2.2.2⟩
        · intro t
          cases t with
          | null => exact ⟨rfl, rfl, rfl, fun h => h⟩
          | node n d s f ch nx => exact ⟨rfl, rfl, rfl, fun _ => by simp⟩
        · intro t
          cases t with
          | null => rfl
          | node n d s f ch nx =>
            simp only [totalSize, setNext, File_create]
            simp

/-- A store of as many bytes as it held into the buffer of a regular file keeps
the quota facts. -/
theorem setData_quota (disk_size : Int) (b b1 : List (Option Nat)) (p : List Step)
    (root : FileInfo) (hq : Quota disk_size root) (hf : (deref p root).isFile = true)
    (hb : (deref p root).data = some b) (hlen : b1.length = b.length) :
    Quota disk_size (modifyAt (setData (some b1)) p root) := by
  apply quota_modifyAt disk_size _ rfl _ _ p root hq
  · have hsub := regular_deref p root hq.regular
    cases hd : deref p root with
    | null => trivial
    | node n d s f ch nx =>
      rw [hd] at hsub hf hb
      have hff : f = true := hf
      have hdd : d = some b := hb
      subst hff
      subst hdd
      rw [regular_node] at hsub
      show Regular (FileInfo.node n (some b1) s true ch nx)
      rw [regular_node]
      refine ⟨fun _ => ⟨(hsub.1 rfl).1, fun hx => absurd hx (by simp)⟩,
        fun hx => absurd hx (by simp), ?_, hsub.2.2.2⟩
      intro b2 hb2
      cases hb2
      rw [hlen]
      exact hsub.2.2.1 b rfl
  · intro t
    cases t with
    | null => exact ⟨rfl, rfl, rfl, fun h => h⟩
    | node n d s f ch nx => exact ⟨rfl, rfl, rfl, fun _ => by simp [setData]⟩
  · intro t
    cases t with
    | null => rfl
    | node n d s f ch nx => rfl

/-- The buffer of a regular file of a regular tree. -/
theorem file_buffer (t : FileInfo) (hreg : Regular t) (hf : t.isFile = true)
    (hs : t.size ≠ 0) : ∃ b, t.data = some b ∧ b.length = t.size := by
  cases t with
  | null => exact absurd hf (by simp [FileInfo.isFile])
  | node n d s f ch nx =>
    rw [regular_node] at hreg
    have hff : f = true := hf
    cases d with
    | none => exact absurd ((hreg.1 hff).2 rfl) hs
    | some b => exact ⟨b, rfl, hreg.2.2.1 b rfl⟩

/-- A `memcpy` inside the buffer returns a buffer of the same length. -/
theorem memcpy_some (offset : Int) (buf : List Nat) (size : Nat) (b : List (Option Nat))
    (h0 : 0 ≤ offset) (h : offset + (size : Int) ≤ (b.length : Int)) :
    ∃ b1, memcpy offset buf size b = some b1 ∧ b1.length = b.length := by
  unfold memcpy
  rw [if_pos ⟨h0, h⟩]
  refine ⟨_, rfl, ?_⟩
  simp only [List.length_append, List.length_take, List.length_drop, List.length_map,
    List.length_replicate]
  omega

/-- A `memset` inside the buffer returns a buffer of the same length. -/
theorem memset_some (start n : Int) (b : List (Option Nat)) (h0 : 0 ≤ start) (hn : 0 ≤ n)
    (h : start + n ≤ (b.length : Int)) :
    ∃ b1, memset start n b = some b1 ∧ b1.length = b.length := by
  unfold memset
  rw [if_pos ⟨h0, hn, h⟩]
  refine ⟨_, rfl, ?_⟩
  simp only [List.length_append, List.length_take, List.length_drop, List.length_replicate]
  omega

/-- The function `ramdisk_write` returns and keeps the quota facts. -/
theorem write_quota (disk_size : Int) (root : FileInfo) (path : List Char) (buf : List Nat)
    (size : Nat) (offset : Int) (hq : Quota disk_size root) (hmax : disk_size ≤ 2147483647)
    (h0 : 0 ≤ offset) (h1 : offset + size < 2147483648) :
    ∃ r, ramdisk_write disk_size root path buf size offset = some r ∧
      Quota disk_size r.2 := by
  unfold ramdisk_write
  cases hfind : File_find path root with
  | none => exact ⟨_, rfl, hq⟩
  | some file =>
    by_cases hf : (deref file root).isFile = true
    · simp only [hf, Bool.not_true, Bool.false_eq_true, if_false]
      obtain ⟨n, s, ch, r, hroot, hp, htot, hreg, hb, nm, fd, fs, nx1, hd, hdata, hlen,
        hnx1, hle⟩ := file_position disk_size root file hq hf
      have hd1 : (deref file root).size = fs := by
        rw [hroot, hp]
        show (deref r ch).size = fs
        rw [hd]
        rfl
      rw [hd1]
      have hdelta : toInt (offset + (size : Int) - (fs : Int)) =
          offset + (size : Int) - (fs : Int) :=
        toInt_of_range _ (by omega) (by omega)
      rw [hdelta]
      have hnew : ((toUInt ((fs : Int) + (offset + (size : Int) - (fs : Int))) : Nat) : Int) =
          (fs : Int) + (offset + (size : Int) - (fs : Int)) :=
        toUInt_of_range _ (by omega) (by omega)
      have hres : ∃ res : Int × FileInfo,
          (if offset + (size : Int) - (fs : Int) > 0 then
            File_resize disk_size root (some file)
              (toUInt ((fs : Int) + (offset + (size : Int) - (fs : Int))))
          else ((0 : Int), root)) = res ∧ Quota disk_size res.2 ∧
          (res.1 = 0 → (deref file res.2).isFile = true ∧
            offset + (size : Int) ≤ ((deref file res.2).size : Int)) := by
        by_cases hadd : offset + (size : Int) - (fs : Int) > 0
        · rw [if_pos hadd]
          obtain ⟨hq1, _, hsz⟩ := resize_quota disk_size root file
            (toUInt ((fs : Int) + (offset + (size : Int) - (fs : Int)))) hq hmax hf (by omega)
          refine ⟨_, rfl, hq1, ?_⟩
          intro hz
          obtain ⟨hf1, hs1⟩ := hsz hz
          refine ⟨hf1, ?_⟩
          rw [hs1]
          omega
        · rw [if_neg hadd]
          refine ⟨_, rfl, hq, ?_⟩
          intro _
          refine ⟨hf, ?_⟩
          rw [hd1]
          omega
      obtain ⟨res, hres1, hq1, hsz⟩ := hres
      rw [hres1]
      by_cases hz : res.1 ≠ 0
      · rw [if_pos hz]
        exact ⟨_, rfl, hq1⟩
      · rw [if_neg hz]
        by_cases hsize : size = 0
        · rw [if_pos hsize]
          exact ⟨_, rfl, hq1⟩
        · rw [if_neg hsize]
          obtain ⟨hf1, hs1⟩ := hsz (not_not.mp hz)
          obtain ⟨b, hb1, hb2⟩ := file_buffer (deref file res.2)
            (regular_deref file res.2 hq1.regular) hf1 (by omega)
          rw [hb1]
          obtain ⟨b1, hm, hl⟩ := memcpy_some offset buf size b h0 (by rw [hb2]; exact hs1)
          dsimp only
          rw [hm]
          exact ⟨_, rfl, setData_quota disk_size b b1 file res.2 hq1 hf1 hb1 hl⟩
    · simp only [hf, Bool.not_false, if_true]
      exact ⟨_, rfl, hq⟩

/-- The function `ramdisk_truncate` returns and keeps the quota facts. -/
theorem truncate_quota (disk_size : Int) (root : FileInfo) (path : List Char) (size : Int)
    (hq : Quota disk_size root) (hmax : disk_size ≤ 2147483647) (h1 : size < 2147483648) :
    ∃ r, ramdisk_truncate disk_size root path size = some r ∧ Quota disk_size r.2 := by
  unfold ramdisk_truncate
  by_cases hneg : size < 0
  · rw [if_pos hneg]
    exact ⟨_, rfl, hq⟩
  · rw [if_neg hneg]
    cases hfind : File_find path root with
    | none => exact ⟨_, rfl, hq⟩
    | some file =>
      by_cases hf : (deref file root).isFile = true
      · simp only [hf, Bool.not_true, Bool.false_eq_true, if_false]
        obtain ⟨n, s, ch, r, hroot, hp, htot, hreg, hb, nm, fd, fs, nx1, hd, hdata, hlen,
          hnx1, hle⟩ := file_position disk_size root file hq hf
        have hd1 : (deref file root).size = fs := by
          rw [hroot, hp]
          show (deref r ch).size = fs
          rw [hd]
          rfl
        rw [hd1]
        have hold : toInt ((fs : Nat) : Int) = (fs : Int) :=
          toInt_of_range _ (by omega) (by omega)
        rw [hold]
        obtain ⟨hq1, _, hsz⟩ := resize_quota disk_size root file size.toNat hq hmax hf
          (by omega)
        by_cases hz : (File_resize disk_size root (some file) size.toNat).1 = 0 ∧
            size > (fs : Int)
        · rw [if_pos hz]
          obtain ⟨hf1, hs1⟩ := hsz hz.1
          obtain ⟨b, hb1, hb2⟩ := file_buffer
            (deref file (File_resize disk_size root (some file) size.toNat).2)
            (regular_deref file _ hq1.regular) hf1 (by omega)
          rw [hb1]
          obtain ⟨b1, hm, hl⟩ := memset_some (fs : Int) (size - (fs : Int)) b (by omega)
            (by omega) (by rw [hb2, hs1]; omega)
          dsimp only
          rw [hm]
          exact ⟨_, rfl, setData_quota disk_size b b1 file _ hq1 hf1 hb1 hl⟩
        · rw [if_neg hz]
          exact ⟨_, rfl, hq1⟩
      · simp only [hf, Bool.not_false, if_true]
        exact ⟨_, rfl, hq⟩

/-- The function `ramdisk_unlink` keeps the quota facts. -/
theorem unlink_quota (disk_size : Int) (root : FileInfo) (path : List Char)
    (hq : Quota disk_size root) (hmax : disk_size ≤ 2147483647) :
    Quota disk_size (ramdisk_unlink root path).2 := by
  unfold ramdisk_unlink
  cases hfind : File_find path root with
  | none => exact hq
  | some fi =>
    by_cases hf : (deref fi root).isFile = true
    · simp only [hf, Bool.not_true, Bool.false_eq_true, if_false]
      exact remove_quota disk_size root fi hq hmax hf
    · simp only [hf, Bool.not_false, if_true]
      exact hq

/-- Every call returns and keeps the quota facts. -/
theorem fsCall_quota (disk_size : Int) (root : FileInfo) (c : FsCall)
    (hq : Quota disk_size root) (hmax : disk_size ≤ 2147483647) (hb : bounded c = true) :
    ∃ r, fsCall disk_size root c = some r ∧ Quota disk_size r.2 := by
  cases c with
  | mknod path => exact ⟨_, rfl, mkentry_quota disk_size root path true hq⟩
  | mkdir path => exact ⟨_, rfl, mkentry_quota disk_size root path false hq⟩
  | write path buf size offset =>
    simp only [bounded, decide_eq_true_eq] at hb
    exact write_quota disk_size root path buf size offset hq hmax hb.1 hb.2
  | truncate path size =>
    simp only [bounded, decide_eq_true_eq] at hb
    exact truncate_quota disk_size root path size hq hmax hb
  | unlink path => exact ⟨_, rfl, unlink_quota disk_size root path hq hmax⟩

/-- Every sequence of calls returns and keeps the quota facts. -/
theorem fsCalls_quota (disk_size : Int) (root : FileInfo) (cs : List FsCall)
    (hq : Quota disk_size root) (hmax : disk_size ≤ 2147483647)
    (hb : ∀ c ∈ cs, bounded c = true) :
    ∃ root1, fsCalls disk_size root cs = some root1 ∧ Quota disk_size root1 := by
  induction cs generalizing root with
  | nil => exact ⟨root, rfl, hq⟩
  | cons c cs ih =>
    obtain ⟨r, hr, hq1⟩ := fsCall_quota disk_size root c hq hmax
      (hb c (List.mem_cons_self c cs))
    obtain ⟨root1, h1, h2⟩ := ih r.2 hq1 (fun c1 h1 => hb c1 (List.mem_cons_of_mem c h1))
    refine ⟨root1, ?_, h2⟩
    show (fsCall disk_size root c).bind (fun r => fsCalls disk_size r.2 cs) = some root1
    rw [hr]
    exact h1

/-- C23: let `0 < disk_size` and let a sequence of calls of `ramdisk_mknod`,
`ramdisk_mkdir`, `ramdisk_write`, `ramdisk_truncate` and `ramdisk_unlink` with
sizes below `2^31` be made from the empty root.  Every call returns, and in the
tree reached the `size` of the root is the total of the file sizes and does not
exceed `disk_size`; `File_resize` of a regular file to a size with
`root.size + (size - file.size) > disk_size` returns `-ENOSPC` and leaves the
tree as it is. -/
theorem C23_quota (disk_size : Int) (cs : List FsCall) (hpos : 0 < disk_size)
    (hmax : disk_size ≤ 2147483647) (hb : ∀ c ∈ cs, bounded c = true) :
    ∃ root, fsCalls disk_size (File_create "/".toList false) cs = some root ∧
      (root.size : Int) ≤ disk_size ∧ root.size = totalSize root ∧
      ∀ (file : List Step) (size : Nat),
        (deref file root).isFile = true → size < 2147483648 →
        (root.size : Int) + ((size : Int) - ((deref file root).size : Int)) > disk_size →
        File_resize disk_size root (some file) size = (-ENOSPC, root) := by
  have h0 : Quota disk_size (File_create "/".toList false) :=
    quota_mk disk_size _ 0 .null trivial rfl (by simpa using le_of_lt hpos)
  obtain ⟨root, hrun, hq⟩ := fsCalls_quota disk_size _ cs h0 hmax hb
  exact ⟨root, hrun, hq.bound, hq.total, fun file size hf hs hgt =>
    (resize_quota disk_size root file size hq hmax hf hs).2.1 hgt⟩

/-- C23 (witness): on a disk of 8 bytes the file `/f` is created and five bytes are
written; the root then has size 5, and `File_resize` of `/f` to 9 bytes, which
needs 4 more bytes than the 3 left, returns `-ENOSPC` and leaves the tree. -/
theorem C23_quota_witness :
    ∃ root, fsCalls 8 (File_create "/".toList false)
          [FsCall.mknod "/f".toList, FsCall.write "/f".toList [1, 2, 3, 4, 5] 5 0] =
        some root ∧
      root.size = 5 ∧ (root.size : Int) ≤ 8 ∧
      File_resize 8 root (some [Step.children]) 9 = (-ENOSPC, root) := by
  obtain ⟨root, h1, h2, _, h4⟩ := C23_quota 8
    [FsCall.mknod "/f".toList, FsCall.write "/f".toList [1, 2, 3, 4, 5] 5 0]
    (by decide) (by decide) (by decide)
  have h5 := MyThreadLib.option_eq_get (fsCalls 8 (File_create "/".toList false)
    [FsCall.mknod "/f".toList, FsCall.write "/f".toList [1, 2, 3, 4, 5] 5 0]) rfl
  rw [h5] at h1
  cases h1
  exact ⟨_, h5, by decide, h2, h4 [Step.children] 9 (by decide) (by decide) (by decide)⟩

/-! ## The containment check of `ramdisk_rename` -/

/-- A renaming whose old path is a proper initial segment of the new one is
refused by the containment check of `ramdisk_rename`. -/
theorem rename_check (root : FileInfo) (src dst : List Char) (h : src ≠ dst) :
    src.isPrefixOf dst = true → ramdisk_rename root src dst = some (-EINVAL, root) := by
  intro hp
  unfold ramdisk_rename
  rw [if_neg h, if_pos hp]

/-- No other return of `ramdisk_rename` yields `-EINVAL`. -/
theorem rename_einval (root r : FileInfo) (src dst : List Char) (h : src ≠ dst)
    (hr : ramdisk_rename root src dst = some (-EINVAL, r)) :
    src.isPrefixOf dst = true := by
  by_contra hp
  unfold ramdisk_rename at hr
  rw [if_neg h, if_neg hp] at hr
  dsimp only at hr
  split at hr
  · simp [EINVAL, EBUSY] at hr
  · split at hr
    · simp [EINVAL, ENOENT] at hr
    · simp [EINVAL, ENOENT] at hr
    · split at hr
      · simp [EINVAL, ENOTDIR] at hr
      · split at hr
        · simp [EINVAL, ENOTEMPTY] at hr
        · split at hr
          · simp [EINVAL, EISDIR] at hr
          · split at hr
            · simp [EINVAL, ENOTDIR] at hr
            · split at hr
              · simp at hr
              · split at hr
                · simp [EINVAL] at hr
                · simp [EINVAL] at hr
                · simp at hr

/-! ## Renaming into a sibling whose name extends the old name -/

/-- C24: `ramdisk_rename` of the directory `/a` to the sibling `/ab`, which is not
inside `/a`, is refused with `-EINVAL` by the containment check, the test being
that the old path is an initial segment of the new one. -/
theorem C24_rename_rejects_sibling :
    ramdisk_mkdir (File_create "/".toList false) "/a".toList =
        (0, .node "/".toList none 0 false (.node "/a".toList none 0 false .null .null) .null) ∧
      ("/a".toList ++ ['/']).isPrefixOf "/ab".toList = false ∧
      ramdisk_rename
          (.node "/".toList none 0 false (.node "/a".toList none 0 false .null .null) .null)
          "/a".toList "/ab".toList =
        some (-EINVAL,
          .node "/".toList none 0 false (.node "/a".toList none 0 false .null .null) .null) := by
  decide

/-! ## Completeness of the lookup -/

/-- C25: on a tree in which the name of every child begins with the name of its
parent, `File_find` returns what an exhaustive traversal returns; the node it
returns is named `path`, and it returns `NULL` exactly when no node of the tree is
named `path`.  `File_find` is a total function: it terminates on every tree. -/
theorem C25_find_complete (root : FileInfo) (path : List Char)
    (h : namesExtend [] root = true) :
    File_find path root = File_find_exhaustive path root ∧
      (∀ p, File_find path root = some p →
        deref p root ≠ .null ∧ (deref p root).name = path) ∧
      (File_find path root = none ↔
        ∀ p, deref p root ≠ .null → (deref p root).name ≠ path) := by
  have heq := find_eq_exhaustive [] path root h
  refine ⟨heq, ?_, ?_⟩
  · intro p hp
    obtain ⟨d, s, f, ch, nx, hd⟩ := find_deref path root p hp
    rw [hd]
    exact ⟨by simp, rfl⟩
  · constructor
    · intro hn
      rw [heq] at hn
      exact exhaustive_none path root hn
    · intro hall
      cases hf : File_find path root with
      | none => rfl
      | some p =>
        obtain ⟨d, s, f, ch, nx, hd⟩ := find_deref path root p hf
        exact absurd (by rw [hd]; rfl) (hall p (by rw [hd]; simp))

/-- C25 (witness): the tree with `/a`, `/a/f` and `/ab` below the root `/`;
`/ab` is found behind the subtree of `/a`. -/
theorem C25_find_complete_witness :
    namesExtend []
        (.node "/".toList none 0 false
          (.node "/a".toList none 0 false (.node "/a/f".toList none 0 true .null .null)
            (.node "/ab".toList none 0 true .null .null)) .null) = true ∧
      File_find "/ab".toList
          (.node "/".toList none 0 false
            (.node "/a".toList none 0 false (.node "/a/f".toList none 0 true .null .null)
              (.node "/ab".toList none 0 true .null .null)) .null) =
        some [Step.children, Step.next] ∧
      File_find "/ab".toList
          (.node "/".toList none 0 false
            (.node "/a".toList none 0 false (.node "/a/f".toList none 0 true .null .null)
              (.node "/ab".toList none 0 true .null .null)) .null) =
        File_find_exhaustive "/ab".toList
          (.node "/".toList none 0 false
            (.node "/a".toList none 0 false (.node "/a/f".toList none 0 true .null .null)
              (.node "/ab".toList none 0 true .null .null)) .null) :=
  ⟨by decide, by decide,
    (C25_find_complete
      (.node "/".toList none 0 false
        (.node "/a".toList none 0 false (.node "/a/f".toList none 0 true .null .null)
          (.node "/ab".toList none 0 true .null .null)) .null)
      "/ab".toList (by decide)).1⟩

/-! ## Directory sizes after a renaming -/

/-- C26: a file of five bytes is written in `/a` and renamed into `/b`.  Every
call succeeds; afterwards the `size` of `/a` is still 5 though no file is left
below it, and the `size` of `/b` is 0 though the file of five bytes is its child. -/
theorem C26_rename_keeps_sizes :
    ∃ r1 r2 r3 r4 r5,
      ramdisk_mkdir (File_create "/".toList false) "/a".toList = (0, r1) ∧
      ramdisk_mkdir r1 "/b".toList = (0, r2) ∧
      ramdisk_mknod r2 "/a/f".toList = (0, r3) ∧
      ramdisk_write 1048576 r3 "/a/f".toList [1, 2, 3, 4, 5] 5 0 = some (5, r4) ∧
      ramdisk_rename r4 "/a/f".toList "/b/f".toList = some (0, r5) ∧
      File_find "/a".toList r5 = some [Step.children, Step.next] ∧
      (deref [Step.children, Step.next] r5).isFile = false ∧
      (deref [Step.children, Step.next] r5).size = 5 ∧
      totalSize (deref [Step.children, Step.next] r5).children = 0 ∧
      File_find "/b".toList r5 = some [Step.children] ∧
      (deref [Step.children] r5).isFile = false ∧
      (deref [Step.children] r5).size = 0 ∧
      totalSize (deref [Step.children] r5).children = 5 :=
  ⟨_, _, _, _, _, rfl, rfl, rfl, rfl, rfl, by decide, by decide, by decide, by decide,
    by decide, by decide, by decide, by decide⟩

end Ramdisk
